import Mathlib

/-!
Verification of the lsx configuration/module library.

The development shallow-embeds the Go sources of the repository:
`config.go` (the `Config` map type, dot-path resolution in `Config.get`,
`Scope`, `Parent`, `Len`, `GetStr`, `MarshalJSON`, `toStringWithOpts`)
and `module.go` (`ModuleType`, `ParseModuleType`, `isValidModuleType`,
`errUnknownModuleType`).

Modelling conventions:
* Go `interface{}` values that can inhabit a configuration tree are the
  inductive `Value` below.  JSON deserialization produces null, bool,
  float64, string, `[]interface{}` and `map[string]interface{}`; in
  addition the code traverses struct values and stores `Config`-typed
  values (the parent back-reference), and function values may be placed
  into a map programmatically.  Pointers and interfaces are transparently
  dereferenced by `derefValue` in the source, so the model's value
  universe is pointer-free.
* Go maps are unordered; the model represents a map as an association
  list and takes the list order as the (unspecified) enumeration order.
  Go guarantees unique keys, which the list model only enjoys under the
  `nodup` hypotheses stated where relevant.
* JSON numbers decode to Go `float64`.  Every `float64` is a dyadic
  rational and all arithmetic performed on them here (comparisons with
  small integers, `math.Mod(x, 1)`, truncation to `uint8`) is exact, so
  numbers are modelled as `ℚ`.
* All recursive functions take explicit fuel and wrappers supply a
  sufficient bound, keeping every definition kernel-reducible so that
  concrete runs can be settled by `decide`/`rfl`.
-/

namespace Lsx

/-- ASCII upper-casing of one character, the effect of Go's
`strings.ToUpper` on the ASCII paths used by `getEnvVarName`. -/
def upChar (c : Char) : Char :=
  if 'a' ≤ c ∧ c ≤ 'z' then Char.ofNat (c.toNat - 32) else c

/-- ASCII lower-casing of one character. -/
def lowChar (c : Char) : Char :=
  if 'A' ≤ c ∧ c ≤ 'Z' then Char.ofNat (c.toNat + 32) else c

/-- Models Go's `strings.EqualFold`, which compares strings under simple
case folding; on the ASCII data handled here this is lower-case
equality. -/
def eqFold (s t : String) : Bool :=
  s.data.map lowChar == t.data.map lowChar

/-- Models `strings.Split(path, ".")`: splitting on every dot, keeping
empty fields, and producing `[""]` for the empty string. -/
def splitDot : List Char → List (List Char)
  | [] => [[]]
  | c :: r =>
    match splitDot r with
    | [] => if c = '.' then [[], []] else [[c]]
    | h :: t => if c = '.' then [] :: h :: t else (c :: h) :: t

/-- The dot-separated tokens of a path. -/
def pathTokens (path : String) : List String :=
  (splitDot path.data).map String.mk

/-- Models `getEnvVarName` from config.go: prefix `LSX_`, upper-case the
path and turn every dot into an underscore. -/
def getEnvVarName (path : String) : String :=
  "LSX_" ++ String.mk (path.data.map (fun c => if c = '.' then '_' else upChar c))

/-- The process environment, as observed through `os.Getenv`: a total
map from variable names to values, where the empty string doubles as
"unset" exactly as in Go. -/
def Env : Type := String → String

/-- The value universe of a configuration tree (see the module header
for the correspondence with Go dynamic types).  The `Bool` on `vObj`
records whether the Go dynamic type is the named type `lsx.Config`
(`true`) or a plain `map[string]interface{}` (`false`); reflection
treats both as kind `Map`, but type assertions and type switches in the
source distinguish them. -/
inductive Value where
  | vNull : Value
  | vBool : Bool → Value
  | vNum : ℚ → Value
  | vStr : String → Value
  | vArr : List Value → Value
  | vObj : Bool → List (String × Value) → Value
  | vRec : List (String × Value) → Value
  | vFunc : String → Value

/-- Go's `x == nil` test on an `interface{}` value: true exactly for the
nil interface, which `vNull` models. -/
def Value.isNull : Value → Bool
  | .vNull => true
  | _ => false

/-- A `Config` is the field list of the underlying Go map. -/
abbrev Config := List (String × Value)

def configScopeKey : String := "@scope@"

def configParentKey : String := "@parent@"

/-- Exact-key lookup, Go's `c[key]` on the map model. -/
def findVal : Config → String → Option Value
  | [], _ => none
  | (k, v) :: r, key => if k = key then some v else findVal r key

/-- Replace the value of the first exact occurrence of a key, or append
the binding: Go's `m[key] = v`. -/
def setKey : Config → String → Value → Config
  | [], key, v => [(key, v)]
  | (k, w) :: r, key, v =>
    if k = key then (k, v) :: r else (k, w) :: setKey r key v

/-- First field whose key case-insensitively matches the token, with its
position; the scan order models the map's enumeration order. -/
def findFoldIdx : List (String × Value) → String → Option (Nat × Value)
  | [], _ => none
  | (k, v) :: r, tok =>
    if eqFold tok k then some (0, v)
    else
      match findFoldIdx r tok with
      | some (i, w) => some (i + 1, w)
      | none => none

/-- Replace the value component at a position, keeping the key. -/
def setValAt : List (String × Value) → Nat → Value → List (String × Value)
  | [], _, _ => []
  | (k, _) :: r, 0, x => (k, x) :: r
  | (k, v) :: r, i + 1, x => (k, v) :: setValAt r i x

/-! ### Decimal rendering

Go renders the numbers appearing here (`%v`, `%d` on integer kinds,
`json.Marshal` of `float64`) in base 10 without exponents; these helpers
produce that text.  They are fueled so the kernel can evaluate them. -/

def digitChar (d : Nat) : Char := Char.ofNat (48 + d)

def natToDigitsAux : Nat → Nat → List Char
  | 0, _ => []
  | fuel + 1, n =>
    if n < 10 then [digitChar n]
    else natToDigitsAux fuel (n / 10) ++ [digitChar (n % 10)]

/-- Base-10 digits of a natural number (`n + 1` is always enough fuel,
since a number has at most `n` digits). -/
def natToDigits (n : Nat) : List Char := natToDigitsAux (n + 1) n

def natRepr (n : Nat) : String := String.mk (natToDigits n)

def intRepr : Int → String
  | .ofNat n => natRepr n
  | .negSucc m => "-" ++ natRepr (m + 1)

/-- Decimal digits of the fraction `r / d` (with `r < d`) by long
division; for the dyadic rationals a `float64` can hold the expansion
terminates (within 1100 digits for any finite `float64`). -/
def fracDigitsND : Nat → Nat → Nat → List Char
  | 0, _, _ => []
  | fuel + 1, r, d =>
    if r = 0 then []
    else digitChar (r * 10 / d) :: fracDigitsND fuel (r * 10 % d) d

def gFormatPos (n d : Nat) : String :=
  natRepr (n / d) ++
    (if d = 1 then "" else "." ++ String.mk (fracDigitsND 1100 (n % d) d))

/-- Models the shortest base-10 rendering Go uses for `float64` values
(`%v` and `json.Marshal`, i.e. `strconv.FormatFloat(_, 'g', -1, 64)`)
on the non-exponent range that configuration data inhabits: integral
values print without a decimal point, others print their exact
terminating expansion. -/
def gFormat (q : ℚ) : String :=
  if q.num < 0 then "-" ++ gFormatPos q.num.natAbs q.den
  else gFormatPos q.num.toNat q.den

/-! ### The JSON encoder

`Config.MarshalJSON` (config.go) writes the object frame itself and
delegates each value to `encoding/json.Marshal`, which in turn calls
back into `Config.MarshalJSON` for nested `Config`-typed values.  The
fueled functions below model that bundle.  Braces are written with
escapes throughout. -/

def obrace : Char := '\x7b'

def cbrace : Char := '\x7d'

/-- A lowercase hex digit, as `encoding/json` renders `\u00XY`. -/
def hexChar (d : Nat) : Char :=
  if d < 10 then Char.ofNat (48 + d) else Char.ofNat (87 + d)

/-- JSON string escaping as performed by `encoding/json` with its
default options: `"` and `\\` get a backslash, `\n`/`\r`/`\t` their
short escapes, other control characters and the HTML-escaped `<`, `>`,
`&` become `\u00XY` with lowercase hex, the line separators U+2028 and
U+2029 their `\u` escapes, and every other rune is written as is. -/
def escChar (c : Char) : List Char :=
  if c = '\x22' then ['\\', '\x22']
  else if c = '\\' then ['\\', '\\']
  else if c = '\n' then ['\\', 'n']
  else if c = '\r' then ['\\', 'r']
  else if c = '\t' then ['\\', 't']
  else if c.toNat < 32 ∨ c = '<' ∨ c = '>' ∨ c = '&' then
    ['\\', 'u', '0', '0', hexChar (c.toNat / 16), hexChar (c.toNat % 16)]
  else if c = '\u2028' then ['\\', 'u', '2', '0', '2', '8']
  else if c = '\u2029' then ['\\', 'u', '2', '0', '2', '9']
  else [c]

def quoteStr (s : String) : String :=
  String.mk ('\x22' :: (s.data.flatMap escChar) ++ ['\x22'])

mutual

/-- One fueled step of the marshal bundle: `jsonMarshalAux` is
`encoding/json.Marshal`; `jsonListAux`/`jsonFieldsAux` are its element
loops; `mcEntriesAux` is the key/value loop of `Config.MarshalJSON`
with its `cx`/`cl` comma bookkeeping; `marshalConfigAux` is
`Config.MarshalJSON` itself.  A function value is unsupported and
surfaces as an `error` (Go's `UnsupportedTypeError`). -/
def jsonMarshalAux : Nat → Value → Except String String
  | 0, _ => .error "fuel"
  | fuel + 1, v =>
    match v with
    | .vNull => .ok "null"
    | .vBool b => .ok (if b then "true" else "false")
    | .vNum q => .ok (gFormat q)
    | .vStr s => .ok (quoteStr s)
    | .vArr l =>
      match jsonListAux fuel l with
      | .ok es => .ok ("[" ++ es ++ "]")
      | .error e => .error e
    | .vObj false f =>
      match jsonFieldsAux fuel f with
      | .ok es => .ok (String.mk [obrace] ++ es ++ String.mk [cbrace])
      | .error e => .error e
    | .vObj true f => marshalConfigAux fuel f
    | .vRec f =>
      match jsonFieldsAux fuel f with
      | .ok es => .ok (String.mk [obrace] ++ es ++ String.mk [cbrace])
      | .error e => .error e
    | .vFunc t => .error ("json: unsupported type: " ++ t)
termination_by structural fuel => fuel

def jsonListAux : Nat → List Value → Except String String
  | 0, _ => .error "fuel"
  | _ + 1, [] => .ok ""
  | fuel + 1, x :: r =>
    match jsonMarshalAux fuel x with
    | .error e => .error e
    | .ok s =>
      match r with
      | [] => .ok s
      | _ =>
        match jsonListAux fuel r with
        | .error e => .error e
        | .ok t => .ok (s ++ "," ++ t)
termination_by structural fuel _ => fuel

def jsonFieldsAux : Nat → List (String × Value) → Except String String
  | 0, _ => .error "fuel"
  | _ + 1, [] => .ok ""
  | fuel + 1, (k, x) :: r =>
    match jsonMarshalAux fuel x with
    | .error e => .error e
    | .ok s =>
      match r with
      | [] => .ok (quoteStr k ++ ":" ++ s)
      | _ =>
        match jsonFieldsAux fuel r with
        | .error e => .error e
        | .ok t => .ok (quoteStr k ++ ":" ++ s ++ "," ++ t)
termination_by structural fuel _ => fuel

/-- The `for k, v := range c` loop of `Config.MarshalJSON`: reserved
keys are skipped by exact comparison, each kept key is written verbatim
(the source does not escape keys), and a comma follows while
`cx < cl-1`. -/
def mcEntriesAux : Nat → List (String × Value) → Nat → Nat → Except String String
  | 0, _, _, _ => .error "fuel"
  | _ + 1, [], _, _ => .ok ""
  | fuel + 1, (k, v) :: r, cx, cl =>
    if k = configScopeKey ∨ k = configParentKey then mcEntriesAux fuel r cx cl
    else
      match jsonMarshalAux fuel v with
      | .error e => .error e
      | .ok s =>
        match mcEntriesAux fuel r (cx + 1) cl with
        | .error e => .error e
        | .ok t =>
          .ok ("\x22" ++ k ++ "\x22:" ++ s ++ (if cx < cl - 1 then "," else "") ++ t)
termination_by structural fuel _ _ _ => fuel

def marshalConfigAux : Nat → Config → Except String String
  | 0, _ => .error "fuel"
  | fuel + 1, c =>
    let cl := c.length
      - (match findVal c configScopeKey with | some (.vStr _) => 1 | _ => 0)
      - (match findVal c configParentKey with | some (.vObj true _) => 1 | _ => 0)
    match mcEntriesAux fuel c 0 cl with
    | .error e => .error e
    | .ok es => .ok (String.mk [obrace] ++ es ++ String.mk [cbrace])
termination_by structural fuel _ => fuel

end

mutual

/-- Executable structural size of a value, used to hand the fueled
functions enough fuel. -/
def vsize : Value → Nat
  | .vNull => 1
  | .vBool _ => 1
  | .vNum _ => 1
  | .vStr _ => 1
  | .vArr l => 1 + lsizeV l
  | .vObj _ f => 1 + fsizeV f
  | .vRec f => 1 + fsizeV f
  | .vFunc _ => 1

def lsizeV : List Value → Nat
  | [] => 1
  | x :: r => 1 + vsize x + lsizeV r

def fsizeV : List (String × Value) → Nat
  | [] => 1
  | (_, v) :: r => 1 + vsize v + fsizeV r

end

/-- `encoding/json.Marshal` with enough fuel: every recursive hop of the
fueled bundle consumes at least one unit of `vsize`. -/
def jsonMarshal (v : Value) : Except String String :=
  jsonMarshalAux (vsize v + 1) v

/-- `Config.MarshalJSON` with enough fuel. -/
def marshalConfig (c : Config) : Except String String :=
  marshalConfigAux (fsizeV c + 2) c

/-! ### Stringification (`toString` / `toStringWithOpts` in config.go) -/

/-- `toStringWithOpts(v, false)`: only the type-switch cases apply.  Of
the model's value universe, a string is returned as itself and a
`Config`-typed value implements `json.Marshaler` (its `MarshalJSON`
method), whose error, if any, is returned as the error's text; every
other shape falls through to the `!deep` early return of `""`. -/
def toStrShallow : Value → String
  | .vStr s => s
  | .vObj true f =>
    match marshalConfig f with
    | .ok s => s
    | .error e => e
  | _ => ""

/-- The `reflect.Kind` numbering used by the source's range comparisons
(`k >= reflect.Bool && k <= reflect.Complex128` and friends), applied to
the dynamic types of the model: nil interface → Invalid (0), bool →
Bool (1), float64 → Float64 (14), string → String (24),
`[]interface{}` → Slice (23), maps → Map (21), struct → Struct (25),
func → Func (19). -/
def kindOf : Value → Nat
  | .vNull => 0
  | .vBool _ => 1
  | .vNum _ => 14
  | .vStr _ => 24
  | .vArr _ => 23
  | .vObj _ _ => 21
  | .vRec _ => 25
  | .vFunc _ => 19

/-- `fmt.Sprintf("%d", v)` for the kinds the source funnels into it
(Bool through Complex128).  Only integer kinds yield plain base-10
text; for a bool or a float64 Go's fmt emits its bad-verb notation
`%!d(type=value)`. -/
def sprintfD : Value → String
  | .vBool b => "%!d(bool=" ++ (if b then "true" else "false") ++ ")"
  | .vNum q => "%!d(float64=" ++ gFormat q ++ ")"
  | _ => ""

/-- `%T` of a value, used by the source for channel and func kinds. -/
def typeNameOf : Value → String
  | .vFunc t => t
  | _ => ""

/-- `toStringWithOpts(v, deep)` from config.go.  The type switch first
handles string-like capabilities (`string`, `fmt.Stringer`,
`json.Marshaler`, `encoding.TextMarshaler`) — in the model's universe a
string itself and the `json.Marshaler` implementation of a
`Config`-typed value.  With `deep` the source then branches on the
reflected kind; a nil interface reflects as an invalid value and falls
through every branch to `""`. -/
def toStringWithOpts (v : Value) (deep : Bool) : String :=
  match v with
  | .vStr s => s
  | .vObj true f =>
    match marshalConfig f with
    | .ok s => s
    | .error e => e
  | _ =>
    if !deep then ""
    else
      let k := kindOf v
      if 1 ≤ k ∧ k ≤ 16 then sprintfD v
      else if k = 17 ∨ k = 23 ∨ k = 21 ∨ k = 25 then
        match jsonMarshal v with
        | .ok s => s
        | .error e => e
      else if k = 18 ∨ k = 19 then typeNameOf v
      else ""

/-- `toString` from config.go. -/
def toStr (v : Value) : String := toStringWithOpts v true

/-! ### Path traversal (the token loop of `Config.get`)

`traverseV` walks the token list exactly as the `for tokIdx, tok :=
range tokens` loop does, and additionally returns the rebuild function
("plug") that replaces the finally-resolved value inside the original
tree.  The plug is what lets the model express that `Scope` mutates the
resolved sub-map in place (Go maps are references and
`Config(m)[k] = v` writes through to the tree that contains `m`).  The
plug model is exact for trees without internally aliased sub-maps, as
produced by JSON deserialization. -/

/-- Scan of one sequence element that is a map (`case reflect.Map`
inside the `reflect.Array, reflect.Slice` arm): only a key whose text
folds to `name` is considered, and the element as a whole is selected
when that key's shallow string value folds to the token.  There is no
generic key match in this arm. -/
def mapElemNameHit (fields : List (String × Value)) (tok : String) : Bool :=
  fields.any fun kv => eqFold "name" kv.1 && eqFold tok (toStrShallow kv.2)

/-- Scan of one sequence element that is a struct (`case reflect.Struct`
inside the sequence arm): fields are visited in declaration order; a
field named `name` (case-insensitively) with a string value folding to
the token selects the whole element (`Sum.inl`), any other field whose
name folds to the token selects that field's value (`Sum.inr`, with its
position); the first such event wins. -/
def recNameVal : Value → String → Bool
  | .vStr s, tok => eqFold tok s
  | _, _ => false

def recScan : List (String × Value) → String → Nat → Option (Unit ⊕ (Nat × Value))
  | [], _, _ => none
  | (f, v) :: r, tok, i =>
    if eqFold "name" f then
      (if recNameVal v tok then some (.inl ()) else recScan r tok (i + 1))
    else if eqFold tok f then some (.inr (i, v))
    else recScan r tok (i + 1)

/-- The match of the token against one sequence element, returning the
selected value and the plug that rewrites the element. -/
def elemHit (el : Value) (tok : String) : Option (Value × (Value → Value)) :=
  match el with
  | .vObj flag fields =>
    if mapElemNameHit fields tok then some (.vObj flag fields, fun x => x) else none
  | .vRec fields =>
    match recScan fields tok 0 with
    | some (.inl _) => some (.vRec fields, fun x => x)
    | some (.inr (i, v)) => some (v, fun x => .vRec (setValAt fields i x))
    | none => none
  | _ => none

/-- The sequence arm: Go scans every element and keeps overwriting
`next`, so the last matching element provides the result. -/
def arrScan : List Value → String → Option (Value × (Value → List Value))
  | [], _ => none
  | el :: rest, tok =>
    match arrScan rest tok with
    | some (v, pl) => some (v, fun x => el :: pl x)
    | none =>
      match elemHit el tok with
      | some (v, ep) => some (v, fun x => ep x :: rest)
      | none => none

/-- One iteration of the token loop: the branch on the cursor's
reflected kind.  Scalars and funcs have no arm, so `next` stays nil. -/
def stepV (cur : Value) (tok : String) : Value × (Value → Value) :=
  match cur with
  | .vObj flag fields =>
    match findFoldIdx fields tok with
    | some (i, v) => (v, fun x => .vObj flag (setValAt fields i x))
    | none => (.vNull, fun x => x)
  | .vArr els =>
    match arrScan els tok with
    | some (v, pl) => (v, fun x => .vArr (pl x))
    | none => (.vNull, fun x => x)
  | .vRec fields =>
    match findFoldIdx fields tok with
    | some (i, v) => (v, fun x => .vRec (setValAt fields i x))
    | none => (.vNull, fun x => x)
  | _ => (.vNull, fun x => x)

/-- The whole token loop, with the composed plug.  A nil `next` breaks
out of the loop (a stored JSON null and "no match" are the same nil
interface in Go). -/
def traverseV : Value → List String → Value × (Value → Value)
  | cur, [] => (cur, fun x => x)
  | cur, tok :: rest =>
    let s := stepV cur tok
    if s.1.isNull then (.vNull, fun x => x)
    else
      let t := traverseV s.1 rest
      (t.1, fun x => s.2 (t.2 x))

/-- The pure result of the token loop started at a `Config` receiver. -/
def resolvePath (c : Config) (path : String) : Value :=
  (traverseV (.vObj true c) (pathTokens path)).1

/-! ### The `Config` operations -/

/-- `Config.Parent` from config.go: the exact-keyed `@parent@` entry if
it is `Config`-typed or a plain map, nil otherwise. -/
def Config.Parent (c : Config) : Option Config :=
  match findVal c configParentKey with
  | some (.vObj _ m) => some m
  | _ => none

/-- `Config.Len` from config.go: the key count less the reserved keys
that are present. -/
def Config.Len (c : Config) : Nat :=
  c.length
    - (match findVal c configScopeKey with | some _ => 1 | _ => 0)
    - (match findVal c configParentKey with | some _ => 1 | _ => 0)

/-- `Config.get` from config.go, fueled on the parent chain: check the
environment override, run the token loop, and on a nil cursor either
stop (`askParent = false`), delegate the full original path to the
parent, or yield nil when no parent remains. -/
def getAux : Nat → Env → Config → String → Bool → Value
  | 0, _, _, _, _ => .vNull
  | fuel + 1, env, c, path, askParent =>
    if env (getEnvVarName path) ≠ "" then .vStr (env (getEnvVarName path))
    else
      let r := resolvePath c path
      if ¬r.isNull then r
      else if ¬askParent then .vNull
      else
        match Config.Parent c with
        | some par => getAux fuel env par path askParent
        | none => .vNull

/-- A parent entry is a structural part of its child, so the chain is no
longer than the tree is big; `fsizeV c + 1` is always enough fuel. -/
def Config.get (env : Env) (c : Config) (path : String) (askParent : Bool) : Value :=
  getAux (fsizeV c + 1) env c path askParent

/-- `Config.Get` from config.go. -/
def Config.Get (env : Env) (c : Config) (path : String) : Value :=
  Config.get env c path true

/-- `Config.GetStr` from config.go. -/
def Config.GetStr (env : Env) (c : Config) (path : String) : String :=
  toStr (Config.Get env c path)

/-- `Config.Scope` from config.go.  The call resolves the path without
parent-fallback (including the environment short-circuit of `get`); a
result that is not a plain `map[string]interface{}` fails the type
assertion and yields nil.  Otherwise the resolved map itself — shared
with the tree it was found in — receives the `@parent@` and `@scope@`
keys; the second component is the original tree as it stands after that
in-place write (the plug applied to the updated sub-map). -/
def Config.Scope (env : Env) (c : Config) (scope : String) : Option Config × Config :=
  if env (getEnvVarName scope) ≠ "" then (none, c)
  else
    match traverseV (.vObj true c) (pathTokens scope) with
    | (.vObj false m, pl) =>
      let m' := setKey (setKey m configParentKey (.vObj true c)) configScopeKey (.vStr scope)
      match pl (.vObj false m') with
      | .vObj _ f => (some m', f)
      | _ => (some m', c)
    | _ => (none, c)

/-! ### `ModuleType` and `ParseModuleType` (module.go)

A `ModuleType` is a `uint8`; constants run from `InvalidModuleType = 0`
to `VolumeModuleType = 5` (`maxModuleType`).  `ParseModuleType` takes an
`interface{}`; the inductive `PV` enumerates the dynamic types its
switch distinguishes, with `pNil` for an absent (nil) input.  Pointer
constructors model the single level of typed indirection the switch
dereferences; `pStringer` models any `fmt.Stringer` with the given
`String()` text.  Numeric payloads carry the mathematical value of the
Go datum (widths are enforced by range hypotheses where theorems need
them); floats are `ℚ` as in the value model. -/

inductive PV where
  | pNil : PV
  | pMT : Nat → PV
  | pPtrMT : Nat → PV
  | pU8 : Nat → PV
  | pPtrU8 : Nat → PV
  | pU16 : Nat → PV
  | pPtrU16 : Nat → PV
  | pU32 : Nat → PV
  | pPtrU32 : Nat → PV
  | pU64 : Nat → PV
  | pPtrU64 : Nat → PV
  | pUInt : Nat → PV
  | pPtrUInt : Nat → PV
  | pI8 : Int → PV
  | pPtrI8 : Int → PV
  | pI16 : Int → PV
  | pPtrI16 : Int → PV
  | pI32 : Int → PV
  | pPtrI32 : Int → PV
  | pI64 : Int → PV
  | pPtrI64 : Int → PV
  | pInt : Int → PV
  | pPtrInt : Int → PV
  | pF32 : ℚ → PV
  | pPtrF32 : ℚ → PV
  | pF64 : ℚ → PV
  | pPtrF64 : ℚ → PV
  | pStringer : String → PV
  | pStr : String → PV
  | pPtrStr : String → PV
deriving DecidableEq

/-- `ModuleType.String` from module.go. -/
def mtString : Nat → String
  | 1 => "client"
  | 2 => "config"
  | 3 => "logger"
  | 4 => "server"
  | 5 => "volume"
  | _ => "invalid"

/-- Go's `%v` rendering of the inputs `ParseModuleType` can receive.
The `fmt` package consults `String()` for a `fmt.Stringer` — which a
`ModuleType` is — and prints `<nil>` for a nil interface.  Pointer
shapes never reach a `%v` (every pointer case returns early), so their
rendering is irrelevant; `<ptr>` stands in. -/
def renderGo : PV → String
  | .pNil => "<nil>"
  | .pMT n => mtString n
  | .pU8 n | .pU16 n | .pU32 n | .pU64 n | .pUInt n => natRepr n
  | .pI8 i | .pI16 i | .pI32 i | .pI64 i | .pInt i => intRepr i
  | .pF32 q | .pF64 q => gFormat q
  | .pStringer s => s
  | .pStr s => s
  | _ => "<ptr>"

/-- The `v = uint8(mt)` conversion at the top of
`errUnknownModuleType`: a `ModuleType` operand is demoted to its raw
`uint8` so that `%v` shows the ordinal, not the role name. -/
def demoteMT : PV → PV
  | .pMT n => .pU8 n
  | v => v

/-- `errUnknownModuleType` from module.go: the result value is
`InvalidModuleType` (0) alongside the formatted error. -/
def errUnknownModuleType (v : PV) : Nat × Option String :=
  (0, some ("error: invalid module type: " ++ renderGo (demoteMT v)))

/-- `isValidModuleType` from module.go. -/
def isValidModuleType (v : Nat) : Nat × Option String :=
  if v < 1 ∨ v > 5 then errUnknownModuleType (.pMT v) else (v, none)

/-- The `case uint8` and kin: a value already within `uint8` range. -/
def parseMTU8 (n : Nat) : Nat × Option String := isValidModuleType n

/-- The `case uint16/uint32/uint64` bodies: guard `tv <= 255`, convert
to `uint8`; on guard failure fall through to `errUnknownModuleType`
applied to the value as the recursive call received it. -/
def parseMTUWide (orig : PV) (n : Nat) : Nat × Option String :=
  if n ≤ 255 then isValidModuleType n else errUnknownModuleType orig

/-- The `case int8` body: guard `tv > 0 && tv <= 127`. -/
def parseMTI8 (i : Int) : Nat × Option String :=
  if 0 < i ∧ i ≤ 127 then isValidModuleType i.toNat
  else errUnknownModuleType (.pI8 i)

/-- The `case int16/int32/int64` bodies: guard `tv > 0 && tv <= 255`. -/
def parseMTIWide (orig : PV) (i : Int) : Nat × Option String :=
  if 0 < i ∧ i ≤ 255 then isValidModuleType i.toNat
  else errUnknownModuleType orig

/-- The float cases: guard `tv > 0 && tv <= 255`, then require a whole
number (`math.Mod(tv, 1) == 0`, i.e. denominator 1 — exact for the
positive in-range floats concerned); `uint8(tv)` is then the numerator. -/
def parseMTFloat (orig : PV) (q : ℚ) : Nat × Option String :=
  if 0 < q ∧ q ≤ 255 ∧ q.den = 1 then isValidModuleType q.num.toNat
  else errUnknownModuleType orig

/-- The `case string` loop: try each role name `1..maxModuleType` under
`strings.EqualFold`, else fall through to the error. -/
def parseMTStr (s : String) : Nat × Option String :=
  if eqFold s (mtString 1) then (1, none)
  else if eqFold s (mtString 2) then (2, none)
  else if eqFold s (mtString 3) then (3, none)
  else if eqFold s (mtString 4) then (4, none)
  else if eqFold s (mtString 5) then (5, none)
  else errUnknownModuleType (.pStr s)

/-- `ParseModuleType` from module.go.  Each pointer case dereferences
and re-dispatches exactly as the source's recursive call does (spelled
out here case by case, so the function is plain structural): note that
`case *ModuleType` returns the pointed-to value with no validation and
no error, unlike every other case.  `uint`/`int` re-dispatch through
`uint64`/`int64`, and a `fmt.Stringer` through its `String()` text. -/
def ParseModuleType : PV → Nat × Option String
  | .pMT n => isValidModuleType n
  | .pPtrMT n => (n, none)
  | .pU8 n => parseMTU8 n
  | .pPtrU8 n => parseMTU8 n
  | .pU16 n => parseMTUWide (.pU16 n) n
  | .pPtrU16 n => parseMTUWide (.pU16 n) n
  | .pU32 n => parseMTUWide (.pU32 n) n
  | .pPtrU32 n => parseMTUWide (.pU32 n) n
  | .pU64 n => parseMTUWide (.pU64 n) n
  | .pPtrU64 n => parseMTUWide (.pU64 n) n
  | .pUInt n => parseMTUWide (.pU64 n) n
  | .pPtrUInt n => parseMTUWide (.pU64 n) n
  | .pI8 i => parseMTI8 i
  | .pPtrI8 i => parseMTI8 i
  | .pI16 i => parseMTIWide (.pI16 i) i
  | .pPtrI16 i => parseMTIWide (.pI16 i) i
  | .pI32 i => parseMTIWide (.pI32 i) i
  | .pPtrI32 i => parseMTIWide (.pI32 i) i
  | .pI64 i => parseMTIWide (.pI64 i) i
  | .pPtrI64 i => parseMTIWide (.pI64 i) i
  | .pInt i => parseMTIWide (.pI64 i) i
  | .pPtrInt i => parseMTIWide (.pI64 i) i
  | .pF32 q => parseMTFloat (.pF32 q) q
  | .pPtrF32 q => parseMTFloat (.pF32 q) q
  | .pF64 q => parseMTFloat (.pF64 q) q
  | .pPtrF64 q => parseMTFloat (.pF64 q) q
  | .pStringer s => parseMTStr s
  | .pStr s => parseMTStr s
  | .pPtrStr s => parseMTStr s
  | .pNil => errUnknownModuleType .pNil

/-! ### Supporting lemmas about the parent chain and fuel -/

theorem findVal_mem {c : Config} {k : String} {v : Value}
    (h : findVal c k = some v) : (k, v) ∈ c := by
  induction c with
  | nil => simp [findVal] at h
  | cons kv r ih =>
    obtain ⟨k', v'⟩ := kv
    by_cases hk : k' = k
    · subst hk
      simp [findVal] at h
      simp [h]
    · simp [findVal, hk] at h
      exact List.mem_cons_of_mem _ (ih h)

theorem vsize_pos (v : Value) : 0 < vsize v := by
  cases v <;> simp [vsize]

theorem fsizeV_pos (c : Config) : 0 < fsizeV c := by
  cases c with
  | nil => simp [fsizeV]
  | cons kv r => obtain ⟨k, v⟩ := kv; simp [fsizeV]

theorem vsize_lt_of_mem {c : Config} {k : String} {v : Value}
    (h : (k, v) ∈ c) : vsize v < fsizeV c := by
  induction c with
  | nil => simp at h
  | cons kv r ih =>
    obtain ⟨k', v'⟩ := kv
    rcases List.mem_cons.mp h with h1 | h2
    · obtain ⟨rfl, rfl⟩ := Prod.mk.injEq .. ▸ h1
      have := fsizeV_pos r
      simp [fsizeV]
      omega
    · have := ih h2
      simp [fsizeV]
      omega

/-- A parent is structurally inside its child, so the parent chain
shrinks the tree. -/
theorem parent_fsizeV {c par : Config} (h : Config.Parent c = some par) :
    fsizeV par < fsizeV c := by
  unfold Config.Parent at h
  cases hf : findVal c configParentKey with
  | none => rw [hf] at h; simp at h
  | some v =>
    rw [hf] at h
    cases v with
    | vObj b m =>
      simp at h
      subst h
      have := vsize_lt_of_mem (findVal_mem hf)
      simp [vsize] at this
      omega
    | vNull => simp at h
    | vBool b => simp at h
    | vNum q => simp at h
    | vStr s => simp at h
    | vArr l => simp at h
    | vRec f => simp at h
    | vFunc t => simp at h

/-- The result of `getAux` does not depend on the fuel, provided the
fuel exceeds the size of the tree. -/
theorem getAux_eq_get : ∀ fuel env (c : Config) path b, fsizeV c < fuel →
    getAux fuel env c path b = Config.get env c path b := by
  intro fuel
  induction fuel using Nat.strong_induction_on with
  | _ fuel ih =>
    intro env c path b h
    match fuel, h with
    | f + 1, h =>
      show getAux (f + 1) env c path b = getAux (fsizeV c + 1) env c path b
      rw [getAux, getAux]
      by_cases he : env (getEnvVarName path) ≠ ""
      · rw [if_pos he, if_pos he]
      · rw [if_neg he, if_neg he]
        by_cases hr : ¬(resolvePath c path).isNull = true
        · rw [if_pos hr, if_pos hr]
        · rw [if_neg hr, if_neg hr]
          by_cases hb : ¬b = true
          · rw [if_pos hb, if_pos hb]
          · rw [if_neg hb, if_neg hb]
            cases hp : Config.Parent c with
            | none => rfl
            | some par =>
              have hlt := parent_fsizeV hp
              show getAux f env par path b = getAux (fsizeV c) env par path b
              rw [ih f (Nat.lt_succ_self f) env par path b (by omega),
                ih (fsizeV c) (by omega) env par path b (by omega)]

/-- The everywhere-unset environment used by concrete runs. -/
def env0 : Env := fun _ => ""

/-- C1.  For every tree and dot-path, if the variable named by the fixed
`LSX_` prefix followed by the upper-cased, dot-to-underscore path is set
to a non-empty string `v`, `get` returns exactly `v` before consulting
any stored value — for either value of the parent-fallback flag, hence
at every traversal depth, and for the full path as given. -/
theorem c1_env_override (env : Env) (c : Config) (path v : String)
    (hset : env (getEnvVarName path) = v) (hne : v ≠ "") (askParent : Bool) :
    Config.get env c path askParent = .vStr v := by
  unfold Config.get
  rw [getAux]
  rw [hset]
  simp [hne]

def c1cfg : Config := [("a", .vObj false [("b", .vStr "stored")])]

def c1env : Env := fun s => if s = "LSX_A_B" then "over" else ""

theorem c1_env_override_witness :
    Config.get c1env c1cfg "a.b" true = .vStr "over" :=
  c1_env_override c1env c1cfg "a.b" "over" (by decide) (by decide) true

/-- C10.  If the environment override for the scoped path is set and
non-empty, `Scope`'s internal resolution short-circuits to that text
value, the `map[string]interface{}` assertion fails, and `Scope` yields
the absent tree without touching the receiver — even when the path
would structurally resolve to an associative container. -/
theorem c10_scope_env_override (env : Env) (c : Config) (scope v : String)
    (hset : env (getEnvVarName scope) = v) (hne : v ≠ "") :
    Config.Scope env c scope = (none, c) := by
  unfold Config.Scope
  rw [hset]
  simp [hne]

def c10env : Env := fun s => if s = "LSX_A" then "text" else ""

/-- The concrete tree resolves `a` to a plain associative container
when no override is set, yet the override makes `Scope` return the
absent tree. -/
theorem c10_scope_env_override_witness :
    resolvePath c1cfg "a" = .vObj false [("b", .vStr "stored")] ∧
    Config.Scope c10env c1cfg "a" = (none, c1cfg) :=
  ⟨rfl, c10_scope_env_override c10env c1cfg "a" "text" (by decide) (by decide)⟩

/-- Resolution fails on a whole ancestor chain: the override is unset,
token traversal ends in absence, and the same holds of every ancestor
up a chain that ends without a parent. -/
def chainFailsAux : Nat → Env → Config → String → Bool
  | 0, _, _, _ => false
  | fuel + 1, env, c, path =>
    (env (getEnvVarName path) = "" : Bool) && (resolvePath c path).isNull &&
      (match Config.Parent c with
       | some par => chainFailsAux fuel env par path
       | none => true)

def chainFails (env : Env) (c : Config) (path : String) : Prop :=
  chainFailsAux (fsizeV c + 1) env c path = true

theorem chainFailsAux_eq : ∀ fuel env (c : Config) path, fsizeV c < fuel →
    (chainFailsAux fuel env c path ↔ chainFails env c path) := by
  intro fuel
  induction fuel using Nat.strong_induction_on with
  | _ fuel ih =>
    intro env c path h
    match fuel, h with
    | f + 1, h =>
      show chainFailsAux (f + 1) env c path = true ↔
        chainFailsAux (fsizeV c + 1) env c path = true
      rw [chainFailsAux, chainFailsAux]
      cases hp : Config.Parent c with
      | none => rfl
      | some par =>
        have hlt := parent_fsizeV hp
        have h1 := ih f (Nat.lt_succ_self f) env par path (by omega)
        have h2 := ih (fsizeV c) (by omega) env par path (by omega)
        simp only [Bool.and_eq_true] at h1 h2 ⊢
        rw [h1, h2]

theorem chainFails_get_null : ∀ n env (c : Config) path, fsizeV c ≤ n →
    chainFails env c path → Config.Get env c path = .vNull := by
  intro n
  induction n using Nat.strong_induction_on with
  | _ n ih =>
    intro env c path hle hchain
    unfold chainFails at hchain
    rw [chainFailsAux] at hchain
    simp only [Bool.and_eq_true, decide_eq_true_eq] at hchain
    obtain ⟨⟨he', hr'⟩, hrest⟩ := hchain
    show getAux (fsizeV c + 1) env c path true = .vNull
    rw [getAux, he']
    simp only [ne_eq, not_true_eq_false, if_false, not_false_eq_true, hr',
      Bool.not_true, if_false, if_true]
    cases hp : Config.Parent c with
    | none => simp
    | some par =>
      simp only []
      rw [hp] at hrest
      have hlt := parent_fsizeV hp
      have hcpar : chainFails env par path :=
        (chainFailsAux_eq (fsizeV c) env par path (by omega)).mp hrest
      rw [getAux_eq_get (fsizeV c) env par path true (by omega)]
      exact ih (fsizeV par) (by omega) env par path le_rfl hcpar

/-- C2.  When the override for the path is unset and the token
traversal of the tree itself ends in absence, ordinary `Get` hands the
entire original path to the parent's own resolution; with no parent it
returns absence; and when the whole ancestor chain fails it still
returns absence rather than a hard failure. -/
theorem c2_parent_delegation (env : Env) (c : Config) (path : String)
    (henv : env (getEnvVarName path) = "")
    (habs : (resolvePath c path).isNull = true) :
    (∀ par, Config.Parent c = some par →
      Config.Get env c path = Config.Get env par path) ∧
    (Config.Parent c = none → Config.Get env c path = .vNull) ∧
    (chainFails env c path → Config.Get env c path = .vNull) := by
  have hstep : Config.Get env c path =
      (match Config.Parent c with
       | some par => Config.Get env par path
       | none => Value.vNull) := by
    show getAux (fsizeV c + 1) env c path true = _
    rw [getAux]
    rw [henv]
    simp only [ne_eq, not_true_eq_false, if_false, not_false_eq_true, if_true, habs,
      not_true_eq_false, Bool.not_true, if_false]
    cases hp : Config.Parent c with
    | none => simp
    | some par =>
      have hlt := parent_fsizeV hp
      exact getAux_eq_get (fsizeV c) env par path true (by omega)
  refine ⟨?_, ?_, ?_⟩
  · intro par hp
    rw [hstep, hp]
  · intro hp
    rw [hstep, hp]
  · exact chainFails_get_null (fsizeV c) env c path le_rfl

def c2cfg : Config := [("x", .vStr "1"), ("@parent@", .vObj true [("y", .vStr "2")])]

theorem c2_parent_delegation_witness :
    Config.Get env0 c2cfg "z" = Config.Get env0 [("y", .vStr "2")] "z" ∧
    Config.Get env0 c2cfg "z" = .vNull :=
  ⟨(c2_parent_delegation env0 c2cfg "z" rfl rfl).1 [("y", .vStr "2")] rfl,
   (c2_parent_delegation env0 c2cfg "z" rfl rfl).2.2 rfl⟩

/-! ### Claims about the `ModuleType` classifier -/

theorem parseMTFloat_valid (orig : PV) (q : ℚ) (n : Nat) (h1 : 1 ≤ n) (h5 : n ≤ 5)
    (hq : q.num = n) (hd : q.den = 1) : parseMTFloat orig q = (n, none) := by
  have hq' : (q.num : ℚ) = q := Rat.coe_int_num_of_den_eq_one hd
  have hpos : 0 < q := by
    rw [← Rat.num_pos, hq]
    exact_mod_cast h1
  have hle : q ≤ 255 := by
    rw [← hq', hq]
    have : (n : Int) ≤ 255 := by omega
    exact_mod_cast this
  have htn : (Int.toNat q.num) = n := by rw [hq]; simp
  unfold parseMTFloat
  rw [if_pos ⟨hpos, hle, hd⟩, htn]
  unfold isValidModuleType
  rw [if_neg (by omega)]

/-- C7.  Every valid role ordinal parses identically from: its
canonical lower-case name, the upper-cased name, the bare `ModuleType`,
every unsigned and signed integer width, and any float (either width)
that integrally encodes the ordinal — always yielding the ordinal with
no error. -/
theorem c7_parse_all_representations (n : Nat) (h1 : 1 ≤ n) (h5 : n ≤ 5) :
    (ParseModuleType (.pStr (mtString n)) = (n, none)
      ∧ ParseModuleType (.pStr (String.mk ((mtString n).data.map upChar))) = (n, none)
      ∧ ParseModuleType (.pMT n) = (n, none)
      ∧ ParseModuleType (.pU8 n) = (n, none)
      ∧ ParseModuleType (.pU16 n) = (n, none)
      ∧ ParseModuleType (.pU32 n) = (n, none)
      ∧ ParseModuleType (.pU64 n) = (n, none)
      ∧ ParseModuleType (.pUInt n) = (n, none)
      ∧ ParseModuleType (.pI8 n) = (n, none)
      ∧ ParseModuleType (.pI16 n) = (n, none)
      ∧ ParseModuleType (.pI32 n) = (n, none)
      ∧ ParseModuleType (.pI64 n) = (n, none)
      ∧ ParseModuleType (.pInt n) = (n, none)) ∧
    (∀ q : ℚ, q.num = n → q.den = 1 →
      ParseModuleType (.pF32 q) = (n, none) ∧ ParseModuleType (.pF64 q) = (n, none)) := by
  constructor
  · interval_cases n <;> exact ⟨rfl, rfl, rfl, rfl, rfl, rfl, rfl, rfl, rfl, rfl, rfl, rfl, rfl⟩
  · intro q hq hd
    exact ⟨parseMTFloat_valid _ q n h1 h5 hq hd, parseMTFloat_valid _ q n h1 h5 hq hd⟩

theorem c7_parse_all_representations_witness :
    ParseModuleType (.pStr "logger") = (3, none) ∧
    ParseModuleType (.pStr "LOGGER") = (3, none) ∧
    ParseModuleType (.pI16 3) = (3, none) ∧
    ParseModuleType (.pF64 3) = (3, none) :=
  ⟨(c7_parse_all_representations 3 (by decide) (by decide)).1.1,
   (c7_parse_all_representations 3 (by decide) (by decide)).1.2.1,
   (c7_parse_all_representations 3 (by decide) (by decide)).1.2.2.2.2.2.2.2.2.2.1,
   ((c7_parse_all_representations 3 (by decide) (by decide)).2 3 rfl rfl).2⟩

theorem natRepr_toNat {i : Int} (h : 0 < i) : natRepr i.toNat = intRepr i := by
  match i, h with
  | .ofNat n, _ => rfl

theorem gFormat_integral {q : ℚ} (h : 0 < q.num) (hd : q.den = 1) :
    gFormat q = natRepr q.num.toNat := by
  unfold gFormat gFormatPos
  rw [if_neg (by omega), hd]
  simp

/-- The invalid-ordinal error of `isValidModuleType`, spelled out. -/
theorem isValid_err {n : Nat} (h : n = 0 ∨ 5 < n) :
    isValidModuleType n = (0, some ("error: invalid module type: " ++ natRepr n)) := by
  unfold isValidModuleType
  rw [if_pos (by omega)]
  rfl

/-- C8 (amended).  Every invalid input other than a `*ModuleType` fails
with `InvalidModuleType` and a message carrying the input's `%v`
rendering: ordinal 0 and out-of-range ordinals (shown as the raw
number, not a role name), non-positive or oversized integers of every
width (directly or by reference), floats that do not integrally encode
a valid ordinal, unmatched or empty text (directly, by reference, or
through a `Stringer`), and the nil input.  A `*ModuleType`, by
contrast, is returned unvalidated with no error (see the
counterexample). -/
theorem c8_invalid_inputs :
    (∀ n : Nat, n ≤ 255 → n = 0 ∨ 5 < n →
      ParseModuleType (.pMT n) = (0, some ("error: invalid module type: " ++ natRepr n))
      ∧ ParseModuleType (.pU8 n) = (0, some ("error: invalid module type: " ++ natRepr n))
      ∧ ParseModuleType (.pPtrU8 n) = (0, some ("error: invalid module type: " ++ natRepr n))) ∧
    (∀ n : Nat, n = 0 ∨ 5 < n →
      ParseModuleType (.pU16 n) = (0, some ("error: invalid module type: " ++ natRepr n))
      ∧ ParseModuleType (.pPtrU16 n) = (0, some ("error: invalid module type: " ++ natRepr n))
      ∧ ParseModuleType (.pU32 n) = (0, some ("error: invalid module type: " ++ natRepr n))
      ∧ ParseModuleType (.pPtrU32 n) = (0, some ("error: invalid module type: " ++ natRepr n))
      ∧ ParseModuleType (.pU64 n) = (0, some ("error: invalid module type: " ++ natRepr n))
      ∧ ParseModuleType (.pPtrU64 n) = (0, some ("error: invalid module type: " ++ natRepr n))
      ∧ ParseModuleType (.pUInt n) = (0, some ("error: invalid module type: " ++ natRepr n))
      ∧ ParseModuleType (.pPtrUInt n) = (0, some ("error: invalid module type: " ++ natRepr n))) ∧
    (∀ i : Int, i ≤ 0 ∨ 5 < i →
      (-128 ≤ i ∧ i ≤ 127 →
        ParseModuleType (.pI8 i) = (0, some ("error: invalid module type: " ++ intRepr i))
        ∧ ParseModuleType (.pPtrI8 i) = (0, some ("error: invalid module type: " ++ intRepr i)))
      ∧ ParseModuleType (.pI16 i) = (0, some ("error: invalid module type: " ++ intRepr i))
      ∧ ParseModuleType (.pPtrI16 i) = (0, some ("error: invalid module type: " ++ intRepr i))
      ∧ ParseModuleType (.pI32 i) = (0, some ("error: invalid module type: " ++ intRepr i))
      ∧ ParseModuleType (.pPtrI32 i) = (0, some ("error: invalid module type: " ++ intRepr i))
      ∧ ParseModuleType (.pI64 i) = (0, some ("error: invalid module type: " ++ intRepr i))
      ∧ ParseModuleType (.pPtrI64 i) = (0, some ("error: invalid module type: " ++ intRepr i))
      ∧ ParseModuleType (.pInt i) = (0, some ("error: invalid module type: " ++ intRepr i))
      ∧ ParseModuleType (.pPtrInt i) = (0, some ("error: invalid module type: " ++ intRepr i))) ∧
    (∀ q : ℚ, ¬(1 ≤ q.num ∧ q.num ≤ 5 ∧ q.den = 1) →
      ParseModuleType (.pF32 q) = (0, some ("error: invalid module type: " ++ gFormat q))
      ∧ ParseModuleType (.pPtrF32 q) = (0, some ("error: invalid module type: " ++ gFormat q))
      ∧ ParseModuleType (.pF64 q) = (0, some ("error: invalid module type: " ++ gFormat q))
      ∧ ParseModuleType (.pPtrF64 q) = (0, some ("error: invalid module type: " ++ gFormat q))) ∧
    (∀ s : String, (∀ k, 1 ≤ k → k ≤ 5 → eqFold s (mtString k) = false) →
      ParseModuleType (.pStr s) = (0, some ("error: invalid module type: " ++ s))
      ∧ ParseModuleType (.pPtrStr s) = (0, some ("error: invalid module type: " ++ s))
      ∧ ParseModuleType (.pStringer s) = (0, some ("error: invalid module type: " ++ s))) ∧
    ParseModuleType .pNil = (0, some ("error: invalid module type: " ++ "<nil>")) := by
  have hu8 : ∀ n : Nat, n ≤ 255 → n = 0 ∨ 5 < n → parseMTU8 n =
      (0, some ("error: invalid module type: " ++ natRepr n)) := by
    intro n _ h
    exact isValid_err h
  have huw : ∀ orig n, renderGo (demoteMT orig) = natRepr n → (n = 0 ∨ 5 < n) →
      parseMTUWide orig n = (0, some ("error: invalid module type: " ++ natRepr n)) := by
    intro orig n hr h
    unfold parseMTUWide
    by_cases hn : n ≤ 255
    · rw [if_pos hn]
      exact isValid_err h
    · rw [if_neg hn]
      unfold errUnknownModuleType
      rw [hr]
  have hiw : ∀ orig (i : Int), renderGo (demoteMT orig) = intRepr i → (i ≤ 0 ∨ 5 < i) →
      parseMTIWide orig i = (0, some ("error: invalid module type: " ++ intRepr i)) := by
    intro orig i hr h
    unfold parseMTIWide
    by_cases hg : 0 < i ∧ i ≤ 255
    · rw [if_pos hg]
      have h5 : i.toNat = 0 ∨ 5 < i.toNat := by omega
      rw [isValid_err h5, natRepr_toNat hg.1]
    · rw [if_neg hg]
      unfold errUnknownModuleType
      rw [hr]
  have hfl : ∀ orig (q : ℚ), renderGo (demoteMT orig) = gFormat q →
      ¬(1 ≤ q.num ∧ q.num ≤ 5 ∧ q.den = 1) →
      parseMTFloat orig q = (0, some ("error: invalid module type: " ++ gFormat q)) := by
    intro orig q hr h
    unfold parseMTFloat
    by_cases hg : 0 < q ∧ q ≤ 255 ∧ q.den = 1
    · rw [if_pos hg]
      have hnum : 0 < q.num := Rat.num_pos.mpr hg.1
      have h5 : q.num.toNat = 0 ∨ 5 < q.num.toNat := by
        have : ¬(1 ≤ q.num ∧ q.num ≤ 5) := fun hc => h ⟨hc.1, hc.2, hg.2.2⟩
        omega
      rw [isValid_err h5]
      rw [show natRepr q.num.toNat = gFormat q from (gFormat_integral hnum hg.2.2).symm]
    · rw [if_neg hg]
      unfold errUnknownModuleType
      rw [hr]
  have hst : ∀ s : String, (∀ k, 1 ≤ k → k ≤ 5 → eqFold s (mtString k) = false) →
      parseMTStr s = (0, some ("error: invalid module type: " ++ s)) := by
    intro s hf
    unfold parseMTStr
    rw [hf 1 (by omega) (by omega), hf 2 (by omega) (by omega), hf 3 (by omega) (by omega),
      hf 4 (by omega) (by omega), hf 5 (by omega) (by omega)]
    rfl
  refine ⟨?_, ?_, ?_, ?_, ?_, rfl⟩
  · intro n hr h
    exact ⟨by rw [show ParseModuleType (.pMT n) = isValidModuleType n from rfl, isValid_err h],
      hu8 n hr h, hu8 n hr h⟩
  · intro n h
    refine ⟨huw _ n rfl h, huw _ n rfl h, huw _ n rfl h, huw _ n rfl h,
      huw _ n rfl h, huw _ n rfl h, huw _ n rfl h, huw _ n rfl h⟩
  · intro i h
    have hi8 : -128 ≤ i ∧ i ≤ 127 →
        ParseModuleType (.pI8 i) = (0, some ("error: invalid module type: " ++ intRepr i))
        ∧ ParseModuleType (.pPtrI8 i) =
          (0, some ("error: invalid module type: " ++ intRepr i)) := by
      intro _
      have : parseMTI8 i = (0, some ("error: invalid module type: " ++ intRepr i)) := by
        unfold parseMTI8
        by_cases hg : 0 < i ∧ i ≤ 127
        · rw [if_pos hg]
          have h5 : i.toNat = 0 ∨ 5 < i.toNat := by omega
          rw [isValid_err h5, natRepr_toNat hg.1]
        · rw [if_neg hg]
          rfl
      exact ⟨this, this⟩
    exact ⟨hi8, hiw _ i rfl h, hiw _ i rfl h, hiw _ i rfl h, hiw _ i rfl h,
      hiw _ i rfl h, hiw _ i rfl h, hiw _ i rfl h, hiw _ i rfl h⟩
  · intro q h
    exact ⟨hfl _ q rfl h, hfl _ q rfl h, hfl _ q rfl h, hfl _ q rfl h⟩
  · intro s hf
    exact ⟨hst s hf, hst s hf, hst s hf⟩

theorem c8_invalid_inputs_witness :
    ParseModuleType (.pI8 (-1)) = (0, some ("error: invalid module type: " ++ intRepr (-1)))
    ∧ ParseModuleType (.pStr "volumeService") =
      (0, some ("error: invalid module type: " ++ "volumeService"))
    ∧ ParseModuleType (.pMT 0) = (0, some ("error: invalid module type: " ++ natRepr 0)) :=
  ⟨((c8_invalid_inputs.2.2.1 (-1) (by omega)).1 (by constructor <;> omega)).1,
   (c8_invalid_inputs.2.2.2.2.1 "volumeService" (by decide)).1,
   (c8_invalid_inputs.1 0 (by omega) (by omega)).1⟩

/-- C8 counterexample.  A reference to a `ModuleType` holding the
invalid ordinal 0 is an invalid input supplied through
reference-indirection, yet `case *ModuleType: return *tv, nil` returns
it with no error at all — the claim's required failure (an error whose
message renders the ordinal) does not happen. -/
theorem c8_ptr_moduletype_unvalidated :
    ParseModuleType (.pPtrMT 0) = (0, none) ∧ ParseModuleType (.pPtrMT 9) = (9, none) :=
  ⟨rfl, rfl⟩


/-! ### Claims about stringification -/

/-- C9 (amended).  `GetStr` renders the resolved value as follows: a
string is returned as is; a `Config`-typed container uses its
`json.Marshaler` capability; a bool or a number goes through the `%d`
format pattern, which produces Go's bad-verb notation
`%!d(bool=...)` / `%!d(float64=...)` for the bool and float64 kinds
that configuration data holds (base-10 text would arise only for
integer kinds, which JSON decoding never produces); plain containers
and records render as their canonical JSON text (or the marshal
error's text); a func value renders as its `%T` type name; absence
renders as the empty string. -/
theorem c9_getstr_rendering (env : Env) (c : Config) (path : String) :
    Config.GetStr env c path =
      (match Config.Get env c path with
       | .vNull => ""
       | .vBool b => "%!d(bool=" ++ (if b then "true" else "false") ++ ")"
       | .vNum q => "%!d(float64=" ++ gFormat q ++ ")"
       | .vStr s => s
       | .vArr l => (match jsonMarshal (.vArr l) with | .ok s => s | .error e => e)
       | .vObj true f => (match marshalConfig f with | .ok s => s | .error e => e)
       | .vObj false f =>
         (match jsonMarshal (.vObj false f) with | .ok s => s | .error e => e)
       | .vRec f => (match jsonMarshal (.vRec f) with | .ok s => s | .error e => e)
       | .vFunc t => t) := by
  unfold Config.GetStr toStr toStringWithOpts
  cases hv : Config.Get env c path with
  | vNull => rfl
  | vBool b => rfl
  | vNum q => rfl
  | vStr s => rfl
  | vArr l => rfl
  | vObj flag f => cases flag <;> rfl
  | vRec f => rfl
  | vFunc t => rfl

/-- C9 counterexample.  A numeric (float64) value is not rendered as
base-10 text: on the tree `\x7b"n": 3\x7d` the claim's rendering rule
predicts the base-10 text `"3"` (which is what `gFormat` produces), but
`GetStr` yields Go's bad-verb notation — and a boolean likewise is not
base-10 text. -/
theorem c9_number_rendering_cx :
    Config.GetStr env0 [("n", .vNum 3)] "n" = "%!d(float64=3)" ∧
    gFormat 3 = "3" ∧
    ("%!d(float64=3)" : String) ≠ "3" ∧
    Config.GetStr env0 [("b", .vBool true)] "b" = "%!d(bool=true)" := by
  exact ⟨rfl, rfl, by decide, rfl⟩

/-! ### Claims about sequence-element matching (the array arm of the
token loop) -/

/-- A record field over which `recScan` passes without an event: either
it is a `name` field whose value is not a string matching the token, or
a non-`name` field whose name does not match the token. -/
def recSkip (tok : String) (g : String) (w : Value) : Prop :=
  (eqFold "name" g = true ∧ ∀ s, w = .vStr s → eqFold tok s = false) ∨
    (eqFold "name" g = false ∧ eqFold tok g = false)

theorem recScan_append_skip (tok : String) (pre : List (String × Value))
    (hpre : ∀ gw ∈ pre, recSkip tok gw.1 gw.2) (rest : List (String × Value)) :
    ∀ i, recScan (pre ++ rest) tok i = recScan rest tok (i + pre.length) := by
  induction pre with
  | nil => intro i; simp
  | cons gw pre ih =>
    intro i
    obtain ⟨g, w⟩ := gw
    have hskip := hpre (g, w) (by simp)
    have hrest : ∀ gw ∈ pre, recSkip tok gw.1 gw.2 := fun x hx => hpre x (by simp [hx])
    have harith : i + 1 + pre.length = i + ((g, w) :: pre).length := by
      simp
      omega
    rcases hskip with ⟨hn, hv⟩ | ⟨hn, hg⟩
    · have hnv : recNameVal w tok = false := by
        cases w <;> simp only [recNameVal]
        exact hv _ rfl
      show recScan ((g, w) :: (pre ++ rest)) tok i = _
      rw [recScan, hn, hnv]
      simp only [Bool.false_eq_true, if_false, if_true]
      rw [ih hrest (i + 1), harith]
    · show recScan ((g, w) :: (pre ++ rest)) tok i = _
      rw [recScan, hn, hg]
      simp only [Bool.false_eq_true, if_false]
      rw [ih hrest (i + 1), harith]

/-- C3 (amended).  Inside an ordered sequence: (a) an element that is an
associative container is matched only by the select-by-name rule — even
a container whose own keys match the token generically is skipped when
it has no matching `name` key; (b) when the select-by-name rule fires,
the whole element is the result; (c) the select-by-name rule holds
exactly when some key folds to `name` with shallow string value folding
to the token; (d) an element that is a structured record is scanned
field by field in declaration order, the first event winning: a `name`
field whose string value folds to the token selects the whole element,
while any other field folding to the token selects that field's value;
(e) among the sequence's elements, a match in the last element
overrides matches in earlier elements. -/
theorem c3_sequence_matching (tok : String) :
    (∀ flag fields i v, findFoldIdx fields tok = some (i, v) →
      mapElemNameHit fields tok = false → elemHit (.vObj flag fields) tok = none) ∧
    (∀ flag fields, mapElemNameHit fields tok = true →
      ∃ pl, elemHit (.vObj flag fields) tok = some (.vObj flag fields, pl)) ∧
    (∀ fields, mapElemNameHit fields tok = true ↔
      ∃ kv, kv ∈ fields ∧ eqFold "name" kv.1 = true ∧
        eqFold tok (toStrShallow kv.2) = true) ∧
    (∀ pre f v rest, (∀ gw ∈ pre, recSkip tok gw.1 gw.2) →
      (∀ s, v = .vStr s → eqFold "name" f = true → eqFold tok s = true →
        ∃ pl, elemHit (.vRec (pre ++ (f, v) :: rest)) tok =
          some (.vRec (pre ++ (f, v) :: rest), pl)) ∧
      (eqFold "name" f = false → eqFold tok f = true →
        ∃ pl, elemHit (.vRec (pre ++ (f, v) :: rest)) tok = some (v, pl))) ∧
    (∀ els el v ep, elemHit el tok = some (v, ep) →
      ∃ pl, arrScan (els ++ [el]) tok = some (v, pl)) := by
  refine ⟨?_, ?_, ?_, ?_, ?_⟩
  · intro flag fields i v _ hname
    show (if mapElemNameHit fields tok = true
      then some (Value.vObj flag fields, fun x => x) else none) = none
    rw [hname]
    rfl
  · intro flag fields hname
    refine ⟨fun x => x, ?_⟩
    show (if mapElemNameHit fields tok = true
      then some (Value.vObj flag fields, fun x => x) else none) = _
    rw [hname]
    rfl
  · intro fields
    unfold mapElemNameHit
    rw [List.any_eq_true]
    constructor
    · rintro ⟨kv, hm, hb⟩
      exact ⟨kv, hm, by simpa using hb⟩
    · rintro ⟨kv, hm, h1, h2⟩
      exact ⟨kv, hm, by simp [h1, h2]⟩
  · intro pre f v rest hpre
    constructor
    · intro s hv hf ht
      subst hv
      refine ⟨fun x => x, ?_⟩
      show (match recScan (pre ++ (f, Value.vStr s) :: rest) tok 0 with
        | some (Sum.inl _) => some (Value.vRec (pre ++ (f, Value.vStr s) :: rest), fun x => x)
        | some (Sum.inr (i, v)) =>
          some (v, fun x => Value.vRec (setValAt (pre ++ (f, Value.vStr s) :: rest) i x))
        | none => none) = _
      rw [recScan_append_skip tok pre hpre _ 0]
      rw [recScan, hf]
      simp only [if_true, recNameVal, ht]
    · intro hf ht
      refine ⟨fun x =>
        .vRec (setValAt (pre ++ (f, v) :: rest) (0 + pre.length) x), ?_⟩
      show (match recScan (pre ++ (f, v) :: rest) tok 0 with
        | some (Sum.inl _) => some (Value.vRec (pre ++ (f, v) :: rest), fun x => x)
        | some (Sum.inr (i, w)) =>
          some (w, fun x => Value.vRec (setValAt (pre ++ (f, v) :: rest) i x))
        | none => none) = _
      rw [recScan_append_skip tok pre hpre _ 0]
      rw [recScan, hf]
      simp only [Bool.false_eq_true, if_false, ht, if_true]
  · intro els el v ep hel
    induction els with
    | nil =>
      refine ⟨fun x => ep x :: [], ?_⟩
      show arrScan [el] tok = _
      rw [arrScan]
      rw [show arrScan [] tok = none from rfl, hel]
    | cons e els ih =>
      obtain ⟨pl, hpl⟩ := ih
      refine ⟨fun x => e :: pl x, ?_⟩
      show arrScan (e :: (els ++ [el])) tok = _
      rw [arrScan]
      rw [hpl]

def c3cfgA : Config := [("arr", .vArr [.vObj false [("foo", .vStr "bar")]])]

def c3cfgB : Config :=
  [("arr", .vArr [.vRec [("foo", .vStr "x"), ("Name", .vStr "foo")]])]

/-- C3 counterexample.  On `c3cfgA` the sequence element is an
associative container with key `foo`; the claim's second tier (generic
key match within the same element) predicts `Get "arr.foo" = "bar"`,
but the code returns absence — no generic key match exists for map
elements.  On `c3cfgB` the record element has a `Name` field valued
`"foo"`; the claim's precedence rule predicts selecting the whole
element, but the earlier `foo` field wins and `Get "arr.foo"` yields
its value `"x"`. -/
theorem c3_two_tier_cx :
    Config.Get env0 c3cfgA "arr.foo" = .vNull ∧
    Value.vNull ≠ .vStr "bar" ∧
    Config.Get env0 c3cfgB "arr.foo" = .vStr "x" ∧
    Value.vStr "x" ≠ .vRec [("foo", .vStr "x"), ("Name", .vStr "foo")] :=
  ⟨rfl, fun h => Value.noConfusion h, rfl, fun h => Value.noConfusion h⟩

theorem c3_sequence_matching_witness :
    elemHit (.vObj false [("foo", .vStr "bar")]) "foo" = none ∧
    (∃ pl, arrScan [.vNull, .vObj false [("name", .vStr "web")]] "web" =
      some (.vObj false [("name", .vStr "web")], pl)) :=
  ⟨(c3_sequence_matching "foo").1 false [("foo", .vStr "bar")] 0 (.vStr "bar") rfl rfl,
   (c3_sequence_matching "web").2.2.2.2 [.vNull] (.vObj false [("name", .vStr "web")])
     (.vObj false [("name", .vStr "web")]) (fun x => x) rfl⟩



/-! ### Claims about `Scope` -/

theorem splitDot_ne_nil (l : List Char) : splitDot l ≠ [] := by
  cases l with
  | nil => simp [splitDot]
  | cons c r =>
    rw [splitDot]
    cases h : splitDot r with
    | nil => by_cases hc : c = '.' <;> simp [hc]
    | cons a t => by_cases hc : c = '.' <;> simp [hc]

theorem pathTokens_cons (p : String) :
    ∃ tok toks, pathTokens p = tok :: toks := by
  unfold pathTokens
  cases h : splitDot p.data with
  | nil => exact absurd h (splitDot_ne_nil p.data)
  | cons a t => exact ⟨String.mk a, t.map String.mk, by simp⟩

/-- The head of the token loop, exposed on the first token. -/
theorem traverseV_cons_obj (flag : Bool) (f : Config) (tok : String)
    (toks : List String) :
    traverseV (.vObj flag f) (tok :: toks) =
      (match findFoldIdx f tok with
       | none => (.vNull, fun x => x)
       | some (i, w) =>
         if w.isNull then (.vNull, fun x => x)
         else ((traverseV w toks).1,
           fun x => .vObj flag (setValAt f i ((traverseV w toks).2 x)))) := by
  show (let s := stepV (.vObj flag f) tok
    if s.1.isNull then (.vNull, fun x => x)
    else
      let t := traverseV s.1 toks
      (t.1, fun x => s.2 (t.2 x))) = _
  cases h : findFoldIdx f tok with
  | none =>
    have hs : stepV (.vObj flag f) tok = (.vNull, fun x => x) := by
      show (match findFoldIdx f tok with
        | some (i, v) => (v, fun x => Value.vObj flag (setValAt f i x))
        | none => (Value.vNull, fun x => x)) = _
      rw [h]
    simp only [hs, Value.isNull, if_true]
  | some iw =>
    obtain ⟨i, w⟩ := iw
    have hs : stepV (.vObj flag f) tok = (w, fun x => .vObj flag (setValAt f i x)) := by
      show (match findFoldIdx f tok with
        | some (i, v) => (v, fun x => Value.vObj flag (setValAt f i x))
        | none => (Value.vNull, fun x => x)) = _
      rw [h]
    simp only [hs]

/-- C4 (amended).  `Scope` resolves the path with the environment
short-circuit but without parent-fallback; when the result is a plain
associative container it is wrapped with `parent` set to the original
tree and `scope` set to the path text; any other result — absence, a
scalar, a sequence, and also a `ConfigTree`-typed container such as a
stored parent reference (which fails the `map[string]interface\x7b\x7d`
assertion) — yields the empty/absent tree, and no error is ever
produced. -/
theorem c4_scope_characterization (env : Env) (c : Config) (scope : String)
    (henv : env (getEnvVarName scope) = "") :
    (∀ m pl, traverseV (.vObj true c) (pathTokens scope) = (.vObj false m, pl) →
      (Config.Scope env c scope).1 =
        some (setKey (setKey m configParentKey (.vObj true c))
          configScopeKey (.vStr scope))) ∧
    (∀ v, (traverseV (.vObj true c) (pathTokens scope)).1 = v →
      (∀ m, v ≠ .vObj false m) → Config.Scope env c scope = (none, c)) := by
  constructor
  · intro m pl htr
    unfold Config.Scope
    rw [henv]
    simp only [ne_eq, not_true_eq_false, if_false, htr]
    cases pl (.vObj false (setKey (setKey m configParentKey (.vObj true c))
      configScopeKey (.vStr scope))) <;> rfl
  · intro v hv hne
    unfold Config.Scope
    rw [henv]
    simp only [ne_eq, not_true_eq_false, if_false]
    cases htr : traverseV (.vObj true c) (pathTokens scope) with
    | mk w pl =>
      rw [htr] at hv
      simp only at hv
      subst hv
      cases w with
      | vObj flag f =>
        cases flag with
        | true => rfl
        | false => exact absurd rfl (hne f)
      | vNull => rfl
      | vBool b => rfl
      | vNum q => rfl
      | vStr s => rfl
      | vArr l => rfl
      | vRec f => rfl
      | vFunc t => rfl

def c4cfg : Config := [("a", .vStr "1"), ("@parent@", .vObj true [("x", .vStr "2")])]

/-- C4 counterexample.  Scoping `c4cfg` to the path `@parent@` resolves
to the stored parent — an associative container in the value model — in
which case the claim requires the wrapped container; but the result is
`Config`-typed, the `map[string]interface\x7b\x7d` assertion fails, and
`Scope` returns the absent tree. -/
theorem c4_config_typed_result_cx :
    resolvePath c4cfg "@parent@" = .vObj true [("x", .vStr "2")] ∧
    Config.Scope env0 c4cfg "@parent@" = (none, c4cfg) :=
  ⟨rfl, rfl⟩

theorem c4_scope_characterization_witness :
    (Config.Scope env0 c1cfg "a").1 =
      some [("b", .vStr "stored"), ("@parent@", .vObj true c1cfg), ("@scope@", .vStr "a")] ∧
    Config.Scope env0 c1cfg "missing" = (none, c1cfg) :=
  ⟨(c4_scope_characterization env0 c1cfg "a" rfl).1 [("b", .vStr "stored")] _ rfl,
   (c4_scope_characterization env0 c1cfg "missing" rfl).2 .vNull rfl
     (fun m h => Value.noConfusion h)⟩

/-! ### C5: what `Scope` does and does not change.

`Config(m)` shares the resolved map, so setting the two reserved keys
writes through into the original tree; the lemmas below pin down that
the write replaces exactly one value — at the first field whose key
folds to the first path token — and that every `get` whose first token
folds differently (and any parent lookup, provided the write did not
land on the `@parent@` entry) is unaffected. -/

theorem eqFold_eq {a b : String} (h : eqFold a b = true) :
    a.data.map lowChar = b.data.map lowChar := by
  simpa [eqFold] using h

theorem eqFold_trans_ne {a b q : String} (h1 : eqFold a b = true)
    (h2 : eqFold q a = false) : eqFold q b = false := by
  unfold eqFold at h2 ⊢
  rw [← eqFold_eq h1]
  exact h2

theorem ne_of_fold_ne {a b q : String} (h1 : eqFold q a = true)
    (h2 : eqFold q b = false) : a ≠ b := by
  intro h
  subst h
  rw [h1] at h2
  exact Bool.noConfusion h2

theorem findFoldIdx_keys {fields : List (String × Value)} {tok : String}
    {i : Nat} {v : Value} (h : findFoldIdx fields tok = some (i, v)) :
    ∃ k, fields.get? i = some (k, v) ∧ eqFold tok k = true := by
  induction fields generalizing i with
  | nil => simp [findFoldIdx] at h
  | cons kv r ih =>
    obtain ⟨k, w⟩ := kv
    rw [findFoldIdx] at h
    by_cases hk : eqFold tok k = true
    · rw [hk] at h
      simp only [if_true, Option.some.injEq, Prod.mk.injEq] at h
      obtain ⟨rfl, rfl⟩ := h
      exact ⟨k, by simp, hk⟩
    · rw [Bool.not_eq_true] at hk
      rw [hk] at h
      simp only [Bool.false_eq_true, if_false] at h
      cases hr : findFoldIdx r tok with
      | none => rw [hr] at h; simp at h
      | some jw =>
        obtain ⟨j, w'⟩ := jw
        rw [hr] at h
        simp only [Option.some.injEq, Prod.mk.injEq] at h
        obtain ⟨rfl, rfl⟩ := h
        obtain ⟨k', hk', hf'⟩ := ih hr
        exact ⟨k', by simpa using hk', hf'⟩

theorem findFoldIdx_setValAt {fields : List (String × Value)} {tok q : String}
    {i : Nat} {v : Value} (hf : findFoldIdx fields tok = some (i, v))
    (hq : eqFold q tok = false) (x : Value) :
    findFoldIdx (setValAt fields i x) q = findFoldIdx fields q := by
  induction fields generalizing i with
  | nil => simp [findFoldIdx] at hf
  | cons kv r ih =>
    obtain ⟨k, w⟩ := kv
    rw [findFoldIdx] at hf
    by_cases hk : eqFold tok k = true
    · rw [hk] at hf
      simp only [if_true, Option.some.injEq, Prod.mk.injEq] at hf
      obtain ⟨rfl, rfl⟩ := hf
      have hqk : eqFold q k = false := eqFold_trans_ne hk hq
      show findFoldIdx ((k, x) :: r) q = findFoldIdx ((k, w) :: r) q
      rw [findFoldIdx, findFoldIdx, hqk]
      simp
    · rw [Bool.not_eq_true] at hk
      rw [hk] at hf
      simp only [Bool.false_eq_true, if_false] at hf
      cases hr : findFoldIdx r tok with
      | none => rw [hr] at hf; simp at hf
      | some jw =>
        obtain ⟨j, w'⟩ := jw
        rw [hr] at hf
        simp only [Option.some.injEq, Prod.mk.injEq] at hf
        obtain ⟨hj, rfl⟩ := hf
        subst hj
        show findFoldIdx ((k, w) :: setValAt r j x) q = findFoldIdx ((k, w) :: r) q
        rw [findFoldIdx, findFoldIdx, ih hr]


theorem findVal_setValAt {fields : List (String × Value)} {tok key : String}
    {i : Nat} {v : Value} (hf : findFoldIdx fields tok = some (i, v))
    (hkey : eqFold tok key = false) (x : Value) :
    findVal (setValAt fields i x) key = findVal fields key := by
  induction fields generalizing i with
  | nil => simp [findFoldIdx] at hf
  | cons kv r ih =>
    obtain ⟨k, w⟩ := kv
    rw [findFoldIdx] at hf
    by_cases hk : eqFold tok k = true
    · rw [hk] at hf
      simp only [if_true, Option.some.injEq, Prod.mk.injEq] at hf
      obtain ⟨rfl, rfl⟩ := hf
      have hne : k ≠ key := ne_of_fold_ne hk hkey
      show findVal ((k, x) :: r) key = findVal ((k, w) :: r) key
      rw [findVal, findVal, if_neg hne, if_neg hne]
    · rw [Bool.not_eq_true] at hk
      rw [hk] at hf
      simp only [Bool.false_eq_true, if_false] at hf
      cases hr : findFoldIdx r tok with
      | none => rw [hr] at hf; simp at hf
      | some jw =>
        obtain ⟨j, w'⟩ := jw
        rw [hr] at hf
        simp only [Option.some.injEq, Prod.mk.injEq] at hf
        obtain ⟨hj, rfl⟩ := hf
        subst hj
        show findVal ((k, w) :: setValAt r j x) key = findVal ((k, w) :: r) key
        rw [findVal, findVal, ih hr]

/-- A one-value in-place update at a key folding to `tok` is invisible
to the pure resolution of any path whose first token folds differently. -/
theorem resolvePath_setValAt {c : Config} {tok : String} {i : Nat} {v : Value}
    (hf : findFoldIdx c tok = some (i, v)) (x : Value) (q : String)
    (hq : eqFold ((pathTokens q).headI) tok = false) :
    resolvePath (setValAt c i x) q = resolvePath c q := by
  obtain ⟨q1, qs, hqs⟩ := pathTokens_cons q
  unfold resolvePath
  rw [hqs]
  rw [hqs] at hq
  simp only [List.headI] at hq
  rw [traverseV_cons_obj, traverseV_cons_obj]
  rw [findFoldIdx_setValAt hf hq x]
  cases hq1 : findFoldIdx c q1 with
  | none => rfl
  | some jw =>
    obtain ⟨j, u⟩ := jw
    by_cases hu : u.isNull = true
    · simp [hu]
    · simp [hu]

/-- The frame property of the in-place write: as long as the write does
not land on the `@parent@` entry, `get` for any path whose first token
folds differently is unchanged, fallback included. -/
theorem get_frame (env : Env) (c : Config) (tok : String) (i : Nat) (v x : Value)
    (hf : findFoldIdx c tok = some (i, v))
    (hpar : eqFold tok configParentKey = false) :
    ∀ q b, eqFold ((pathTokens q).headI) tok = false →
      Config.get env (setValAt c i x) q b = Config.get env c q b := by
  intro q b hq
  have hres := resolvePath_setValAt hf x q hq
  have hparent : Config.Parent (setValAt c i x) = Config.Parent c := by
    unfold Config.Parent
    rw [findVal_setValAt hf hpar x]
  show getAux (fsizeV (setValAt c i x) + 1) env (setValAt c i x) q b =
    getAux (fsizeV c + 1) env c q b
  rw [getAux, getAux]
  by_cases he : env (getEnvVarName q) ≠ ""
  · rw [if_pos he, if_pos he]
  · rw [if_neg he, if_neg he]
    rw [hres]
    by_cases hr : ¬(resolvePath c q).isNull = true
    · rw [if_pos hr, if_pos hr]
    · rw [if_neg hr, if_neg hr]
      by_cases hb : ¬b = true
      · rw [if_pos hb, if_pos hb]
      · rw [if_neg hb, if_neg hb]
        rw [hparent]
        cases hp : Config.Parent c with
        | none => rfl
        | some par =>
          have hc : fsizeV par < fsizeV c := parent_fsizeV hp
          have ht' : fsizeV par < fsizeV (setValAt c i x) := by
            apply parent_fsizeV
            rw [hparent]
            exact hp
          show getAux (fsizeV (setValAt c i x)) env par q b = getAux (fsizeV c) env par q b
          rw [getAux_eq_get (fsizeV (setValAt c i x)) env par q b (by omega),
            getAux_eq_get (fsizeV c) env par q b (by omega)]

/-- C5 (amended).  `Scope` does not copy: on success the resolved
sub-map itself receives exactly the two reserved keys (`parent` then
`scope`) and nothing else, and — the sub-map being shared — the
original tree observes that in-place write under the scoped path.  The
frame of the effect: every `get` on the post-state tree whose first
token folds differently from the scope path's first token (the write
site), for a scope path not aimed at the `@parent@` entry, returns
exactly what it returned before the call. -/
theorem c5_scope_effect (env : Env) (c : Config) (p : String) (s t' : Config)
    (hs : Config.Scope env c p = (some s, t')) :
    (∃ m pl, traverseV (.vObj true c) (pathTokens p) = (.vObj false m, pl) ∧
      s = setKey (setKey m configParentKey (.vObj true c)) configScopeKey (.vStr p)) ∧
    (∀ q b, eqFold ((pathTokens q).headI) ((pathTokens p).headI) = false →
      eqFold ((pathTokens p).headI) configParentKey = false →
      Config.get env t' q b = Config.get env c q b) := by
  unfold Config.Scope at hs
  by_cases he : env (getEnvVarName p) ≠ ""
  · rw [if_pos he] at hs
    exact absurd (congrArg Prod.fst hs) (by simp)
  · rw [if_neg he] at hs
    cases htr : traverseV (.vObj true c) (pathTokens p) with
    | mk v pl =>
      rw [htr] at hs
      cases v with
      | vObj flag m =>
        cases flag with
        | true => exact absurd (congrArg Prod.fst hs) (by simp)
        | false =>
          obtain ⟨p1, ps, hps⟩ := pathTokens_cons p
          rw [hps, traverseV_cons_obj] at htr
          cases hff : findFoldIdx c p1 with
          | none =>
            rw [hff] at htr
            exact absurd (congrArg Prod.fst htr) (by simp)
          | some iw =>
            obtain ⟨i, w⟩ := iw
            rw [hff] at htr
            have htr' : (if w.isNull = true then ((Value.vNull), fun x => x)
                else ((traverseV w ps).1,
                  fun x => Value.vObj true (setValAt c i ((traverseV w ps).2 x)))) =
                ((Value.vObj false m), pl) := htr
            by_cases hw : w.isNull = true
            · rw [if_pos hw] at htr'
              exact absurd (congrArg Prod.fst htr') (by simp)
            · rw [if_neg hw] at htr'
              have hm : (traverseV w ps).1 = .vObj false m := congrArg Prod.fst htr'
              have hpl : pl = fun y => Value.vObj true (setValAt c i ((traverseV w ps).2 y)) :=
                (congrArg Prod.snd htr').symm
              have hs' :
                  (match pl (Value.vObj false (setKey (setKey m configParentKey
                      (Value.vObj true c)) configScopeKey (Value.vStr p))) with
                    | Value.vObj _ f => (some (setKey (setKey m configParentKey
                        (Value.vObj true c)) configScopeKey (Value.vStr p)), f)
                    | _ => (some (setKey (setKey m configParentKey (Value.vObj true c))
                        configScopeKey (Value.vStr p)), c)) = ((some s : Option Config), t') := hs
              rw [hpl] at hs'
              have hs'' : ((some (setKey (setKey m configParentKey (Value.vObj true c))
                  configScopeKey (Value.vStr p)) : Option Config),
                  setValAt c i ((traverseV w ps).2 (Value.vObj false (setKey (setKey m
                    configParentKey (Value.vObj true c)) configScopeKey (Value.vStr p))))) =
                  ((some s : Option Config), t') := hs'
              have hseq : s = setKey (setKey m configParentKey (Value.vObj true c))
                  configScopeKey (Value.vStr p) :=
                (Option.some.inj (congrArg Prod.fst hs'')).symm
              have ht' : t' = setValAt c i ((traverseV w ps).2 (Value.vObj false
                  (setKey (setKey m configParentKey (Value.vObj true c))
                    configScopeKey (Value.vStr p)))) :=
                (congrArg Prod.snd hs'').symm
              constructor
              · exact ⟨m, pl, rfl, hseq⟩
              · intro q b hq hpar
                rw [hps] at hq hpar
                simp only [List.headI] at hq hpar
                rw [ht']
                exact get_frame env c p1 i w _ hff hpar q b hq
      | vNull => exact absurd (congrArg Prod.fst hs) (by simp)
      | vBool b => exact absurd (congrArg Prod.fst hs) (by simp)
      | vNum q => exact absurd (congrArg Prod.fst hs) (by simp)
      | vStr st => exact absurd (congrArg Prod.fst hs) (by simp)
      | vArr l => exact absurd (congrArg Prod.fst hs) (by simp)
      | vRec f => exact absurd (congrArg Prod.fst hs) (by simp)
      | vFunc t => exact absurd (congrArg Prod.fst hs) (by simp)

def c5cfg : Config := [("a", .vObj false [("x", .vStr "1")])]

/-- C5 counterexample.  Before the call, `Get` on `c5cfg` at
`a.@scope@` is absent; `Scope(c5cfg, "a")` converts the shared resolved
map in place, and the same `Get` on the tree as it stands after the
call yields `"a"` — so scoping does mutate a value reachable from the
original tree, and `Get` results on it change. -/
theorem c5_scope_mutates_cx :
    Config.Get env0 c5cfg "a.@scope@" = .vNull ∧
    Config.Get env0 (Config.Scope env0 c5cfg "a").2 "a.@scope@" = .vStr "a" ∧
    Value.vNull ≠ Value.vStr "a" :=
  ⟨rfl, rfl, fun h => Value.noConfusion h⟩

theorem c5_scope_effect_witness :
    Config.get env0 (Config.Scope env0 c5cfg "a").2 "other.path" true =
      Config.get env0 c5cfg "other.path" true :=
  (c5_scope_effect env0 c5cfg "a" (Config.Scope env0 c5cfg "a").1.get!
    (Config.Scope env0 c5cfg "a").2 rfl).2 "other.path" true (by decide) (by decide)


/-! ### C6: the serializer round trip.

`decode` models `encoding/json.Unmarshal` into an `lsx.Config` (the
caller in lsx.go): a fueled recursive-descent parser over the JSON
grammar the encoder emits.  Go maps are decoded here as association
lists in source order (a real Go map is unordered; duplicate keys,
which no encoder output contains, would keep the last occurrence in Go
and both occurrences here).  Fractional literals parse to the exact
rational; Go rounds to the nearest float64, a difference immaterial to
the escape-free, integral-numbered trees (`wfV`) the theorems cover. -/

/-- Top-level entries that `Config.MarshalJSON` drops. -/
def stripReserved : Config → Config
  | [] => []
  | (k, v) :: r =>
    if k = configScopeKey ∨ k = configParentKey then stripReserved r
    else (k, v) :: stripReserved r

mutual

/-- The well-formed value universe of the round-trip theorems: JSON
data.  Text is unrestricted; a number's denominator must divide a power
of ten — true of every `float64` value the `ℚ` embedding stands for —
so its decimal expansion terminates within the formatter's digit bound;
`Config`-typed nesting, records and funcs are excluded (each is refuted
by a counterexample conjunct of the round-trip claim). -/
def wfV : Value → Bool
  | .vNull => true
  | .vBool _ => true
  | .vNum q => decide (q.den ∣ 10 ^ 1100)
  | .vStr _ => true
  | .vArr l => wfL l
  | .vObj false f => wfF f
  | .vObj true _ => false
  | .vRec _ => false
  | .vFunc _ => false

def wfL : List Value → Bool
  | [] => true
  | x :: r => wfV x && wfL r

def wfF : List (String × Value) → Bool
  | [] => true
  | (_, v) :: r => wfV v && wfF r

end

/-- Layout whitespace: none when compact; a newline plus two-space
indentation per depth when indented (`json.MarshalIndent(c, "", "  ")`). -/
def nlPad (ws : Bool) (d : Nat) : String :=
  if ws then "\n" ++ String.mk (List.replicate (2 * d) ' ') else ""

def colonPad (ws : Bool) : String := if ws then " " else ""

mutual

/-- The canonical text of a well-formed value: with `ws = false` the
compact bytes `json.Marshal` produces, with `ws = true` the indented
bytes `json.MarshalIndent(_, "", "  ")` produces (element per line,
space after the colon, empty containers kept compact). -/
def encAux : Nat → Bool → Nat → Value → String
  | 0, _, _, _ => ""
  | fuel + 1, ws, d, v =>
    match v with
    | .vNull => "null"
    | .vBool b => if b then "true" else "false"
    | .vNum q => gFormat q
    | .vStr s => quoteStr s
    | .vArr [] => "[]"
    | .vArr l =>
      "[" ++ nlPad ws (d + 1) ++ encList fuel ws (d + 1) l ++ nlPad ws d ++ "]"
    | .vObj _ [] => String.mk [obrace, cbrace]
    | .vObj _ f =>
      String.mk [obrace] ++ nlPad ws (d + 1) ++ encFields fuel ws (d + 1) f ++
        nlPad ws d ++ String.mk [cbrace]
    | .vRec [] => String.mk [obrace, cbrace]
    | .vRec f =>
      String.mk [obrace] ++ nlPad ws (d + 1) ++ encFields fuel ws (d + 1) f ++
        nlPad ws d ++ String.mk [cbrace]
    | .vFunc _ => ""
termination_by structural fuel _ _ _ => fuel

def encList : Nat → Bool → Nat → List Value → String
  | 0, _, _, _ => ""
  | _ + 1, _, _, [] => ""
  | fuel + 1, ws, d, [x] => encAux fuel ws d x
  | fuel + 1, ws, d, x :: r =>
    encAux fuel ws d x ++ "," ++ nlPad ws d ++ encList fuel ws d r
termination_by structural fuel _ _ _ => fuel

def encFields : Nat → Bool → Nat → List (String × Value) → String
  | 0, _, _, _ => ""
  | _ + 1, _, _, [] => ""
  | fuel + 1, ws, d, [(k, x)] => quoteStr k ++ ":" ++ colonPad ws ++ encAux fuel ws d x
  | fuel + 1, ws, d, (k, x) :: r =>
    quoteStr k ++ ":" ++ colonPad ws ++ encAux fuel ws d x ++ "," ++ nlPad ws d ++
      encFields fuel ws d r
termination_by structural fuel _ _ _ => fuel

end


/-- The top-level field list as `Config.MarshalJSON` writes it: keys
verbatim (the source never escapes them), values through
`encoding/json`. -/
def encFieldsR : Nat → Bool → Nat → List (String × Value) → String
  | 0, _, _, _ => ""
  | _ + 1, _, _, [] => ""
  | fuel + 1, ws, d, [(k, x)] =>
    "\x22" ++ k ++ "\x22:" ++ colonPad ws ++ encAux fuel ws d x
  | fuel + 1, ws, d, (k, x) :: r =>
    "\x22" ++ k ++ "\x22:" ++ colonPad ws ++ encAux fuel ws d x ++ "," ++
      nlPad ws d ++ encFieldsR fuel ws d r
termination_by structural fuel _ _ _ => fuel

/-- The whole object text `Config.MarshalJSON` produces, compact when
`ws = false`, and reformatted by `json.Indent` (as `MarshalIndent`
does) when `ws = true`. -/
def encObjR (ws : Bool) (f : Config) : String :=
  match f with
  | [] => String.mk [obrace, cbrace]
  | kv :: t =>
    String.mk [obrace] ++ nlPad ws 1 ++
      encFieldsR (vsize (.vObj false (kv :: t))) ws 1 (kv :: t) ++
      nlPad ws 0 ++ String.mk [cbrace]

def encodeCompactR (f : Config) : String := encObjR false f

def encodeIndentedR (f : Config) : String := encObjR true f

/-! The parser. -/

def isWsChar (c : Char) : Bool := c = ' ' || c = '\n' || c = '\t' || c = '\r'

def skipWs : List Char → List Char
  | [] => []
  | c :: r => if isWsChar c then skipWs r else c :: r

def isDigitC (c : Char) : Bool := 48 ≤ c.toNat && c.toNat ≤ 57

/-- Literal continuation: consume exactly these characters. -/
def expects : List Char → List Char → Option (List Char)
  | [], s => some s
  | _ :: _, [] => none
  | p :: pr, c :: r => if c = p then expects pr r else none

/-- A hex digit's value, both cases accepted as by Go's decoder. -/
def hexVal (c : Char) : Option Nat :=
  if 48 ≤ c.toNat ∧ c.toNat ≤ 57 then some (c.toNat - 48)
  else if 97 ≤ c.toNat ∧ c.toNat ≤ 102 then some (c.toNat - 87)
  else if 65 ≤ c.toNat ∧ c.toNat ≤ 70 then some (c.toNat - 55)
  else none

/-- The single-character escapes of JSON strings. -/
def unescape (c : Char) : Option Char :=
  if c = '\x22' then some '\x22'
  else if c = '\\' then some '\\'
  else if c = '/' then some '/'
  else if c = 'n' then some '\n'
  else if c = 't' then some '\t'
  else if c = 'r' then some '\r'
  else if c = 'b' then some (Char.ofNat 8)
  else if c = 'f' then some (Char.ofNat 12)
  else none

/-- JSON string-body scanner (after the opening quote): runes up to the
closing quote, with the single-character and `\uXXXX` escapes; a raw
control character is a syntax error, as in Go's decoder.  (A `\uXXXX`
surrogate is mapped through `Char.ofNat`; the encoder never emits
surrogates, so no theorem depends on that corner.) -/
def parseStrChars : List Char → Option (List Char × List Char)
  | [] => none
  | c :: r =>
    if c = '\x22' then some ([], r)
    else if c = '\\' then
      match r with
      | [] => none
      | e :: r2 =>
        if e = 'u' then
          match r2 with
          | h1 :: h2 :: h3 :: h4 :: r3 =>
            match hexVal h1, hexVal h2, hexVal h3, hexVal h4 with
            | some a, some b, some x, some y =>
              match parseStrChars r3 with
              | some (cs, rest) =>
                some (Char.ofNat (((a * 16 + b) * 16 + x) * 16 + y) :: cs, rest)
              | none => none
            | _, _, _, _ => none
          | _ => none
        else
          match unescape e with
          | none => none
          | some ch =>
            match parseStrChars r2 with
            | some (cs, rest) => some (ch :: cs, rest)
            | none => none
    else if 32 ≤ c.toNat then
      match parseStrChars r with
      | some (cs, rest) => some (c :: cs, rest)
      | none => none
    else none

/-- Digit run: accumulated value, count of digits, rest. -/
def parseDigitsCnt : List Char → Nat → Nat → Nat × Nat × List Char
  | [], acc, cnt => (acc, cnt, [])
  | c :: r, acc, cnt =>
    if isDigitC c then parseDigitsCnt r (acc * 10 + (c.toNat - 48)) (cnt + 1)
    else (acc, cnt, c :: r)

/-- The rational `i/1`, built directly so the kernel can evaluate it. -/
def intToRat (i : Int) : ℚ := ⟨i, 1, Nat.one_ne_zero, Nat.coprime_one_right _⟩

/-- What follows the integer digits of a number literal: a fraction, or
the end of the literal. -/
def parseNumTail (neg : Bool) (n : Nat) : List Char → Option (Value × List Char)
  | [] => some (.vNum (intToRat (if neg then -(n : Int) else (n : Int))), [])
  | c :: s3 =>
    if c = '.' then
      match s3 with
      | d :: _ =>
        if isDigitC d then
          let f := parseDigitsCnt s3 0 0
          some (.vNum (mkRat ((if neg then -1 else 1) *
            ((n : Int) * (10 : Int) ^ f.2.1 + (f.1 : Int))) (10 ^ f.2.1)), f.2.2)
        else none
      | [] => none
    else some (.vNum (intToRat (if neg then -(n : Int) else (n : Int))), c :: s3)

/-- A number literal after the optional sign (first char is a digit). -/
def parseNumCore (neg : Bool) (s : List Char) : Option (Value × List Char) :=
  let p := parseDigitsCnt s 0 0
  parseNumTail neg p.1 p.2.2

mutual

def parseV : Nat → List Char → Option (Value × List Char)
  | 0, _ => none
  | fuel + 1, s =>
    match skipWs s with
    | [] => none
    | c :: r =>
      if c = obrace then
        match skipWs r with
        | [] => none
        | c2 :: r2 =>
          if c2 = cbrace then some (.vObj false [], r2)
          else
            match membersLoop fuel (c2 :: r2) with
            | some (fs, rest) => some (.vObj false fs, rest)
            | none => none
      else if c = '[' then
        match skipWs r with
        | [] => none
        | c2 :: r2 =>
          if c2 = ']' then some (.vArr [], r2)
          else
            match elemsLoop fuel (c2 :: r2) with
            | some (xs, rest) => some (.vArr xs, rest)
            | none => none
      else if c = '\x22' then
        match parseStrChars r with
        | some (cs, rest) => some (.vStr (String.mk cs), rest)
        | none => none
      else if c = 't' then
        match expects ['r', 'u', 'e'] r with
        | some rest => some (.vBool true, rest)
        | none => none
      else if c = 'f' then
        match expects ['a', 'l', 's', 'e'] r with
        | some rest => some (.vBool false, rest)
        | none => none
      else if c = 'n' then
        match expects ['u', 'l', 'l'] r with
        | some rest => some (.vNull, rest)
        | none => none
      else if c = '-' then
        match r with
        | [] => none
        | d :: r2 => if isDigitC d then parseNumCore true (d :: r2) else none
      else if isDigitC c then parseNumCore false (c :: r)
      else none
termination_by structural fuel _ => fuel

def membersLoop : Nat → List Char → Option (List (String × Value) × List Char)
  | 0, _ => none
  | fuel + 1, s =>
    match skipWs s with
    | [] => none
    | c :: r =>
      if c = '\x22' then
        match parseStrChars r with
        | none => none
        | some (kcs, rest) =>
          match skipWs rest with
          | ':' :: rest2 =>
            match parseV fuel rest2 with
            | none => none
            | some (v, rest3) =>
              match skipWs rest3 with
              | ',' :: r4 =>
                match membersLoop fuel r4 with
                | some (fs, r5) => some ((String.mk kcs, v) :: fs, r5)
                | none => none
              | c4 :: r4 =>
                if c4 = cbrace then some ([(String.mk kcs, v)], r4) else none
              | [] => none
          | _ => none
      else none
termination_by structural fuel _ => fuel

def elemsLoop : Nat → List Char → Option (List Value × List Char)
  | 0, _ => none
  | fuel + 1, s =>
    match parseV fuel s with
    | none => none
    | some (v, rest) =>
      match skipWs rest with
      | ',' :: r2 =>
        match elemsLoop fuel r2 with
        | some (xs, r3) => some (v :: xs, r3)
        | none => none
      | c2 :: r2 => if c2 = ']' then some ([v], r2) else none
      | [] => none
termination_by structural fuel _ => fuel

end

/-- `json.Unmarshal(text, &config)`: a top-level object followed by
nothing but whitespace.  The fuel bound suffices: every parser hop
either consumes input or descends into a construct whose text is at
least half its `vsize`. -/
def decodeConfig (s : String) : Option Config :=
  match parseV (2 * s.length + 2) s.data with
  | some (.vObj false f, rest) => if (skipWs rest).isEmpty then some f else none
  | _ => none


/-! Round-trip proof: text-level lemmas. -/

def allWs (l : List Char) : Bool := l.all isWsChar

theorem skipWs_append {w : List Char} (hw : allWs w = true) (s : List Char) :
    skipWs (w ++ s) = skipWs s := by
  induction w with
  | nil => rfl
  | cons c r ih =>
    simp only [allWs, List.all_cons, Bool.and_eq_true] at hw
    show skipWs (c :: (r ++ s)) = skipWs s
    rw [skipWs, if_pos hw.1]
    exact ih (by simp [allWs, hw.2])

theorem skipWs_cons_not_ws {c : Char} (hc : isWsChar c = false) (r : List Char) :
    skipWs (c :: r) = c :: r := by
  rw [skipWs, if_neg (by simp [hc])]

theorem nlPad_allWs (ws : Bool) (d : Nat) : allWs (nlPad ws d).data = true := by
  cases ws with
  | false => rfl
  | true =>
    show allWs ('\n' :: List.replicate (2 * d) ' ') = true
    simp only [allWs, List.all_cons, Bool.and_eq_true]
    refine ⟨rfl, ?_⟩
    simp only [List.all_eq_true]
    intro c hc
    rw [List.eq_of_mem_replicate hc]
    rfl

/-- What may legally follow a value's text: nothing, or a character
that cannot extend a number literal. -/
def delimOk : List Char → Prop
  | [] => True
  | c :: _ => isDigitC c = false ∧ c ≠ '.'

theorem quoteStr_data (s : String) :
    (quoteStr s).data = '\x22' :: (s.data.flatMap escChar ++ ['\x22']) := rfl

/-- A character JSON strings may contain verbatim: at least a space,
and neither a quote nor a backslash.  `Config.MarshalJSON` writes keys
without escaping, so exactly these keys survive the round trip. -/
def keyChar (c : Char) : Bool :=
  decide (32 ≤ c.toNat) && c != '\x22' && c != '\\'

def keyOk (s : String) : Bool := s.data.all keyChar

def keysOk (c : Config) : Bool := (c.map Prod.fst).all keyOk

theorem parseStrChars_inv {cs : List Char} (h : ∀ c ∈ cs, keyChar c = true)
    (rest : List Char) :
    parseStrChars (cs ++ '\x22' :: rest) = some (cs, rest) := by
  induction cs with
  | nil =>
    rw [parseStrChars.eq_def]
    simp
  | cons c r ih =>
    have hc := h c (by simp)
    simp only [keyChar, Bool.and_eq_true, decide_eq_true_eq, bne_iff_ne,
      ne_eq] at hc
    obtain ⟨⟨h32, hq⟩, hb⟩ := hc
    show parseStrChars (c :: (r ++ '\x22' :: rest)) = some (c :: r, rest)
    rw [parseStrChars.eq_def]
    simp [hq, hb, h32, ih (fun x hx => h x (by simp [hx]))]

theorem hexVal_hexChar {d : Nat} (h : d < 16) : hexVal (hexChar d) = some d := by
  interval_cases d <;> decide

/-- Decoding inverts the escaper on every rune sequence. -/
theorem parseStrChars_esc (cs : List Char) (rest : List Char) :
    parseStrChars (cs.flatMap escChar ++ '\x22' :: rest) = some (cs, rest) := by
  induction cs with
  | nil =>
    rw [parseStrChars.eq_def]
    simp
  | cons c r ih =>
    rw [List.flatMap_cons, List.append_assoc]
    by_cases h1 : c = '\x22'
    · subst h1
      rw [show escChar '\x22' = ['\\', '\x22'] from rfl]
      rw [parseStrChars.eq_def]
      simp [unescape, ih]
    · by_cases h2 : c = '\\'
      · subst h2
        rw [show escChar '\\' = ['\\', '\\'] from rfl]
        rw [parseStrChars.eq_def]
        simp [unescape, ih]
      · by_cases h3 : c = '\n'
        · subst h3
          rw [show escChar '\n' = ['\\', 'n'] from rfl]
          rw [parseStrChars.eq_def]
          simp [unescape, ih]
        · by_cases h4 : c = '\r'
          · subst h4
            rw [show escChar '\r' = ['\\', 'r'] from rfl]
            rw [parseStrChars.eq_def]
            simp [unescape, ih]
          · by_cases h5 : c = '\t'
            · subst h5
              rw [show escChar '\t' = ['\\', 't'] from rfl]
              rw [parseStrChars.eq_def]
              simp [unescape, ih]
            · by_cases h6 : c.toNat < 32 ∨ c = '<' ∨ c = '>' ∨ c = '&'
              · have he : escChar c = ['\\', 'u', '0', '0',
                    hexChar (c.toNat / 16), hexChar (c.toNat % 16)] := by
                  unfold escChar
                  rw [if_neg h1, if_neg h2, if_neg h3, if_neg h4, if_neg h5,
                    if_pos h6]
                rw [he]
                have hhi : c.toNat / 16 < 16 := by
                  rcases h6 with h | h | h | h
                  · omega
                  all_goals (subst h; decide)
                have hlo : c.toNat % 16 < 16 := Nat.mod_lt _ (by omega)
                rw [parseStrChars.eq_def]
                simp [hexVal_hexChar hhi, hexVal_hexChar hlo, ih,
                  show hexVal '0' = some 0 from rfl]
                conv_rhs => rw [← Char.ofNat_toNat c]
                congr 1
                omega
              · by_cases h7 : c = '\u2028'
                · subst h7
                  rw [show escChar '\u2028' = ['\\', 'u', '2', '0', '2', '8']
                    from rfl]
                  rw [parseStrChars.eq_def]
                  simp [ih, show hexVal '2' = some 2 from rfl,
                    show hexVal '0' = some 0 from rfl,
                    show hexVal '8' = some 8 from rfl]
                · by_cases h8 : c = '\u2029'
                  · subst h8
                    rw [show escChar '\u2029' =
                      ['\\', 'u', '2', '0', '2', '9'] from rfl]
                    rw [parseStrChars.eq_def]
                    simp [ih, show hexVal '2' = some 2 from rfl,
                      show hexVal '0' = some 0 from rfl,
                      show hexVal '9' = some 9 from rfl]
                  · have he : escChar c = [c] := by
                      unfold escChar
                      rw [if_neg h1, if_neg h2, if_neg h3, if_neg h4,
                        if_neg h5, if_neg h6, if_neg h7, if_neg h8]
                    rw [he]
                    have h32 : 32 ≤ c.toNat := by
                      push_neg at h6
                      omega
                    show parseStrChars (c :: (r.flatMap escChar ++
                      '\x22' :: rest)) = some (c :: r, rest)
                    rw [parseStrChars.eq_def]
                    simp [h1, h2, h32, ih]

theorem digitChar_toNat {d : Nat} (h : d < 10) : (digitChar d).toNat = 48 + d := by
  interval_cases d <;> decide

theorem isDigitC_digitChar {d : Nat} (h : d < 10) : isDigitC (digitChar d) = true := by
  interval_cases d <;> decide

theorem natToDigitsAux_digits :
    ∀ fuel n, n < 10 ^ fuel → ∀ c ∈ natToDigitsAux fuel n, isDigitC c = true := by
  intro fuel
  induction fuel with
  | zero =>
    intro n h
    simp [natToDigitsAux]
  | succ f ih =>
    intro n h c hc
    rw [natToDigitsAux] at hc
    by_cases hn : n < 10
    · rw [if_pos hn] at hc
      simp at hc
      subst hc
      exact isDigitC_digitChar hn
    · rw [if_neg hn] at hc
      rcases List.mem_append.mp hc with h1 | h2
      · refine ih (n / 10) ?_ c h1
        rw [Nat.div_lt_iff_lt_mul (by omega : 0 < 10)]
        calc n < 10 ^ (f + 1) := h
        _ = 10 ^ f * 10 := Nat.pow_succ ..
      · simp at h2
        subst h2
        exact isDigitC_digitChar (Nat.mod_lt _ (by omega))

theorem lt_ten_pow (n : Nat) : n < 10 ^ (n + 1) := by
  calc n < 10 ^ n := Nat.lt_pow_self (by omega) n
  _ ≤ 10 ^ (n + 1) := Nat.pow_le_pow_right (by omega) (by omega)

theorem natToDigits_digits (n : Nat) : ∀ c ∈ natToDigits n, isDigitC c = true :=
  natToDigitsAux_digits (n + 1) n (lt_ten_pow n)

theorem natToDigitsAux_ne_nil (fuel n : Nat) (h : 0 < fuel) :
    natToDigitsAux fuel n ≠ [] := by
  match fuel, h with
  | f + 1, _ =>
    rw [natToDigitsAux]
    by_cases hn : n < 10
    · rw [if_pos hn]; simp
    · rw [if_neg hn]; simp

/-- Accumulating decimal value of a digit list. -/
def digitsVal : List Char → Nat → Nat
  | [], acc => acc
  | c :: r, acc => digitsVal r (acc * 10 + (c.toNat - 48))

theorem parseDigitsCnt_spec {ds : List Char} (hds : ∀ c ∈ ds, isDigitC c = true)
    {rest : List Char} (hrest : ∀ c cs, rest = c :: cs → isDigitC c = false) :
    ∀ acc cnt, parseDigitsCnt (ds ++ rest) acc cnt =
      (digitsVal ds acc, cnt + ds.length, rest) := by
  induction ds with
  | nil =>
    intro acc cnt
    cases rest with
    | nil => rfl
    | cons c r =>
      have h1 := hrest c r rfl
      show parseDigitsCnt (c :: r) acc cnt = (acc, cnt, c :: r)
      rw [parseDigitsCnt, if_neg (by simp [h1])]
  | cons c r ih =>
    intro acc cnt
    have hc := hds c (by simp)
    show parseDigitsCnt (c :: (r ++ rest)) acc cnt = _
    rw [parseDigitsCnt, if_pos (by simp [hc])]
    rw [ih (fun x hx => hds x (by simp [hx])) _ _]
    have : cnt + 1 + r.length = cnt + (c :: r).length := by simp; omega
    rw [this]
    rfl

theorem digitsVal_append_single (ds : List Char) (c : Char) :
    ∀ acc, digitsVal (ds ++ [c]) acc = (digitsVal ds acc) * 10 + (c.toNat - 48) := by
  induction ds with
  | nil => intro acc; rfl
  | cons x r ih =>
    intro acc
    show digitsVal (r ++ [c]) (acc * 10 + (x.toNat - 48)) = _
    rw [ih]
    rfl

theorem digitsVal_natToDigitsAux :
    ∀ fuel n acc, n < 10 ^ fuel →
      digitsVal (natToDigitsAux fuel n) acc =
        acc * 10 ^ (natToDigitsAux fuel n).length + n := by
  intro fuel
  induction fuel with
  | zero =>
    intro n acc h
    have : n = 0 := by simpa using h
    subst this
    simp [natToDigitsAux, digitsVal]
  | succ f ih =>
    intro n acc h
    rw [natToDigitsAux]
    by_cases hn : n < 10
    · rw [if_pos hn]
      show digitsVal [] (acc * 10 + ((digitChar n).toNat - 48)) = _
      rw [digitChar_toNat hn]
      show acc * 10 + (48 + n - 48) = acc * 10 ^ 1 + n
      omega
    · rw [if_neg hn]
      rw [digitsVal_append_single]
      have hdiv : n / 10 < 10 ^ f := by
        rw [Nat.div_lt_iff_lt_mul (by omega : 0 < 10)]
        calc n < 10 ^ (f + 1) := h
        _ = 10 ^ f * 10 := Nat.pow_succ ..
      rw [ih (n / 10) acc hdiv]
      rw [digitChar_toNat (Nat.mod_lt _ (by omega))]
      rw [List.length_append]
      set L := (natToDigitsAux f (n / 10)).length with hL
      show (acc * 10 ^ L + n / 10) * 10 + (48 + n % 10 - 48) = acc * 10 ^ (L + 1) + n
      have h1 : 10 ^ (L + 1) = 10 ^ L * 10 := Nat.pow_succ ..
      have h2 : n / 10 * 10 + n % 10 = n := by omega
      calc (acc * 10 ^ L + n / 10) * 10 + (48 + n % 10 - 48)
          = acc * 10 ^ L * 10 + (n / 10 * 10 + n % 10) := by omega
      _ = acc * (10 ^ L * 10) + n := by rw [h2, Nat.mul_assoc]
      _ = acc * 10 ^ (L + 1) + n := by rw [h1]

theorem digitsVal_natToDigits (n : Nat) : digitsVal (natToDigits n) 0 = n := by
  unfold natToDigits
  rw [digitsVal_natToDigitsAux (n + 1) n 0 (lt_ten_pow n)]
  simp


/-! Atom-level parse lemmas. -/

theorem expects_self (p : List Char) (rest : List Char) :
    expects p (p ++ rest) = some rest := by
  induction p with
  | nil => rfl
  | cons c r ih =>
    show expects (c :: r) (c :: (r ++ rest)) = some rest
    rw [expects, if_pos rfl]
    exact ih

theorem isWsChar_of_digit {c : Char} (h : isDigitC c = true) : isWsChar c = false := by
  simp only [isWsChar, Bool.or_eq_false_iff, decide_eq_false_iff_not]
  refine ⟨⟨⟨?_, ?_⟩, ?_⟩, ?_⟩ <;> intro hh <;> subst hh <;> simp [isDigitC] at h

theorem intToRat_eq {q : ℚ} (h : q.den = 1) : intToRat q.num = q := by
  obtain ⟨n, d, nz, red⟩ := q
  simp only [Rat.den] at h
  subst h
  rfl

theorem natToDigits_head (n : Nat) :
    ∃ c cs, natToDigits n = c :: cs ∧ isDigitC c = true := by
  cases hd : natToDigits n with
  | nil => exact absurd hd (natToDigitsAux_ne_nil (n + 1) n (by omega))
  | cons c cs =>
    refine ⟨c, cs, rfl, ?_⟩
    have := natToDigits_digits n c (by rw [hd]; simp)
    exact this

theorem parseNumTail_delim (neg : Bool) (n : Nat) {rest : List Char}
    (hrest : delimOk rest) :
    parseNumTail neg n rest =
      some (.vNum (intToRat (if neg then -(n : Int) else (n : Int))), rest) := by
  cases rest with
  | nil => rfl
  | cons c r =>
    obtain ⟨_, h2⟩ := hrest
    rw [parseNumTail.eq_def]
    simp [h2]

theorem parseNumCore_digits (neg : Bool) (n : Nat) {rest : List Char}
    (hrest : delimOk rest) :
    parseNumCore neg (natToDigits n ++ rest) =
      some (.vNum (intToRat (if neg then -(n : Int) else (n : Int))), rest) := by
  unfold parseNumCore
  rw [parseDigitsCnt_spec (natToDigits_digits n)
    (fun c cs h => by subst h; exact hrest.1) 0 0]
  rw [digitsVal_natToDigits]
  exact parseNumTail_delim neg n hrest

theorem digitsVal_acc (ds : List Char) :
    ∀ acc, digitsVal ds acc = acc * 10 ^ ds.length + digitsVal ds 0 := by
  induction ds with
  | nil => intro acc; simp [digitsVal]
  | cons c r ih =>
    intro acc
    show digitsVal r (acc * 10 + (c.toNat - 48)) = _
    rw [ih (acc * 10 + (c.toNat - 48))]
    have h0 : digitsVal (c :: r) 0 = digitsVal r (0 * 10 + (c.toNat - 48)) := rfl
    rw [h0, ih (0 * 10 + (c.toNat - 48))]
    simp only [List.length_cons]
    ring

theorem fracDigitsND_digits {d : Nat} (hd : 0 < d) :
    ∀ fuel r, r < d → ∀ c ∈ fracDigitsND fuel r d, isDigitC c = true := by
  intro fuel
  induction fuel with
  | zero =>
    intro r hr c hc
    simp [fracDigitsND] at hc
  | succ f ih =>
    intro r hr c hc
    rw [fracDigitsND] at hc
    by_cases h0 : r = 0
    · rw [if_pos h0] at hc
      simp at hc
    · rw [if_neg h0] at hc
      rcases List.mem_cons.mp hc with h | h
      · subst h
        refine isDigitC_digitChar ?_
        rw [Nat.div_lt_iff_lt_mul hd]
        omega
      · exact ih (r * 10 % d) (Nat.mod_lt _ hd) c h

theorem fracDigitsND_ne_nil {fuel r d : Nat} (h0 : r ≠ 0) (hf : 0 < fuel) :
    fracDigitsND fuel r d ≠ [] := by
  match fuel, hf with
  | f + 1, _ =>
    rw [fracDigitsND, if_neg h0]
    simp

/-- The emitted fraction digits reconstruct the remainder exactly once
the denominator divides a power of ten within the fuel. -/
theorem fracDigitsND_val {d : Nat} (hd : 0 < d) :
    ∀ fuel r, r < d → d ∣ r * 10 ^ fuel →
      r * 10 ^ (fracDigitsND fuel r d).length =
        digitsVal (fracDigitsND fuel r d) 0 * d := by
  intro fuel
  induction fuel with
  | zero =>
    intro r hr hdvd
    have hr0 : r = 0 := Nat.eq_zero_of_dvd_of_lt (by simpa using hdvd) hr
    subst hr0
    simp [fracDigitsND, digitsVal]
  | succ f ih =>
    intro r hr hdvd
    by_cases h0 : r = 0
    · subst h0
      simp [fracDigitsND, digitsVal]
    · rw [fracDigitsND, if_neg h0]
      have hr2 : r * 10 % d < d := Nat.mod_lt _ hd
      have hdm : d * (r * 10 / d) + r * 10 % d = r * 10 :=
        Nat.div_add_mod (r * 10) d
      have hdvd2 : d ∣ (r * 10 % d) * 10 ^ f := by
        have h3 : (r * 10 % d) * 10 ^ f + d * (r * 10 / d) * 10 ^ f =
            r * 10 ^ (f + 1) := by
          calc (r * 10 % d) * 10 ^ f + d * (r * 10 / d) * 10 ^ f
              = (d * (r * 10 / d) + r * 10 % d) * 10 ^ f := by ring
            _ = (r * 10) * 10 ^ f := by rw [hdm]
            _ = r * 10 ^ (f + 1) := by ring
        have h4 : d ∣ d * (r * 10 / d) * 10 ^ f :=
          ⟨(r * 10 / d) * 10 ^ f, by ring⟩
        have h5 : (r * 10 % d) * 10 ^ f =
            r * 10 ^ (f + 1) - d * (r * 10 / d) * 10 ^ f :=
          Nat.eq_sub_of_add_eq h3
        rw [h5]
        exact Nat.dvd_sub' hdvd h4
      have hihv := ih (r * 10 % d) hr2 hdvd2
      have hDdig : (digitChar (r * 10 / d)).toNat - 48 = r * 10 / d := by
        rw [digitChar_toNat (Nat.div_lt_of_lt_mul (by omega))]
        exact Nat.add_sub_cancel_left 48 (r * 10 / d)
      have hdv : digitsVal (digitChar (r * 10 / d) ::
            fracDigitsND f (r * 10 % d) d) 0 =
          (r * 10 / d) * 10 ^ (fracDigitsND f (r * 10 % d) d).length +
            digitsVal (fracDigitsND f (r * 10 % d) d) 0 := by
        show digitsVal (fracDigitsND f (r * 10 % d) d)
          (0 * 10 + ((digitChar (r * 10 / d)).toNat - 48)) = _
        rw [digitsVal_acc, hDdig]
        simp
      rw [List.length_cons, hdv]
      calc r * 10 ^ ((fracDigitsND f (r * 10 % d) d).length + 1)
          = (d * (r * 10 / d) + r * 10 % d) *
              10 ^ (fracDigitsND f (r * 10 % d) d).length := by rw [hdm]; ring
        _ = d * (r * 10 / d) * 10 ^ (fracDigitsND f (r * 10 % d) d).length +
              (r * 10 % d) * 10 ^ (fracDigitsND f (r * 10 % d) d).length := by
            ring
        _ = d * (r * 10 / d) * 10 ^ (fracDigitsND f (r * 10 % d) d).length +
              digitsVal (fracDigitsND f (r * 10 % d) d) 0 * d := by rw [hihv]
        _ = ((r * 10 / d) * 10 ^ (fracDigitsND f (r * 10 % d) d).length +
              digitsVal (fracDigitsND f (r * 10 % d) d) 0) * d := by ring

theorem frac_reconstruct {n d : Nat} (hd : 0 < d) (hdvd : d ∣ 10 ^ 1100) :
    (n / d * 10 ^ (fracDigitsND 1100 (n % d) d).length +
      digitsVal (fracDigitsND 1100 (n % d) d) 0) * d =
      n * 10 ^ (fracDigitsND 1100 (n % d) d).length := by
  have hv := fracDigitsND_val hd 1100 (n % d) (Nat.mod_lt _ hd)
    (Dvd.dvd.mul_left hdvd (n % d))
  calc (n / d * 10 ^ (fracDigitsND 1100 (n % d) d).length +
        digitsVal (fracDigitsND 1100 (n % d) d) 0) * d
      = (n / d * d) * 10 ^ (fracDigitsND 1100 (n % d) d).length +
          digitsVal (fracDigitsND 1100 (n % d) d) 0 * d := by ring
    _ = (n / d * d) * 10 ^ (fracDigitsND 1100 (n % d) d).length +
          (n % d) * 10 ^ (fracDigitsND 1100 (n % d) d).length := by rw [← hv]
    _ = (n / d * d + n % d) * 10 ^ (fracDigitsND 1100 (n % d) d).length := by
        ring
    _ = n * 10 ^ (fracDigitsND 1100 (n % d) d).length := by
        have h1 : n / d * d + n % d = n := by
          rw [Nat.mul_comm (n / d) d]
          exact Nat.div_add_mod n d
        rw [h1]

/-- The fraction arm of the number-literal parser. -/
theorem parseNumTail_frac (neg : Bool) (i : Nat) {ds : List Char}
    (hds : ∀ c ∈ ds, isDigitC c = true) (hne : ds ≠ [])
    {rest : List Char} (hrest : delimOk rest) :
    parseNumTail neg i ('.' :: (ds ++ rest)) =
      some (.vNum (mkRat ((if neg then -1 else 1) *
        ((i : Int) * (10 : Int) ^ ds.length + (digitsVal ds 0 : Int)))
        (10 ^ ds.length)), rest) := by
  cases ds with
  | nil => exact absurd rfl hne
  | cons d0 dr =>
    have hcnt : parseDigitsCnt ((d0 :: dr) ++ rest) 0 0 =
        (digitsVal (d0 :: dr) 0, 0 + (d0 :: dr).length, rest) :=
      parseDigitsCnt_spec hds (fun c cs h => by subst h; exact hrest.1) 0 0
    have hd0 := hds d0 (by simp)
    simp only [List.cons_append] at hcnt
    rw [parseNumTail.eq_def]
    simp [hd0, hcnt]

theorem parseV_num_nonneg (fuel : Nat) (n : Nat) {rest : List Char}
    (hrest : delimOk rest) :
    parseV (fuel + 1) (natToDigits n ++ rest) = some (.vNum (intToRat n), rest) := by
  obtain ⟨c, cs, hd, hdig⟩ := natToDigits_head n
  rw [hd]
  show parseV (fuel + 1) (c :: (cs ++ rest)) = _
  have h1 : ¬c = obrace := by intro hh; subst hh; simp [isDigitC, obrace] at hdig
  have h2 : ¬c = '[' := by intro hh; subst hh; simp [isDigitC] at hdig
  have h3 : ¬c = '\x22' := by intro hh; subst hh; simp [isDigitC] at hdig
  have h4 : ¬c = 't' := by intro hh; subst hh; simp [isDigitC] at hdig
  have h5 : ¬c = 'f' := by intro hh; subst hh; simp [isDigitC] at hdig
  have h6 : ¬c = 'n' := by intro hh; subst hh; simp [isDigitC] at hdig
  have h7 : ¬c = '-' := by intro hh; subst hh; simp [isDigitC] at hdig
  simp only [parseV, skipWs_cons_not_ws (isWsChar_of_digit hdig), h1, h2, h3, h4,
    h5, h6, h7, if_false, hdig, if_true]
  have heq : c :: (cs ++ rest) = natToDigits n ++ rest := by rw [hd]; rfl
  rw [heq, parseNumCore_digits false n hrest]
  rfl

theorem parseV_num_neg (fuel : Nat) (n : Nat) {rest : List Char}
    (hrest : delimOk rest) :
    parseV (fuel + 1) ('-' :: natToDigits n ++ rest) =
      some (.vNum (intToRat (-(n : Int))), rest) := by
  obtain ⟨c, cs, hd, hdig⟩ := natToDigits_head n
  rw [hd]
  show parseV (fuel + 1) ('-' :: (c :: (cs ++ rest))) = _
  simp [parseV, skipWs_cons_not_ws (by decide : isWsChar '-' = false), obrace, hdig]
  have heq : c :: (cs ++ rest) = natToDigits n ++ rest := by rw [hd]; rfl
  rw [heq, parseNumCore_digits true n hrest]
  rfl

theorem string_data_dash_natRepr (m : Nat) :
    ("-" ++ natRepr m).data = '-' :: natToDigits m := by
  rw [String.data_append]
  rfl

theorem gFormat_den_one {q : ℚ} (h : q.den = 1) :
    gFormat q =
      if q.num < 0 then "-" ++ natRepr q.num.natAbs else natRepr q.num.toNat := by
  unfold gFormat gFormatPos
  rw [h]
  by_cases hn : q.num < 0
  · rw [if_pos hn, if_pos hn, if_pos rfl]
    show "-" ++ (natRepr (q.num.natAbs / 1) ++ "") = _
    rw [Nat.div_one]
    congr 1
    apply String.ext
    rw [String.data_append]
    simp
  · rw [if_neg hn, if_neg hn, if_pos rfl]
    show natRepr (q.num.toNat / 1) ++ "" = _
    rw [Nat.div_one]
    apply String.ext
    rw [String.data_append]
    simp

theorem mkRat_eq_rat_iff {a : ℤ} {b : ℕ} (hb : b ≠ 0) (q : ℚ) :
    mkRat a b = q ↔ a * (q.den : ℤ) = q.num * (b : ℤ) := by
  nth_rewrite 1 [← Rat.mkRat_self q]
  exact Rat.mkRat_eq_iff hb q.den_nz

theorem parseV_digit (fuel : Nat) {c : Char} (hdig : isDigitC c = true)
    (r : List Char) :
    parseV (fuel + 1) (c :: r) = parseNumCore false (c :: r) := by
  have h1 : ¬c = obrace := by intro hh; subst hh; simp [isDigitC, obrace] at hdig
  have h2 : ¬c = '[' := by intro hh; subst hh; simp [isDigitC] at hdig
  have h3 : ¬c = '\x22' := by intro hh; subst hh; simp [isDigitC] at hdig
  have h4 : ¬c = 't' := by intro hh; subst hh; simp [isDigitC] at hdig
  have h5 : ¬c = 'f' := by intro hh; subst hh; simp [isDigitC] at hdig
  have h6 : ¬c = 'n' := by intro hh; subst hh; simp [isDigitC] at hdig
  have h7 : ¬c = '-' := by intro hh; subst hh; simp [isDigitC] at hdig
  simp only [parseV, skipWs_cons_not_ws (isWsChar_of_digit hdig), h1, h2, h3,
    h4, h5, h6, h7, if_false, hdig, if_true]

theorem parseV_dash (fuel : Nat) {c : Char} (hdig : isDigitC c = true)
    (r : List Char) :
    parseV (fuel + 1) ('-' :: c :: r) = parseNumCore true (c :: r) := by
  simp [parseV, skipWs_cons_not_ws (by decide : isWsChar '-' = false), obrace,
    hdig]

theorem parseNumCore_frac (neg : Bool) (i : Nat) {ds : List Char}
    (hds : ∀ c ∈ ds, isDigitC c = true) (hne : ds ≠ [])
    {rest : List Char} (hrest : delimOk rest) :
    parseNumCore neg (natToDigits i ++ '.' :: (ds ++ rest)) =
      some (.vNum (mkRat ((if neg then -1 else 1) *
        ((i : Int) * (10 : Int) ^ ds.length + (digitsVal ds 0 : Int)))
        (10 ^ ds.length)), rest) := by
  unfold parseNumCore
  rw [parseDigitsCnt_spec (natToDigits_digits i)
    (fun c cs h => by injection h with h1 h2; subst h1; decide) 0 0]
  rw [digitsVal_natToDigits]
  exact parseNumTail_frac neg i hds hne hrest

theorem parseV_frac_nonneg (fuel : Nat) (i : Nat) {ds : List Char}
    (hds : ∀ c ∈ ds, isDigitC c = true) (hne : ds ≠ [])
    {rest : List Char} (hrest : delimOk rest) :
    parseV (fuel + 1) (natToDigits i ++ '.' :: (ds ++ rest)) =
      some (.vNum (mkRat ((i : Int) * (10 : Int) ^ ds.length +
        (digitsVal ds 0 : Int)) (10 ^ ds.length)), rest) := by
  obtain ⟨c, cs, hd, hdig⟩ := natToDigits_head i
  rw [hd]
  show parseV (fuel + 1) (c :: (cs ++ ('.' :: (ds ++ rest)))) = _
  rw [parseV_digit fuel hdig]
  have heq : c :: (cs ++ ('.' :: (ds ++ rest))) =
      natToDigits i ++ ('.' :: (ds ++ rest)) := by rw [hd]; rfl
  rw [heq, parseNumCore_frac false i hds hne hrest]
  simp

theorem parseV_frac_neg (fuel : Nat) (i : Nat) {ds : List Char}
    (hds : ∀ c ∈ ds, isDigitC c = true) (hne : ds ≠ [])
    {rest : List Char} (hrest : delimOk rest) :
    parseV (fuel + 1) ('-' :: (natToDigits i ++ '.' :: (ds ++ rest))) =
      some (.vNum (mkRat (-((i : Int) * (10 : Int) ^ ds.length +
        (digitsVal ds 0 : Int))) (10 ^ ds.length)), rest) := by
  obtain ⟨c, cs, hd, hdig⟩ := natToDigits_head i
  rw [hd]
  show parseV (fuel + 1) ('-' :: (c :: (cs ++ ('.' :: (ds ++ rest))))) = _
  rw [parseV_dash fuel hdig]
  have heq : c :: (cs ++ ('.' :: (ds ++ rest))) =
      natToDigits i ++ ('.' :: (ds ++ rest)) := by rw [hd]; rfl
  rw [heq, parseNumCore_frac true i hds hne hrest]
  simp

/-- Parsing the shortest decimal text of any decimal-representable
rational — in particular of every `float64` value in the range
configuration data inhabits — recovers it exactly. -/
theorem parseV_num {q : ℚ} (hq : (q.den : Nat) ∣ 10 ^ 1100) (fuel : Nat)
    {rest : List Char} (hrest : delimOk rest) :
    parseV (fuel + 1) ((gFormat q).data ++ rest) = some (.vNum q, rest) := by
  by_cases hden : q.den = 1
  · rw [gFormat_den_one hden]
    by_cases hn : q.num < 0
    · rw [if_pos hn, string_data_dash_natRepr]
      rw [show ('-' :: natToDigits q.num.natAbs) ++ rest =
        '-' :: natToDigits q.num.natAbs ++ rest from rfl]
      rw [parseV_num_neg fuel q.num.natAbs hrest]
      have h2 : -(q.num.natAbs : Int) = q.num := by omega
      rw [h2, intToRat_eq hden]
    · rw [if_neg hn]
      show parseV (fuel + 1) (natToDigits q.num.toNat ++ rest) = _
      rw [parseV_num_nonneg fuel q.num.toNat hrest]
      have h2 : ((q.num.toNat : Int)) = q.num := by omega
      rw [h2, intToRat_eq hden]
  · have hdpos : 0 < q.den := Nat.pos_of_ne_zero q.den_nz
    by_cases hn : q.num < 0
    · have hmod0 : q.num.natAbs % q.den ≠ 0 := by
        intro h0
        have hdvd2 : q.den ∣ q.num.natAbs := Nat.dvd_of_mod_eq_zero h0
        have hg : Nat.gcd q.num.natAbs q.den = 1 := q.reduced
        have hd1 : q.den ∣ Nat.gcd q.num.natAbs q.den :=
          Nat.dvd_gcd hdvd2 dvd_rfl
        rw [hg] at hd1
        exact hden (Nat.dvd_one.mp hd1)
      have hdata : (gFormat q).data ++ rest =
          '-' :: (natToDigits (q.num.natAbs / q.den) ++ '.' ::
            (fracDigitsND 1100 (q.num.natAbs % q.den) q.den ++ rest)) := by
        unfold gFormat gFormatPos
        rw [if_pos hn, if_neg hden]
        rw [String.data_append, String.data_append, String.data_append]
        simp [natRepr]
      rw [hdata]
      rw [parseV_frac_neg fuel (q.num.natAbs / q.den)
        (fracDigitsND_digits hdpos 1100 _ (Nat.mod_lt _ hdpos))
        (fracDigitsND_ne_nil hmod0 (by norm_num)) hrest]
      have hNat := frac_reconstruct (n := q.num.natAbs) hdpos hq
      have hval : mkRat (-((↑(q.num.natAbs / q.den) : ℤ) *
            (10 : ℤ) ^ (fracDigitsND 1100 (q.num.natAbs % q.den) q.den).length +
            (digitsVal (fracDigitsND 1100 (q.num.natAbs % q.den) q.den) 0 : ℤ)))
          (10 ^ (fracDigitsND 1100 (q.num.natAbs % q.den) q.den).length) =
          q := by
        rw [mkRat_eq_rat_iff (pow_ne_zero _ (by norm_num)) q]
        have hcast : ((↑(q.num.natAbs / q.den) : ℤ) *
              (10 : ℤ) ^ (fracDigitsND 1100 (q.num.natAbs % q.den) q.den).length +
              (digitsVal (fracDigitsND 1100 (q.num.natAbs % q.den) q.den) 0 : ℤ)) *
              (q.den : ℤ) = (q.num.natAbs : ℤ) *
              (10 : ℤ) ^ (fracDigitsND 1100 (q.num.natAbs % q.den) q.den).length := by
          exact_mod_cast hNat
        have hnum : (q.num.natAbs : ℤ) = -q.num := by omega
        push_cast at hcast hnum ⊢
        linear_combination (-1 : ℤ) * hcast - (10 : ℤ) ^
          (fracDigitsND 1100 (q.num.natAbs % q.den) q.den).length * hnum
      rw [hval]
    · have hmod0 : q.num.toNat % q.den ≠ 0 := by
        intro h0
        have hdvd2 : q.den ∣ q.num.toNat := Nat.dvd_of_mod_eq_zero h0
        have hg : Nat.gcd q.num.natAbs q.den = 1 := q.reduced
        have habs : q.num.natAbs = q.num.toNat := by omega
        rw [habs] at hg
        have hd1 : q.den ∣ Nat.gcd q.num.toNat q.den :=
          Nat.dvd_gcd hdvd2 dvd_rfl
        rw [hg] at hd1
        exact hden (Nat.dvd_one.mp hd1)
      have hdata : (gFormat q).data ++ rest =
          natToDigits (q.num.toNat / q.den) ++ '.' ::
            (fracDigitsND 1100 (q.num.toNat % q.den) q.den ++ rest) := by
        unfold gFormat gFormatPos
        rw [if_neg hn, if_neg hden]
        rw [String.data_append, String.data_append]
        simp [natRepr]
      rw [hdata]
      rw [parseV_frac_nonneg fuel (q.num.toNat / q.den)
        (fracDigitsND_digits hdpos 1100 _ (Nat.mod_lt _ hdpos))
        (fracDigitsND_ne_nil hmod0 (by norm_num)) hrest]
      have hNat := frac_reconstruct (n := q.num.toNat) hdpos hq
      have hval : mkRat ((↑(q.num.toNat / q.den) : ℤ) *
            (10 : ℤ) ^ (fracDigitsND 1100 (q.num.toNat % q.den) q.den).length +
            (digitsVal (fracDigitsND 1100 (q.num.toNat % q.den) q.den) 0 : ℤ))
          (10 ^ (fracDigitsND 1100 (q.num.toNat % q.den) q.den).length) =
          q := by
        rw [mkRat_eq_rat_iff (pow_ne_zero _ (by norm_num)) q]
        have hcast : ((↑(q.num.toNat / q.den) : ℤ) *
              (10 : ℤ) ^ (fracDigitsND 1100 (q.num.toNat % q.den) q.den).length +
              (digitsVal (fracDigitsND 1100 (q.num.toNat % q.den) q.den) 0 : ℤ)) *
              (q.den : ℤ) = (q.num.toNat : ℤ) *
              (10 : ℤ) ^ (fracDigitsND 1100 (q.num.toNat % q.den) q.den).length := by
          exact_mod_cast hNat
        have hnum : (q.num.toNat : ℤ) = q.num := by omega
        push_cast at hcast hnum ⊢
        linear_combination hcast + (10 : ℤ) ^
          (fracDigitsND 1100 (q.num.toNat % q.den) q.den).length * hnum
      rw [hval]

theorem parseV_null (fuel : Nat) (rest : List Char) :
    parseV (fuel + 1) ("null".data ++ rest) = some (.vNull, rest) := by
  show parseV (fuel + 1) ('n' :: (['u', 'l', 'l'] ++ rest)) = _
  simp [parseV, skipWs_cons_not_ws (by decide : isWsChar 'n' = false), obrace,
    expects]

theorem parseV_true (fuel : Nat) (rest : List Char) :
    parseV (fuel + 1) ("true".data ++ rest) = some (.vBool true, rest) := by
  show parseV (fuel + 1) ('t' :: (['r', 'u', 'e'] ++ rest)) = _
  simp [parseV, skipWs_cons_not_ws (by decide : isWsChar 't' = false), obrace,
    expects]

theorem parseV_false (fuel : Nat) (rest : List Char) :
    parseV (fuel + 1) ("false".data ++ rest) = some (.vBool false, rest) := by
  show parseV (fuel + 1) ('f' :: (['a', 'l', 's', 'e'] ++ rest)) = _
  simp [parseV, skipWs_cons_not_ws (by decide : isWsChar 'f' = false), obrace,
    expects]

theorem parseV_str (fuel : Nat) (s : String) (rest : List Char) :
    parseV (fuel + 1) ((quoteStr s).data ++ rest) = some (.vStr s, rest) := by
  rw [quoteStr_data]
  have hl : (('\x22' :: (s.data.flatMap escChar ++ ['\x22'])) ++ rest) =
      '\x22' :: (s.data.flatMap escChar ++ '\x22' :: rest) := by simp
  rw [hl]
  have hpc : parseStrChars (s.data.flatMap escChar ++ '\x22' :: rest) =
      some (s.data, rest) := parseStrChars_esc s.data rest
  simp [parseV, skipWs_cons_not_ws (by decide : isWsChar '\x22' = false), obrace, hpc]


/-! Heads of encodings, and whitespace prefixes. -/

theorem parseV_ws_drop {w : List Char} (hw : allWs w = true) (fuel : Nat)
    (s : List Char) : parseV (fuel + 1) (w ++ s) = parseV (fuel + 1) s := by
  rw [parseV, parseV, skipWs_append hw]

theorem ws_not_digit {c : Char} (h : isWsChar c = true) :
    isDigitC c = false ∧ c ≠ '.' := by
  simp only [isWsChar, Bool.or_eq_true, decide_eq_true_eq] at h
  rcases h with ((h | h) | h) | h <;> subst h <;> exact ⟨by decide, by decide⟩

theorem delimOk_ws {w : List Char} (hw : allWs w = true) {c : Char}
    (hc : isDigitC c = false ∧ c ≠ '.') (rest : List Char) :
    delimOk (w ++ c :: rest) := by
  cases w with
  | nil => exact hc
  | cons x r =>
    simp only [allWs, List.all_cons, Bool.and_eq_true] at hw
    exact ws_not_digit hw.1

theorem data_append_head {s : String} {c : Char} {cs : List Char}
    (h : s.data = c :: cs) (t : String) :
    (s ++ t).data = c :: (cs ++ t.data) := by
  rw [String.data_append, h]
  rfl

theorem gFormat_head (q : ℚ) :
    ∃ c cs, (gFormat q).data = c :: cs ∧ (c = '-' ∨ isDigitC c = true) := by
  unfold gFormat
  by_cases hn : q.num < 0
  · rw [if_pos hn]
    exact ⟨'-', _, data_append_head rfl _, Or.inl rfl⟩
  · rw [if_neg hn]
    unfold gFormatPos
    obtain ⟨c, cs, hd, hdig⟩ := natToDigits_head (q.num.toNat / q.den)
    have hr : (natRepr (q.num.toNat / q.den)).data = c :: cs := hd
    exact ⟨c, _, data_append_head hr _, Or.inr hdig⟩

/-- Every encoding of a well-formed value starts with a non-whitespace
character that is not a closing bracket, a closing brace, or a comma. -/
theorem encAux_head {v : Value} (hv : wfV v = true) {F : Nat} (hF : 0 < F)
    (ws : Bool) (d : Nat) :
    ∃ c cs, (encAux F ws d v).data = c :: cs ∧ isWsChar c = false ∧
      c ≠ ']' ∧ c ≠ cbrace ∧ c ≠ ',' := by
  match F, hF with
  | G + 1, _ =>
    cases v with
    | vNull => exact ⟨'n', _, rfl, by decide, by decide, by decide, by decide⟩
    | vBool b =>
      cases b with
      | true => exact ⟨'t', _, rfl, by decide, by decide, by decide, by decide⟩
      | false => exact ⟨'f', _, rfl, by decide, by decide, by decide, by decide⟩
    | vNum q =>
      obtain ⟨c, cs, hd, hc⟩ := gFormat_head q
      have hd2 : (encAux (G + 1) ws d (.vNum q)).data = c :: cs := hd
      refine ⟨c, cs, hd2, ?_, ?_, ?_, ?_⟩
      all_goals rcases hc with h | h
      · subst h; decide
      · exact isWsChar_of_digit h
      · subst h; decide
      · intro hh; subst hh; exact absurd h (by decide)
      · subst h; decide
      · intro hh; subst hh; exact absurd h (by decide)
      · subst h; decide
      · intro hh; subst hh; exact absurd h (by decide)
    | vStr s =>
      have hd : (encAux (G + 1) ws d (.vStr s)).data =
          '\x22' :: (s.data.flatMap escChar ++ ['\x22']) := rfl
      exact ⟨_, _, hd, by decide, by decide, by decide, by decide⟩
    | vArr l =>
      cases l with
      | nil => exact ⟨'[', _, rfl, by decide, by decide, by decide, by decide⟩
      | cons x r =>
        have hd : (encAux (G + 1) ws d (.vArr (x :: r))).data =
            '[' :: ((nlPad ws (d + 1)).data ++
              ((encList G ws (d + 1) (x :: r)).data ++
                ((nlPad ws d).data ++ [']']))) := by
          show (("[" ++ nlPad ws (d + 1) ++ encList G ws (d + 1) (x :: r) ++
            nlPad ws d ++ "]")).data = _
          rw [String.data_append, String.data_append, String.data_append,
            String.data_append]
          simp
        exact ⟨'[', _, hd, by decide, by decide, by decide, by decide⟩
    | vObj flag f =>
      cases flag with
      | true => simp [wfV] at hv
      | false =>
        cases f with
        | nil =>
          exact ⟨obrace, _, rfl, by decide, by decide, by decide, by decide⟩
        | cons kv r =>
          have hd : (encAux (G + 1) ws d (.vObj false (kv :: r))).data =
              obrace :: ((nlPad ws (d + 1)).data ++
                ((encFields G ws (d + 1) (kv :: r)).data ++
                  ((nlPad ws d).data ++ [cbrace]))) := by
            show ((String.mk [obrace] ++ nlPad ws (d + 1) ++
              encFields G ws (d + 1) (kv :: r) ++ nlPad ws d ++
              String.mk [cbrace])).data = _
            rw [String.data_append, String.data_append, String.data_append,
              String.data_append]
            simp
          exact ⟨obrace, _, hd, by decide, by decide, by decide, by decide⟩
    | vRec f => simp [wfV] at hv
    | vFunc t => simp [wfV] at hv

theorem encList_head {l : List Value} (hl : wfL l = true) (hne : l ≠ [])
    {F : Nat} (hF : 1 < F) (ws : Bool) (d : Nat) :
    ∃ c cs, (encList F ws d l).data = c :: cs ∧ isWsChar c = false ∧
      c ≠ ']' ∧ c ≠ cbrace ∧ c ≠ ',' := by
  match F, hF with
  | G + 1, _ =>
    cases l with
    | nil => exact absurd rfl hne
    | cons x r =>
      have hx : wfV x = true := by
        simp only [wfL, Bool.and_eq_true] at hl
        exact hl.1
      obtain ⟨c, cs, hd, hrest⟩ := encAux_head hx (by omega : 0 < G) ws d
      cases r with
      | nil => exact ⟨c, cs, hd, hrest⟩
      | cons y t =>
        have hd2 : (encList (G + 1) ws d (x :: y :: t)).data =
            c :: (cs ++ ([','] ++ ((nlPad ws d).data ++
              (encList G ws d (y :: t)).data))) := by
          show ((encAux G ws d x ++ "," ++ nlPad ws d ++
            encList G ws d (y :: t))).data = _
          rw [String.data_append, String.data_append, String.data_append, hd]
          simp
        exact ⟨c, _, hd2, hrest⟩

theorem encFields_head (f : List (String × Value)) (hne : f ≠ [])
    {F : Nat} (hF : 0 < F) (ws : Bool) (d : Nat) :
    ∃ cs, (encFields F ws d f).data = '\x22' :: cs := by
  match F, hF with
  | G + 1, _ =>
    cases f with
    | nil => exact absurd rfl hne
    | cons kv r =>
      obtain ⟨k, x⟩ := kv
      have hq : (quoteStr k).data = '\x22' :: (k.data.flatMap escChar ++ ['\x22']) :=
        rfl
      cases r with
      | nil =>
        have hd : (encFields (G + 1) ws d [(k, x)]).data =
            '\x22' :: ((k.data.flatMap escChar ++ ['\x22']) ++
              ([':'] ++ ((colonPad ws).data ++ (encAux G ws d x).data))) := by
          show ((quoteStr k ++ ":" ++ colonPad ws ++ encAux G ws d x)).data = _
          rw [String.data_append, String.data_append, String.data_append, hq]
          simp
        exact ⟨_, hd⟩
      | cons kv2 t =>
        have hd : (encFields (G + 1) ws d ((k, x) :: kv2 :: t)).data =
            '\x22' :: ((k.data.flatMap escChar ++ ['\x22']) ++
              ([':'] ++ ((colonPad ws).data ++ ((encAux G ws d x).data ++
                ([','] ++ ((nlPad ws d).data ++
                  (encFields G ws d (kv2 :: t)).data)))))) := by
          show ((quoteStr k ++ ":" ++ colonPad ws ++ encAux G ws d x ++ "," ++
            nlPad ws d ++ encFields G ws d (kv2 :: t))).data = _
          rw [String.data_append, String.data_append, String.data_append,
            String.data_append, String.data_append, String.data_append, hq]
          simp
        exact ⟨_, hd⟩


theorem lsizeV_pos (l : List Value) : 0 < lsizeV l := by
  cases l <;> simp [lsizeV]

theorem colonPad_allWs (ws : Bool) : allWs (colonPad ws).data = true := by
  cases ws <;> decide

theorem membersLoop_ws_drop {w : List Char} (hw : allWs w = true) (fuel : Nat)
    (s : List Char) :
    membersLoop (fuel + 1) (w ++ s) = membersLoop (fuel + 1) s := by
  rw [membersLoop, membersLoop, skipWs_append hw]

/-- The parser is a left inverse of the encoder: with enough fuel, at any
layout (`ws`) and depth, parsing the encoding of a well-formed value
consumes exactly its text and rebuilds the value; the member and element
loops likewise rebuild a non-empty field or element list whose text runs
up to the closing brace or bracket. -/
theorem parse_enc_bundle (fp : Nat) :
    (∀ (v : Value) (ws : Bool) (d F : Nat) (rest : List Char),
      wfV v = true → vsize v < fp → vsize v < F → delimOk rest →
      parseV fp ((encAux F ws d v).data ++ rest) = some (v, rest)) ∧
    (∀ (f : List (String × Value)) (ws : Bool) (d F : Nat)
        (w1 rest : List Char),
      wfF f = true → f ≠ [] → fsizeV f < fp → fsizeV f < F →
      allWs w1 = true →
      membersLoop fp ((encFields F ws d f).data ++ (w1 ++ cbrace :: rest)) =
        some (f, rest)) ∧
    (∀ (l : List Value) (ws : Bool) (d F : Nat) (w0 w1 rest : List Char),
      wfL l = true → l ≠ [] → lsizeV l < fp → lsizeV l < F →
      allWs w0 = true → allWs w1 = true →
      elemsLoop fp (w0 ++ ((encList F ws d l).data ++ (w1 ++ ']' :: rest))) =
        some (l, rest)) := by
  induction fp using Nat.strong_induction_on with
  | _ fp IH =>
    refine ⟨?_, ?_, ?_⟩
    · intro v ws d F rest hv hfp hF hrest
      obtain ⟨g, rfl⟩ : ∃ g, fp = g + 1 :=
        ⟨fp - 1, by have := vsize_pos v; omega⟩
      obtain ⟨G, rfl⟩ : ∃ G, F = G + 1 :=
        ⟨F - 1, by have := vsize_pos v; omega⟩
      cases v with
      | vNull => exact parseV_null g rest
      | vBool b =>
        cases b with
        | false => exact parseV_false g rest
        | true => exact parseV_true g rest
      | vNum q => exact parseV_num (by simpa [wfV, decide_eq_true_eq] using hv) g hrest
      | vStr s => exact parseV_str g s rest
      | vArr l =>
        cases l with
        | nil =>
          show parseV (g + 1) ('[' :: ']' :: rest) = _
          simp [parseV, skipWs_cons_not_ws (by decide : isWsChar '[' = false),
            skipWs_cons_not_ws (by decide : isWsChar ']' = false), obrace]
        | cons x r =>
          have hl : wfL (x :: r) = true := by simpa [wfV] using hv
          simp only [vsize, lsizeV] at hfp hF
          have hvx := vsize_pos x
          have hlr := lsizeV_pos r
          have hd : (encAux (G + 1) ws d (.vArr (x :: r))).data ++ rest =
              '[' :: ((nlPad ws (d + 1)).data ++
                ((encList G ws (d + 1) (x :: r)).data ++
                  ((nlPad ws d).data ++ (']' :: rest)))) := by
            show (("[" ++ nlPad ws (d + 1) ++ encList G ws (d + 1) (x :: r) ++
              nlPad ws d ++ "]")).data ++ rest = _
            rw [String.data_append, String.data_append, String.data_append,
              String.data_append]
            simp
          obtain ⟨c2, cs2, he, hws2, hbr2, _, _⟩ :=
            encList_head hl (by simp) (show 1 < G by omega) ws (d + 1)
          have helems : elemsLoop g ((encList G ws (d + 1) (x :: r)).data ++
              ((nlPad ws d).data ++ (']' :: rest))) = some (x :: r, rest) := by
            have := (IH g (by omega)).2.2 (x :: r) ws (d + 1) G []
              (nlPad ws d).data rest hl (by simp) (by simp [lsizeV]; omega)
              (by simp [lsizeV]; omega) rfl (nlPad_allWs ws d)
            simpa using this
          rw [he] at helems
          simp only [List.cons_append] at helems
          rw [hd]
          simp [parseV, skipWs_cons_not_ws (by decide : isWsChar '[' = false),
            obrace, skipWs_append (nlPad_allWs ws (d + 1)), he,
            skipWs_cons_not_ws hws2, hbr2, helems]
      | vObj flag f =>
        cases flag with
        | true => simp [wfV] at hv
        | false =>
          cases f with
          | nil =>
            show parseV (g + 1) (obrace :: cbrace :: rest) = _
            simp [parseV,
              skipWs_cons_not_ws (by decide : isWsChar obrace = false),
              skipWs_cons_not_ws (by decide : isWsChar cbrace = false)]
          | cons kv r =>
            have hf : wfF (kv :: r) = true := by simpa [wfV] using hv
            simp only [vsize] at hfp hF
            have hfs := fsizeV_pos (kv :: r)
            have hd : (encAux (G + 1) ws d (.vObj false (kv :: r))).data ++
                rest = obrace :: ((nlPad ws (d + 1)).data ++
                  ((encFields G ws (d + 1) (kv :: r)).data ++
                    ((nlPad ws d).data ++ (cbrace :: rest)))) := by
              show ((String.mk [obrace] ++ nlPad ws (d + 1) ++
                encFields G ws (d + 1) (kv :: r) ++ nlPad ws d ++
                String.mk [cbrace])).data ++ rest = _
              rw [String.data_append, String.data_append, String.data_append,
                String.data_append]
              simp
            obtain ⟨cs2, he⟩ :=
              encFields_head (kv :: r) (by simp) (show 0 < G by omega) ws (d + 1)
            have hmem : membersLoop g ((encFields G ws (d + 1) (kv :: r)).data ++
                ((nlPad ws d).data ++ (cbrace :: rest))) =
                some (kv :: r, rest) :=
              (IH g (by omega)).2.1 (kv :: r) ws (d + 1) G (nlPad ws d).data
                rest hf (by simp) (by omega) (by omega) (nlPad_allWs ws d)
            rw [he] at hmem
            simp only [List.cons_append, cbrace] at hmem
            rw [hd]
            simp [parseV,
              skipWs_cons_not_ws (by decide : isWsChar obrace = false),
              skipWs_append (nlPad_allWs ws (d + 1)), he,
              skipWs_cons_not_ws (by decide : isWsChar '\x22' = false),
              cbrace, hmem]
      | vRec f => simp [wfV] at hv
      | vFunc t => simp [wfV] at hv
    · intro f ws d F w1 rest hf hne hfp hF hw1
      obtain ⟨g, rfl⟩ : ∃ g, fp = g + 1 :=
        ⟨fp - 1, by have := fsizeV_pos f; omega⟩
      obtain ⟨G, rfl⟩ : ∃ G, F = G + 1 :=
        ⟨F - 1, by have := fsizeV_pos f; omega⟩
      cases f with
      | nil => exact absurd rfl hne
      | cons kv r =>
        obtain ⟨k, x⟩ := kv
        have hk : wfV x = true ∧ wfF r = true := by
          simpa [wfF, Bool.and_eq_true] using hf
        simp only [fsizeV] at hfp hF
        have hvx := vsize_pos x
        have hmk : String.mk k.data = k := rfl
        cases r with
        | nil =>
          have hd : (encFields (G + 1) ws d [(k, x)]).data ++
              (w1 ++ cbrace :: rest) =
              '\x22' :: (k.data.flatMap escChar ++ '\x22' :: ':' ::
                ((colonPad ws).data ++
                ((encAux G ws d x).data ++ (w1 ++ cbrace :: rest)))) := by
            show ((quoteStr k ++ ":" ++ colonPad ws ++ encAux G ws d x)).data ++
              (w1 ++ cbrace :: rest) = _
            rw [String.data_append, String.data_append, String.data_append,
              quoteStr_data]
            simp
          have hpc : parseStrChars (k.data.flatMap escChar ++ '\x22' :: ':' ::
              ((colonPad ws).data ++ ((encAux G ws d x).data ++
                (w1 ++ cbrace :: rest)))) =
              some (k.data, ':' :: ((colonPad ws).data ++
                ((encAux G ws d x).data ++ (w1 ++ cbrace :: rest)))) :=
            parseStrChars_esc k.data _
          have hx : parseV g ((colonPad ws).data ++ ((encAux G ws d x).data ++
              (w1 ++ cbrace :: rest))) = some (x, w1 ++ cbrace :: rest) := by
            obtain ⟨g2, rfl⟩ : ∃ g2, g = g2 + 1 := ⟨g - 1, by omega⟩
            rw [parseV_ws_drop (colonPad_allWs ws)]
            exact (IH (g2 + 1) (by omega)).1 x ws d G (w1 ++ cbrace :: rest)
              hk.1 (by omega) (by omega)
              (delimOk_ws hw1 ⟨by decide, by decide⟩ rest)
          rw [hd]
          simp only [cbrace] at hpc hx ⊢
          simp [membersLoop,
            skipWs_cons_not_ws (by decide : isWsChar '\x22' = false), hpc,
            skipWs_cons_not_ws (by decide : isWsChar ':' = false), hx,
            skipWs_append hw1,
            skipWs_cons_not_ws (by decide : isWsChar '\x7d' = false),
            cbrace, hmk]
        | cons kv2 t =>
          have hd : (encFields (G + 1) ws d ((k, x) :: kv2 :: t)).data ++
              (w1 ++ cbrace :: rest) =
              '\x22' :: (k.data.flatMap escChar ++ '\x22' :: ':' ::
                ((colonPad ws).data ++
                ((encAux G ws d x).data ++ (',' :: ((nlPad ws d).data ++
                  ((encFields G ws d (kv2 :: t)).data ++
                    (w1 ++ cbrace :: rest))))))) := by
            show ((quoteStr k ++ ":" ++ colonPad ws ++ encAux G ws d x ++ "," ++
              nlPad ws d ++ encFields G ws d (kv2 :: t))).data ++
              (w1 ++ cbrace :: rest) = _
            rw [String.data_append, String.data_append, String.data_append,
              String.data_append, String.data_append, String.data_append,
              quoteStr_data]
            simp
          have hpc : parseStrChars (k.data.flatMap escChar ++ '\x22' :: ':' ::
              ((colonPad ws).data ++ ((encAux G ws d x).data ++
                (',' :: ((nlPad ws d).data ++
                  ((encFields G ws d (kv2 :: t)).data ++
                    (w1 ++ cbrace :: rest))))))) =
              some (k.data, ':' :: ((colonPad ws).data ++
                ((encAux G ws d x).data ++ (',' :: ((nlPad ws d).data ++
                  ((encFields G ws d (kv2 :: t)).data ++
                    (w1 ++ cbrace :: rest))))))) :=
            parseStrChars_esc k.data _
          have hfs := fsizeV_pos (kv2 :: t)
          have hx : parseV g ((colonPad ws).data ++ ((encAux G ws d x).data ++
              (',' :: ((nlPad ws d).data ++
                ((encFields G ws d (kv2 :: t)).data ++
                  (w1 ++ cbrace :: rest)))))) =
              some (x, ',' :: ((nlPad ws d).data ++
                ((encFields G ws d (kv2 :: t)).data ++
                  (w1 ++ cbrace :: rest)))) := by
            obtain ⟨g2, rfl⟩ : ∃ g2, g = g2 + 1 := ⟨g - 1, by omega⟩
            rw [parseV_ws_drop (colonPad_allWs ws)]
            exact (IH (g2 + 1) (by omega)).1 x ws d G _ hk.1 (by omega)
              (by omega) ⟨by decide, by decide⟩
          have hm : membersLoop g ((nlPad ws d).data ++
              ((encFields G ws d (kv2 :: t)).data ++ (w1 ++ cbrace :: rest))) =
              some (kv2 :: t, rest) := by
            obtain ⟨g2, rfl⟩ : ∃ g2, g = g2 + 1 := ⟨g - 1, by omega⟩
            rw [membersLoop_ws_drop (nlPad_allWs ws d)]
            exact (IH (g2 + 1) (by omega)).2.1 (kv2 :: t) ws d G w1 rest
              hk.2 (by simp) (by omega) (by omega) hw1
          rw [hd]
          simp [membersLoop,
            skipWs_cons_not_ws (by decide : isWsChar '\x22' = false), hpc,
            skipWs_cons_not_ws (by decide : isWsChar ':' = false), hx,
            skipWs_cons_not_ws (by decide : isWsChar ',' = false), hm, hmk]
    · intro l ws d F w0 w1 rest hl hne hfp hF hw0 hw1
      obtain ⟨g, rfl⟩ : ∃ g, fp = g + 1 :=
        ⟨fp - 1, by have := lsizeV_pos l; omega⟩
      obtain ⟨G, rfl⟩ : ∃ G, F = G + 1 :=
        ⟨F - 1, by have := lsizeV_pos l; omega⟩
      cases l with
      | nil => exact absurd rfl hne
      | cons x r =>
        have hx : wfV x = true ∧ wfL r = true := by
          simpa [wfL, Bool.and_eq_true] using hl
        simp only [lsizeV] at hfp hF
        have hvx := vsize_pos x
        cases r with
        | nil =>
          have hstep : parseV g (w0 ++ ((encAux G ws d x).data ++
              (w1 ++ ']' :: rest))) = some (x, w1 ++ ']' :: rest) := by
            obtain ⟨g2, rfl⟩ : ∃ g2, g = g2 + 1 := ⟨g - 1, by omega⟩
            rw [parseV_ws_drop hw0]
            exact (IH (g2 + 1) (by omega)).1 x ws d G _ hx.1 (by omega)
              (by simp [lsizeV] at hF; omega)
              (delimOk_ws hw1 ⟨by decide, by decide⟩ rest)
          show elemsLoop (g + 1) (w0 ++ ((encAux G ws d x).data ++
            (w1 ++ ']' :: rest))) = _
          simp [elemsLoop, hstep, skipWs_append hw1,
            skipWs_cons_not_ws (by decide : isWsChar ']' = false)]
        | cons y t =>
          have hlr := lsizeV_pos (y :: t)
          simp only [lsizeV] at hfp hF
          have hd : (encList (G + 1) ws d (x :: y :: t)).data =
              (encAux G ws d x).data ++ (',' :: ((nlPad ws d).data ++
                (encList G ws d (y :: t)).data)) := by
            show ((encAux G ws d x ++ "," ++ nlPad ws d ++
              encList G ws d (y :: t))).data = _
            rw [String.data_append, String.data_append, String.data_append]
            simp
          have hstep : parseV g (w0 ++ ((encAux G ws d x).data ++
              (',' :: ((nlPad ws d).data ++ ((encList G ws d (y :: t)).data ++
                (w1 ++ ']' :: rest)))))) =
              some (x, ',' :: ((nlPad ws d).data ++
                ((encList G ws d (y :: t)).data ++ (w1 ++ ']' :: rest)))) := by
            obtain ⟨g2, rfl⟩ : ∃ g2, g = g2 + 1 := ⟨g - 1, by omega⟩
            rw [parseV_ws_drop hw0]
            exact (IH (g2 + 1) (by omega)).1 x ws d G _ hx.1 (by omega)
              (by omega) ⟨by decide, by decide⟩
          have hrec : elemsLoop g ((nlPad ws d).data ++
              ((encList G ws d (y :: t)).data ++ (w1 ++ ']' :: rest))) =
              some (y :: t, rest) :=
            (IH g (by omega)).2.2 (y :: t) ws d G (nlPad ws d).data w1 rest
              hx.2 (by simp) (by simp only [lsizeV]; omega)
              (by simp only [lsizeV]; omega) (nlPad_allWs ws d) hw1
          rw [hd]
          simp only [List.append_assoc, List.cons_append]
          simp [elemsLoop, hstep,
            skipWs_cons_not_ws (by decide : isWsChar ',' = false), hrec]



/-- The encoder's text is long enough for the decoder's fuel: a value of
size `n` encodes to at least `(n+1)/2` characters at any layout. -/
theorem enc_len_bundle (F : Nat) :
    (∀ (v : Value) (ws : Bool) (d : Nat), wfV v = true → vsize v < F →
      vsize v + 1 ≤ 2 * (encAux F ws d v).length) ∧
    (∀ (l : List Value) (ws : Bool) (d : Nat), wfL l = true → l ≠ [] →
      lsizeV l < F → lsizeV l ≤ 2 * (encList F ws d l).length + 2) ∧
    (∀ (f : List (String × Value)) (ws : Bool) (d : Nat), wfF f = true →
      f ≠ [] → fsizeV f < F → fsizeV f ≤ 2 * (encFields F ws d f).length + 2) := by
  induction F using Nat.strong_induction_on with
  | _ F IH =>
    refine ⟨?_, ?_, ?_⟩
    · intro v ws d hv hvF
      obtain ⟨G, rfl⟩ : ∃ G, F = G + 1 :=
        ⟨F - 1, by have := vsize_pos v; omega⟩
      cases v with
      | vNull =>
        show 1 + 1 ≤ 2 * ("null" : String).length
        decide
      | vBool b =>
        cases b with
        | true =>
          show 1 + 1 ≤ 2 * ("true" : String).length
          decide
        | false =>
          show 1 + 1 ≤ 2 * ("false" : String).length
          decide
      | vNum q =>
        show 1 + 1 ≤ 2 * (gFormat q).length
        obtain ⟨c, cs, hd, -⟩ := gFormat_head q
        have hl : (gFormat q).length = cs.length + 1 := by
          show (gFormat q).data.length = _
          rw [hd]
          simp
        omega
      | vStr s =>
        show 1 + 1 ≤ 2 * (quoteStr s).length
        have hl : (quoteStr s).length =
            (s.data.flatMap escChar).length + 2 := by
          show (quoteStr s).data.length = _
          unfold quoteStr
          simp
        omega
      | vArr l =>
        cases l with
        | nil =>
          show 1 + 1 + 1 ≤ 2 * ("[]" : String).length
          decide
        | cons x r =>
          have hl : wfL (x :: r) = true := by simpa [wfV] using hv
          simp only [vsize] at hvF ⊢
          have hcl := (IH G (by omega)).2.1 (x :: r) ws (d + 1) hl (by simp)
            (by omega)
          have hd : (encAux (G + 1) ws d (.vArr (x :: r))).data =
              '[' :: ((nlPad ws (d + 1)).data ++
                ((encList G ws (d + 1) (x :: r)).data ++
                  ((nlPad ws d).data ++ [']']))) := by
            show (("[" ++ nlPad ws (d + 1) ++ encList G ws (d + 1) (x :: r) ++
              nlPad ws d ++ "]")).data = _
            rw [String.data_append, String.data_append, String.data_append,
              String.data_append]
            simp
          have hlen : (encAux (G + 1) ws d (.vArr (x :: r))).length =
              (nlPad ws (d + 1)).data.length +
                (encList G ws (d + 1) (x :: r)).length +
                (nlPad ws d).data.length + 2 := by
            show (encAux (G + 1) ws d (.vArr (x :: r))).data.length = _
            rw [hd]
            show _ = _ + (encList G ws (d + 1) (x :: r)).data.length + _ + 2
            simp
            omega
          rw [hlen]
          omega
      | vObj flag f =>
        cases flag with
        | true => simp [wfV] at hv
        | false =>
          cases f with
          | nil =>
            show 1 + 1 + 1 ≤ 2 * (String.mk [obrace, cbrace]).length
            decide
          | cons kv r =>
            have hf : wfF (kv :: r) = true := by simpa [wfV] using hv
            simp only [vsize] at hvF ⊢
            have hcf := (IH G (by omega)).2.2 (kv :: r) ws (d + 1) hf (by simp)
              (by omega)
            have hd : (encAux (G + 1) ws d (.vObj false (kv :: r))).data =
                obrace :: ((nlPad ws (d + 1)).data ++
                  ((encFields G ws (d + 1) (kv :: r)).data ++
                    ((nlPad ws d).data ++ [cbrace]))) := by
              show ((String.mk [obrace] ++ nlPad ws (d + 1) ++
                encFields G ws (d + 1) (kv :: r) ++ nlPad ws d ++
                String.mk [cbrace])).data = _
              rw [String.data_append, String.data_append, String.data_append,
                String.data_append]
              simp
            have hlen : (encAux (G + 1) ws d (.vObj false (kv :: r))).length =
                (nlPad ws (d + 1)).data.length +
                  (encFields G ws (d + 1) (kv :: r)).length +
                  (nlPad ws d).data.length + 2 := by
              show (encAux (G + 1) ws d (.vObj false (kv :: r))).data.length = _
              rw [hd]
              show _ = _ + (encFields G ws (d + 1) (kv :: r)).data.length + _ + 2
              simp
              omega
            rw [hlen]
            omega
      | vRec f => simp [wfV] at hv
      | vFunc t => simp [wfV] at hv
    · intro l ws d hl hne hlF
      obtain ⟨G, rfl⟩ : ∃ G, F = G + 1 :=
        ⟨F - 1, by have := lsizeV_pos l; omega⟩
      cases l with
      | nil => exact absurd rfl hne
      | cons x r =>
        have hx : wfV x = true ∧ wfL r = true := by
          simpa [wfL, Bool.and_eq_true] using hl
        simp only [lsizeV] at hlF ⊢
        have hvx := vsize_pos x
        have h1 := (IH G (by omega)).1 x ws d hx.1 (by omega)
        cases r with
        | nil =>
          show 1 + vsize x + lsizeV [] ≤ 2 * (encAux G ws d x).length + 2
          simp only [lsizeV]
          omega
        | cons y t =>
          simp only [lsizeV] at hlF ⊢
          have hcl := (IH G (by omega)).2.1 (y :: t) ws d hx.2 (by simp)
            (by simp only [lsizeV]; omega)
          simp only [lsizeV] at hcl
          have hd : (encList (G + 1) ws d (x :: y :: t)).data =
              (encAux G ws d x).data ++ (',' :: ((nlPad ws d).data ++
                (encList G ws d (y :: t)).data)) := by
            show ((encAux G ws d x ++ "," ++ nlPad ws d ++
              encList G ws d (y :: t))).data = _
            rw [String.data_append, String.data_append, String.data_append]
            simp
          have hlen : (encList (G + 1) ws d (x :: y :: t)).length =
              (encAux G ws d x).length + 1 + (nlPad ws d).data.length +
                (encList G ws d (y :: t)).length := by
            show (encList (G + 1) ws d (x :: y :: t)).data.length = _
            rw [hd]
            show _ = (encAux G ws d x).data.length + 1 + _ +
              (encList G ws d (y :: t)).data.length
            simp
            omega
          rw [hlen]
          omega
    · intro f ws d hf hne hfF
      obtain ⟨G, rfl⟩ : ∃ G, F = G + 1 :=
        ⟨F - 1, by have := fsizeV_pos f; omega⟩
      cases f with
      | nil => exact absurd rfl hne
      | cons kv r =>
        obtain ⟨k, x⟩ := kv
        have hk : wfV x = true ∧ wfF r = true := by
          simpa [wfF, Bool.and_eq_true] using hf
        simp only [fsizeV] at hfF ⊢
        have hvx := vsize_pos x
        have h1 := (IH G (by omega)).1 x ws d hk.1 (by omega)
        cases r with
        | nil =>
          have hd : (encFields (G + 1) ws d [(k, x)]).data =
              (quoteStr k).data ++ (':' :: ((colonPad ws).data ++
                (encAux G ws d x).data)) := by
            show ((quoteStr k ++ ":" ++ colonPad ws ++ encAux G ws d x)).data = _
            rw [String.data_append, String.data_append, String.data_append]
            simp
          have hlen : (encFields (G + 1) ws d [(k, x)]).length =
              (quoteStr k).data.length + 1 + (colonPad ws).data.length +
                (encAux G ws d x).length := by
            show (encFields (G + 1) ws d [(k, x)]).data.length = _
            rw [hd]
            show _ = _ + 1 + _ + (encAux G ws d x).data.length
            simp
            omega
          rw [hlen]
          simp only [fsizeV]
          omega
        | cons kv2 t =>
          simp only [fsizeV] at hfF ⊢
          have hcf := (IH G (by omega)).2.2 (kv2 :: t) ws d hk.2 (by simp)
            (by simp only [fsizeV]; omega)
          simp only [fsizeV] at hcf
          have hd : (encFields (G + 1) ws d ((k, x) :: kv2 :: t)).data =
              (quoteStr k).data ++ (':' :: ((colonPad ws).data ++
                ((encAux G ws d x).data ++ (',' :: ((nlPad ws d).data ++
                  (encFields G ws d (kv2 :: t)).data))))) := by
            show ((quoteStr k ++ ":" ++ colonPad ws ++ encAux G ws d x ++ "," ++
              nlPad ws d ++ encFields G ws d (kv2 :: t))).data = _
            rw [String.data_append, String.data_append, String.data_append,
              String.data_append, String.data_append, String.data_append]
            simp
          have hlen : (encFields (G + 1) ws d ((k, x) :: kv2 :: t)).length =
              (quoteStr k).data.length + 1 + (colonPad ws).data.length +
                (encAux G ws d x).length + 1 + (nlPad ws d).data.length +
                (encFields G ws d (kv2 :: t)).length := by
            show (encFields (G + 1) ws d ((k, x) :: kv2 :: t)).data.length = _
            rw [hd]
            show _ = _ + 1 + _ + (encAux G ws d x).data.length + 1 + _ +
              (encFields G ws d (kv2 :: t)).data.length
            simp
            omega
          rw [hlen]
          omega

theorem encFieldsR_head (f : List (String × Value)) (hne : f ≠ [])
    {F : Nat} (hF : 0 < F) (ws : Bool) (d : Nat) :
    ∃ cs, (encFieldsR F ws d f).data = '\x22' :: cs := by
  match F, hF with
  | G + 1, _ =>
    cases f with
    | nil => exact absurd rfl hne
    | cons kv r =>
      obtain ⟨k, x⟩ := kv
      cases r with
      | nil =>
        have hd : (encFieldsR (G + 1) ws d [(k, x)]).data =
            '\x22' :: (k.data ++ '\x22' :: ':' :: ((colonPad ws).data ++
              (encAux G ws d x).data)) := by
          show (("\x22" ++ k ++ "\x22:" ++ colonPad ws ++
            encAux G ws d x)).data = _
          rw [String.data_append, String.data_append, String.data_append]
          simp
        exact ⟨_, hd⟩
      | cons kv2 t =>
        have hd : (encFieldsR (G + 1) ws d ((k, x) :: kv2 :: t)).data =
            '\x22' :: (k.data ++ '\x22' :: ':' :: ((colonPad ws).data ++
              ((encAux G ws d x).data ++ (',' :: ((nlPad ws d).data ++
                (encFieldsR G ws d (kv2 :: t)).data))))) := by
          show (("\x22" ++ k ++ "\x22:" ++ colonPad ws ++ encAux G ws d x ++
            "," ++ nlPad ws d ++ encFieldsR G ws d (kv2 :: t))).data = _
          rw [String.data_append, String.data_append, String.data_append,
            String.data_append, String.data_append]
          simp
        exact ⟨_, hd⟩

/-- The member loop rebuilds a raw-keyed field list (keys verbatim, as
`Config.MarshalJSON` writes them) whose keys JSON can hold verbatim. -/
theorem membersLoopR (fp : Nat) : ∀ (f : List (String × Value)) (ws : Bool)
    (d F : Nat) (w1 rest : List Char),
    wfF f = true → keysOk f = true → f ≠ [] → fsizeV f < fp → fsizeV f < F →
    allWs w1 = true →
    membersLoop fp ((encFieldsR F ws d f).data ++ (w1 ++ cbrace :: rest)) =
      some (f, rest) := by
  induction fp using Nat.strong_induction_on with
  | _ fp IH =>
    intro f ws d F w1 rest hf hkeys hne hfp hF hw1
    obtain ⟨g, rfl⟩ : ∃ g, fp = g + 1 :=
      ⟨fp - 1, by have := fsizeV_pos f; omega⟩
    obtain ⟨G, rfl⟩ : ∃ G, F = G + 1 :=
      ⟨F - 1, by have := fsizeV_pos f; omega⟩
    cases f with
    | nil => exact absurd rfl hne
    | cons kv r =>
      obtain ⟨k, x⟩ := kv
      have hk : wfV x = true ∧ wfF r = true := by
        simpa [wfF, Bool.and_eq_true] using hf
      have hkk : keyOk k = true ∧ keysOk r = true := by
        simpa [keysOk, Bool.and_eq_true] using hkeys
      simp only [fsizeV] at hfp hF
      have hvx := vsize_pos x
      have hmk : String.mk k.data = k := rfl
      cases r with
      | nil =>
        have hd : (encFieldsR (G + 1) ws d [(k, x)]).data ++
            (w1 ++ cbrace :: rest) =
            '\x22' :: (k.data ++ '\x22' :: ':' :: ((colonPad ws).data ++
              ((encAux G ws d x).data ++ (w1 ++ cbrace :: rest)))) := by
          show (("\x22" ++ k ++ "\x22:" ++ colonPad ws ++
            encAux G ws d x)).data ++ (w1 ++ cbrace :: rest) = _
          rw [String.data_append, String.data_append, String.data_append]
          simp
        have hpc : parseStrChars (k.data ++ '\x22' :: ':' ::
            ((colonPad ws).data ++ ((encAux G ws d x).data ++
              (w1 ++ cbrace :: rest)))) =
            some (k.data, ':' :: ((colonPad ws).data ++
              ((encAux G ws d x).data ++ (w1 ++ cbrace :: rest)))) :=
          parseStrChars_inv
            (by simpa [keyOk, List.all_eq_true] using hkk.1) _
        have hx : parseV g ((colonPad ws).data ++ ((encAux G ws d x).data ++
            (w1 ++ cbrace :: rest))) = some (x, w1 ++ cbrace :: rest) := by
          obtain ⟨g2, rfl⟩ : ∃ g2, g = g2 + 1 := ⟨g - 1, by omega⟩
          rw [parseV_ws_drop (colonPad_allWs ws)]
          exact (parse_enc_bundle (g2 + 1)).1 x ws d G (w1 ++ cbrace :: rest)
            hk.1 (by omega) (by omega)
            (delimOk_ws hw1 ⟨by decide, by decide⟩ rest)
        rw [hd]
        simp only [cbrace] at hpc hx ⊢
        simp [membersLoop,
          skipWs_cons_not_ws (by decide : isWsChar '\x22' = false), hpc,
          skipWs_cons_not_ws (by decide : isWsChar ':' = false), hx,
          skipWs_append hw1,
          skipWs_cons_not_ws (by decide : isWsChar '\x7d' = false),
          cbrace, hmk]
      | cons kv2 t =>
        have hd : (encFieldsR (G + 1) ws d ((k, x) :: kv2 :: t)).data ++
            (w1 ++ cbrace :: rest) =
            '\x22' :: (k.data ++ '\x22' :: ':' :: ((colonPad ws).data ++
              ((encAux G ws d x).data ++ (',' :: ((nlPad ws d).data ++
                ((encFieldsR G ws d (kv2 :: t)).data ++
                  (w1 ++ cbrace :: rest))))))) := by
          show (("\x22" ++ k ++ "\x22:" ++ colonPad ws ++ encAux G ws d x ++
            "," ++ nlPad ws d ++ encFieldsR G ws d (kv2 :: t))).data ++
            (w1 ++ cbrace :: rest) = _
          rw [String.data_append, String.data_append, String.data_append,
            String.data_append, String.data_append]
          simp
        have hpc : parseStrChars (k.data ++ '\x22' :: ':' ::
            ((colonPad ws).data ++ ((encAux G ws d x).data ++
              (',' :: ((nlPad ws d).data ++
                ((encFieldsR G ws d (kv2 :: t)).data ++
                  (w1 ++ cbrace :: rest))))))) =
            some (k.data, ':' :: ((colonPad ws).data ++
              ((encAux G ws d x).data ++ (',' :: ((nlPad ws d).data ++
                ((encFieldsR G ws d (kv2 :: t)).data ++
                  (w1 ++ cbrace :: rest))))))) :=
          parseStrChars_inv
            (by simpa [keyOk, List.all_eq_true] using hkk.1) _
        have hfs := fsizeV_pos (kv2 :: t)
        have hx : parseV g ((colonPad ws).data ++ ((encAux G ws d x).data ++
            (',' :: ((nlPad ws d).data ++
              ((encFieldsR G ws d (kv2 :: t)).data ++
                (w1 ++ cbrace :: rest)))))) =
            some (x, ',' :: ((nlPad ws d).data ++
              ((encFieldsR G ws d (kv2 :: t)).data ++
                (w1 ++ cbrace :: rest)))) := by
          obtain ⟨g2, rfl⟩ : ∃ g2, g = g2 + 1 := ⟨g - 1, by omega⟩
          rw [parseV_ws_drop (colonPad_allWs ws)]
          exact (parse_enc_bundle (g2 + 1)).1 x ws d G _ hk.1 (by omega)
            (by omega) ⟨by decide, by decide⟩
        have hm : membersLoop g ((nlPad ws d).data ++
            ((encFieldsR G ws d (kv2 :: t)).data ++ (w1 ++ cbrace :: rest))) =
            some (kv2 :: t, rest) := by
          obtain ⟨g2, rfl⟩ : ∃ g2, g = g2 + 1 := ⟨g - 1, by omega⟩
          rw [membersLoop_ws_drop (nlPad_allWs ws d)]
          exact IH (g2 + 1) (by omega) (kv2 :: t) ws d G w1 rest
            hk.2 hkk.2 (by simp) (by omega) (by omega) hw1
        rw [hd]
        simp [membersLoop,
          skipWs_cons_not_ws (by decide : isWsChar '\x22' = false), hpc,
          skipWs_cons_not_ws (by decide : isWsChar ':' = false), hx,
          skipWs_cons_not_ws (by decide : isWsChar ',' = false), hm, hmk]

theorem encFieldsR_len (F : Nat) : ∀ (f : List (String × Value)) (ws : Bool)
    (d : Nat), wfF f = true → f ≠ [] → fsizeV f < F →
    fsizeV f ≤ 2 * (encFieldsR F ws d f).length + 2 := by
  induction F using Nat.strong_induction_on with
  | _ F IH =>
    intro f ws d hf hne hfF
    obtain ⟨G, rfl⟩ : ∃ G, F = G + 1 :=
      ⟨F - 1, by have := fsizeV_pos f; omega⟩
    cases f with
    | nil => exact absurd rfl hne
    | cons kv r =>
      obtain ⟨k, x⟩ := kv
      have hk : wfV x = true ∧ wfF r = true := by
        simpa [wfF, Bool.and_eq_true] using hf
      simp only [fsizeV] at hfF ⊢
      have hvx := vsize_pos x
      have h1 := (enc_len_bundle G).1 x ws d hk.1 (by omega)
      cases r with
      | nil =>
        have hd : (encFieldsR (G + 1) ws d [(k, x)]).data =
            '\x22' :: (k.data ++ '\x22' :: ':' :: ((colonPad ws).data ++
              (encAux G ws d x).data)) := by
          show (("\x22" ++ k ++ "\x22:" ++ colonPad ws ++
            encAux G ws d x)).data = _
          rw [String.data_append, String.data_append, String.data_append]
          simp
        have hlen : (encFieldsR (G + 1) ws d [(k, x)]).length =
            k.data.length + 3 + (colonPad ws).data.length +
              (encAux G ws d x).length := by
          show (encFieldsR (G + 1) ws d [(k, x)]).data.length = _
          rw [hd]
          show _ = _ + 3 + _ + (encAux G ws d x).data.length
          simp
          omega
        rw [hlen]
        simp only [fsizeV]
        omega
      | cons kv2 t =>
        simp only [fsizeV] at hfF ⊢
        have hcf := IH G (by omega) (kv2 :: t) ws d hk.2 (by simp)
          (by simp only [fsizeV]; omega)
        simp only [fsizeV] at hcf
        have hd : (encFieldsR (G + 1) ws d ((k, x) :: kv2 :: t)).data =
            '\x22' :: (k.data ++ '\x22' :: ':' :: ((colonPad ws).data ++
              ((encAux G ws d x).data ++ (',' :: ((nlPad ws d).data ++
                (encFieldsR G ws d (kv2 :: t)).data))))) := by
          show (("\x22" ++ k ++ "\x22:" ++ colonPad ws ++ encAux G ws d x ++
            "," ++ nlPad ws d ++ encFieldsR G ws d (kv2 :: t))).data = _
          rw [String.data_append, String.data_append, String.data_append,
            String.data_append, String.data_append]
          simp
        have hlen : (encFieldsR (G + 1) ws d ((k, x) :: kv2 :: t)).length =
            k.data.length + 4 + (colonPad ws).data.length +
              (encAux G ws d x).length + (nlPad ws d).data.length +
              (encFieldsR G ws d (kv2 :: t)).length := by
          show (encFieldsR (G + 1) ws d ((k, x) :: kv2 :: t)).data.length = _
          rw [hd]
          show _ = _ + 4 + _ + (encAux G ws d x).data.length + _ +
            (encFieldsR G ws d (kv2 :: t)).data.length
          simp
          omega
        rw [hlen]
        omega

/-- Decoding the text `Config.MarshalJSON` writes for a well-formed,
verbatim-safe field list — at either layout — recovers it exactly. -/
theorem decodeConfig_encObjR (f : Config) (hf : wfF f = true)
    (hkeys : keysOk f = true) (ws : Bool) :
    decodeConfig (encObjR ws f) = some f := by
  cases f with
  | nil => rfl
  | cons kv t =>
    have hne : (kv :: t) ≠ [] := by simp
    have hfpos := fsizeV_pos (kv :: t)
    have hflen := encFieldsR_len (vsize (.vObj false (kv :: t))) (kv :: t)
      ws 1 hf hne (by simp only [vsize]; omega)
    have hd : (encObjR ws (kv :: t)).data =
        obrace :: ((nlPad ws 1).data ++
          ((encFieldsR (vsize (.vObj false (kv :: t))) ws 1 (kv :: t)).data ++
            ((nlPad ws 0).data ++ [cbrace]))) := by
      show ((String.mk [obrace] ++ nlPad ws 1 ++
        encFieldsR (vsize (.vObj false (kv :: t))) ws 1 (kv :: t) ++
        nlPad ws 0 ++ String.mk [cbrace])).data = _
      rw [String.data_append, String.data_append, String.data_append,
        String.data_append]
      simp
    have hslen : (encFieldsR (vsize (.vObj false (kv :: t))) ws 1
          (kv :: t)).length + 2 ≤ (encObjR ws (kv :: t)).length := by
      show _ ≤ (encObjR ws (kv :: t)).data.length
      rw [hd]
      simp
      omega
    obtain ⟨cs2, he⟩ := encFieldsR_head (kv :: t) hne
      (show 0 < vsize (.vObj false (kv :: t)) from vsize_pos _) ws 1
    have hmem := membersLoopR (2 * (encObjR ws (kv :: t)).length + 1)
      (kv :: t) ws 1 (vsize (.vObj false (kv :: t))) (nlPad ws 0).data []
      hf hkeys hne (by omega) (by simp only [vsize]; omega)
      (nlPad_allWs ws 0)
    rw [he] at hmem
    simp only [List.cons_append, cbrace] at hmem
    have hp : parseV (2 * (encObjR ws (kv :: t)).length + 1 + 1)
        (obrace :: ((nlPad ws 1).data ++
          ((encFieldsR (vsize (.vObj false (kv :: t))) ws 1 (kv :: t)).data ++
            ((nlPad ws 0).data ++ [cbrace])))) =
        some (.vObj false (kv :: t), []) := by
      simp [parseV, skipWs_cons_not_ws (by decide : isWsChar obrace = false),
        skipWs_append (nlPad_allWs ws 1), he,
        skipWs_cons_not_ws (by decide : isWsChar '\x22' = false),
        cbrace, hmem]
    unfold decodeConfig
    rw [show 2 * (encObjR ws (kv :: t)).length + 2 =
      2 * (encObjR ws (kv :: t)).length + 1 + 1 from rfl]
    rw [hd, hp]
    simp [skipWs]

/-- `encoding/json.Marshal` produces exactly the compact canonical text
on the well-formed universe (at any depth: compact text has no layout). -/
theorem marshal_enc_bundle (F : Nat) :
    (∀ (v : Value) (d G : Nat), wfV v = true → vsize v < F → vsize v < G →
      jsonMarshalAux F v = .ok (encAux G false d v)) ∧
    (∀ (l : List Value) (d G : Nat), wfL l = true → lsizeV l < F →
      lsizeV l < G → jsonListAux F l = .ok (encList G false d l)) ∧
    (∀ (f : List (String × Value)) (d G : Nat), wfF f = true → fsizeV f < F →
      fsizeV f < G → jsonFieldsAux F f = .ok (encFields G false d f)) := by
  induction F using Nat.strong_induction_on with
  | _ F IH =>
    refine ⟨?_, ?_, ?_⟩
    · intro v d G hv hvF hvG
      obtain ⟨Fp, rfl⟩ : ∃ Fp, F = Fp + 1 :=
        ⟨F - 1, by have := vsize_pos v; omega⟩
      obtain ⟨Gp, rfl⟩ : ∃ Gp, G = Gp + 1 :=
        ⟨G - 1, by have := vsize_pos v; omega⟩
      cases v with
      | vNull => rfl
      | vBool b => cases b <;> rfl
      | vNum q => rfl
      | vStr s => rfl
      | vArr l =>
        cases l with
        | nil =>
          obtain ⟨Fq, rfl⟩ : ∃ Fq, Fp = Fq + 1 :=
            ⟨Fp - 1, by simp only [vsize, lsizeV] at hvF; omega⟩
          show (Except.ok ("[" ++ "" ++ "]") : Except String String) =
            Except.ok "[]"
          congr 1
        | cons x r =>
          have hl : wfL (x :: r) = true := by simpa [wfV] using hv
          simp only [vsize] at hvF hvG
          have hjl := (IH Fp (by omega)).2.1 (x :: r) (d + 1) Gp hl (by omega)
            (by omega)
          show (match jsonListAux Fp (x :: r) with
            | .ok es => Except.ok ("[" ++ es ++ "]")
            | .error e => Except.error e) = _
          rw [hjl]
          show Except.ok _ = Except.ok _
          congr 1
          apply String.ext
          show _ = (("[" ++ nlPad false (d + 1) ++
            encList Gp false (d + 1) (x :: r) ++ nlPad false d ++ "]")).data
          simp [String.data_append, nlPad]
      | vObj flag f =>
        cases flag with
        | true => simp [wfV] at hv
        | false =>
          cases f with
          | nil =>
            obtain ⟨Fq, rfl⟩ : ∃ Fq, Fp = Fq + 1 :=
              ⟨Fp - 1, by simp only [vsize, fsizeV] at hvF; omega⟩
            show (Except.ok (String.mk [obrace] ++ "" ++ String.mk [cbrace]) :
              Except String String) = Except.ok (String.mk [obrace, cbrace])
            congr 1
          | cons kv r =>
            have hf : wfF (kv :: r) = true := by simpa [wfV] using hv
            simp only [vsize] at hvF hvG
            have hjf := (IH Fp (by omega)).2.2 (kv :: r) (d + 1) Gp hf
              (by omega) (by omega)
            show (match jsonFieldsAux Fp (kv :: r) with
              | .ok es => Except.ok (String.mk [obrace] ++ es ++
                  String.mk [cbrace])
              | .error e => Except.error e) = _
            rw [hjf]
            show Except.ok _ = Except.ok _
            congr 1
            apply String.ext
            show _ = ((String.mk [obrace] ++ nlPad false (d + 1) ++
              encFields Gp false (d + 1) (kv :: r) ++ nlPad false d ++
              String.mk [cbrace])).data
            simp [String.data_append, nlPad]
      | vRec f => simp [wfV] at hv
      | vFunc t => simp [wfV] at hv
    · intro l d G hl hlF hlG
      obtain ⟨Fp, rfl⟩ : ∃ Fp, F = Fp + 1 :=
        ⟨F - 1, by have := lsizeV_pos l; omega⟩
      obtain ⟨Gp, rfl⟩ : ∃ Gp, G = Gp + 1 :=
        ⟨G - 1, by have := lsizeV_pos l; omega⟩
      cases l with
      | nil => rfl
      | cons x r =>
        have hx : wfV x = true ∧ wfL r = true := by
          simpa [wfL, Bool.and_eq_true] using hl
        simp only [lsizeV] at hlF hlG
        have hlr := lsizeV_pos r
        have hj1 := (IH Fp (by omega)).1 x d Gp hx.1 (by omega) (by omega)
        cases r with
        | nil =>
          show (match jsonMarshalAux Fp x with
            | .error e => Except.error e
            | .ok s => Except.ok s) = _
          rw [hj1]
          rfl
        | cons y t =>
          simp only [lsizeV] at hlF hlG
          have hjr := (IH Fp (by omega)).2.1 (y :: t) d Gp hx.2
            (by simp only [lsizeV]; omega) (by simp only [lsizeV]; omega)
          show (match jsonMarshalAux Fp x with
            | .error e => Except.error e
            | .ok s =>
              match jsonListAux Fp (y :: t) with
              | .error e => Except.error e
              | .ok u => Except.ok (s ++ "," ++ u)) = _
          rw [hj1, hjr]
          show Except.ok _ = Except.ok _
          congr 1
          apply String.ext
          show _ = ((encAux Gp false d x ++ "," ++ nlPad false d ++
            encList Gp false d (y :: t))).data
          simp [String.data_append, nlPad]
    · intro f d G hf hfF hfG
      obtain ⟨Fp, rfl⟩ : ∃ Fp, F = Fp + 1 :=
        ⟨F - 1, by have := fsizeV_pos f; omega⟩
      obtain ⟨Gp, rfl⟩ : ∃ Gp, G = Gp + 1 :=
        ⟨G - 1, by have := fsizeV_pos f; omega⟩
      cases f with
      | nil => rfl
      | cons kv r =>
        obtain ⟨k, x⟩ := kv
        have hk : wfV x = true ∧ wfF r = true := by
          simpa [wfF, Bool.and_eq_true] using hf
        simp only [fsizeV] at hfF hfG
        have hfr := fsizeV_pos r
        have hj1 := (IH Fp (by omega)).1 x d Gp hk.1 (by omega) (by omega)
        cases r with
        | nil =>
          show (match jsonMarshalAux Fp x with
            | .error e => Except.error e
            | .ok s => Except.ok (quoteStr k ++ ":" ++ s)) = _
          rw [hj1]
          show Except.ok _ = Except.ok _
          congr 1
          apply String.ext
          show _ = ((quoteStr k ++ ":" ++ colonPad false ++
            encAux Gp false d x)).data
          simp [String.data_append, colonPad]
        | cons kv2 t =>
          simp only [fsizeV] at hfF hfG
          have hjr := (IH Fp (by omega)).2.2 (kv2 :: t) d Gp hk.2
            (by simp only [fsizeV]; omega) (by simp only [fsizeV]; omega)
          show (match jsonMarshalAux Fp x with
            | .error e => Except.error e
            | .ok s =>
              match jsonFieldsAux Fp (kv2 :: t) with
              | .error e => Except.error e
              | .ok u => Except.ok (quoteStr k ++ ":" ++ s ++ "," ++ u)) = _
          rw [hj1, hjr]
          show Except.ok _ = Except.ok _
          congr 1
          apply String.ext
          show _ = ((quoteStr k ++ ":" ++ colonPad false ++
            encAux Gp false d x ++ "," ++ nlPad false d ++
            encFields Gp false d (kv2 :: t))).data
          simp [String.data_append, colonPad, nlPad]



theorem fsizeV_strip_le (c : Config) : fsizeV (stripReserved c) ≤ fsizeV c := by
  induction c with
  | nil => exact Nat.le_refl _
  | cons kv r ih =>
    obtain ⟨k, v⟩ := kv
    show fsizeV (if k = configScopeKey ∨ k = configParentKey
      then stripReserved r else (k, v) :: stripReserved r) ≤ _
    by_cases hres : k = configScopeKey ∨ k = configParentKey
    · rw [if_pos hres]
      simp only [fsizeV]
      omega
    · rw [if_neg hres]
      simp only [fsizeV]
      omega

theorem findVal_none_of_not_mem {c : Config} {key : String}
    (h : key ∉ c.map Prod.fst) : findVal c key = none := by
  induction c with
  | nil => rfl
  | cons kv r ih =>
    obtain ⟨k, v⟩ := kv
    simp only [List.map_cons, List.mem_cons, not_or] at h
    show (if k = key then some v else findVal r key) = none
    rw [if_neg (fun hh => h.1 hh.symm), ih h.2]

/-- With unique keys, stripping removes exactly one entry per reserved
key present. -/
theorem strip_length {c : Config} (hnd : (c.map Prod.fst).Nodup) :
    c.length = (stripReserved c).length +
      (if (findVal c configScopeKey).isSome then 1 else 0) +
      (if (findVal c configParentKey).isSome then 1 else 0) := by
  induction c with
  | nil => simp [findVal, stripReserved]
  | cons kv r ih =>
    obtain ⟨k, v⟩ := kv
    simp only [List.map_cons, List.nodup_cons] at hnd
    have ihr := ih hnd.2
    by_cases hs : k = configScopeKey
    · subst hs
      have h1 : findVal r configScopeKey = none :=
        findVal_none_of_not_mem hnd.1
      have h2 : findVal ((configScopeKey, v) :: r) configScopeKey = some v := by
        show (if configScopeKey = configScopeKey then some v else _) = _
        rw [if_pos rfl]
      have h3 : findVal ((configScopeKey, v) :: r) configParentKey =
          findVal r configParentKey := by
        show (if configScopeKey = configParentKey then some v else _) = _
        rw [if_neg (by decide)]
      have h4 : stripReserved ((configScopeKey, v) :: r) = stripReserved r := by
        show (if configScopeKey = configScopeKey ∨ _ then _ else _) = _
        rw [if_pos (Or.inl rfl)]
      rw [h2, h3, h4]
      rw [h1] at ihr
      simp at ihr ⊢
      omega
    · by_cases hp : k = configParentKey
      · subst hp
        have h1 : findVal r configParentKey = none :=
          findVal_none_of_not_mem hnd.1
        have h2 : findVal ((configParentKey, v) :: r) configParentKey =
            some v := by
          show (if configParentKey = configParentKey then some v else _) = _
          rw [if_pos rfl]
        have h3 : findVal ((configParentKey, v) :: r) configScopeKey =
            findVal r configScopeKey := by
          show (if configParentKey = configScopeKey then some v else _) = _
          rw [if_neg (by decide)]
        have h4 : stripReserved ((configParentKey, v) :: r) =
            stripReserved r := by
          show (if configParentKey = configScopeKey ∨
            configParentKey = configParentKey then _ else _) = _
          rw [if_pos (Or.inr rfl)]
        rw [h2, h3, h4]
        rw [h1] at ihr
        simp at ihr ⊢
        omega
      · have h2 : findVal ((k, v) :: r) configScopeKey =
            findVal r configScopeKey := by
          show (if k = configScopeKey then some v else _) = _
          rw [if_neg hs]
        have h3 : findVal ((k, v) :: r) configParentKey =
            findVal r configParentKey := by
          show (if k = configParentKey then some v else _) = _
          rw [if_neg hp]
        have h4 : stripReserved ((k, v) :: r) = (k, v) :: stripReserved r := by
          show (if k = configScopeKey ∨ k = configParentKey then _ else _) = _
          rw [if_neg (by push_neg; exact ⟨hs, hp⟩)]
        rw [h2, h3, h4]
        simp only [List.length_cons]
        omega

/-- The key/value loop of `Config.MarshalJSON` writes exactly the
compact text of the stripped list — keys verbatim — provided the comma
bound `cl` counts the kept entries from `cx`. -/
theorem mcEntries_enc (F : Nat) : ∀ (c : Config) (cx G : Nat),
    wfF (stripReserved c) = true → fsizeV c < F →
    fsizeV (stripReserved c) < G →
    mcEntriesAux F c cx (cx + (stripReserved c).length) =
      .ok (encFieldsR G false 1 (stripReserved c)) := by
  induction F using Nat.strong_induction_on with
  | _ F IH =>
    intro c cx G hwf hcF hcG
    obtain ⟨Fp, rfl⟩ : ∃ Fp, F = Fp + 1 :=
      ⟨F - 1, by have := fsizeV_pos c; omega⟩
    cases c with
    | nil =>
      obtain ⟨Gp, rfl⟩ : ∃ Gp, G = Gp + 1 := ⟨G - 1, by omega⟩
      rfl
    | cons kv r =>
      obtain ⟨k, v⟩ := kv
      by_cases hres : k = configScopeKey ∨ k = configParentKey
      · have h4 : stripReserved ((k, v) :: r) = stripReserved r := by
          show (if k = configScopeKey ∨ k = configParentKey
            then _ else _) = _
          rw [if_pos hres]
        rw [h4] at hwf hcG ⊢
        simp only [mcEntriesAux]
        rw [if_pos hres]
        exact IH Fp (by omega) r cx G hwf
          (by simp only [fsizeV] at hcF; have := vsize_pos v; omega) hcG
      · have h4 : stripReserved ((k, v) :: r) = (k, v) :: stripReserved r := by
          show (if k = configScopeKey ∨ k = configParentKey
            then _ else _) = _
          rw [if_neg hres]
        rw [h4] at hwf hcG ⊢
        have hk : wfV v = true ∧ wfF (stripReserved r) = true := by
          simpa [wfF, Bool.and_eq_true] using hwf
        simp only [fsizeV] at hcF hcG
        obtain ⟨Gp, rfl⟩ : ∃ Gp, G = Gp + 1 := ⟨G - 1, by omega⟩
        have hsr := fsizeV_pos (stripReserved r)
        have hfr := fsizeV_pos r
        have hvv := vsize_pos v
        have hstri := fsizeV_strip_le r
        have hj := (marshal_enc_bundle Fp).1 v 1 Gp hk.1 (by omega) (by omega)
        have hrec := IH Fp (by omega) r (cx + 1) Gp hk.2 (by omega) (by omega)
        have harith : cx + ((k, v) :: stripReserved r).length =
            (cx + 1) + (stripReserved r).length := by
          simp only [List.length_cons]
          omega
        rw [harith]
        simp only [mcEntriesAux]
        rw [if_neg hres, hj, hrec]
        cases hsp : stripReserved r with
        | nil =>
          obtain ⟨Gq, rfl⟩ : ∃ Gq, Gp = Gq + 1 := ⟨Gp - 1, by omega⟩
          show Except.ok ("\x22" ++ k ++ "\x22:" ++ encAux (Gq + 1) false 1 v ++
            (if cx < cx + 1 + 0 - 1 then "," else "") ++
              encFieldsR (Gq + 1) false 1 []) = _
          rw [if_neg (by omega)]
          show Except.ok _ = Except.ok ("\x22" ++ k ++ "\x22:" ++
            colonPad false ++ encAux (Gq + 1) false 1 v)
          congr 1
          apply String.ext
          simp [String.data_append, colonPad,
            show encFieldsR (Gq + 1) false 1 [] = "" from rfl]
        | cons kv2 t =>
          show Except.ok ("\x22" ++ k ++ "\x22:" ++ encAux Gp false 1 v ++
            (if cx < cx + 1 + (kv2 :: t).length - 1 then "," else "") ++
              encFieldsR Gp false 1 (kv2 :: t)) = _
          rw [if_pos (by simp only [List.length_cons]; omega)]
          show Except.ok _ = Except.ok ("\x22" ++ k ++ "\x22:" ++
            colonPad false ++ encAux Gp false 1 v ++ "," ++ nlPad false 1 ++
            encFieldsR Gp false 1 (kv2 :: t))
          congr 1
          apply String.ext
          simp [String.data_append, colonPad, nlPad]

/-- `Config.MarshalJSON` (with enough fuel) emits exactly the compact
text of the stripped tree — keys verbatim — for unique keys and
reserved keys of their expected dynamic types (the source decrements
its comma bound `cl` only for a `string`-typed scope and a
`Config`-typed parent). -/
theorem marshalConfig_enc (c : Config)
    (hnd : (c.map Prod.fst).Nodup)
    (hwf : wfF (stripReserved c) = true)
    (hscope : findVal c configScopeKey = none ∨
      ∃ t, findVal c configScopeKey = some (.vStr t))
    (hpar : findVal c configParentKey = none ∨
      ∃ g, findVal c configParentKey = some (.vObj true g)) :
    marshalConfig c = .ok (encodeCompactR (stripReserved c)) := by
  have hstr := strip_length hnd
  have hcl : c.length -
      (match findVal c configScopeKey with
        | some (.vStr _) => 1 | _ => 0) -
      (match findVal c configParentKey with
        | some (.vObj true _) => 1 | _ => 0) =
      (stripReserved c).length := by
    rcases hscope with h | ⟨t, h⟩ <;> rcases hpar with h2 | ⟨g, h2⟩ <;>
      rw [h, h2] <;> rw [h, h2] at hstr <;> simp at hstr ⊢ <;> omega
  have hmc := mcEntries_enc (fsizeV c + 1) c 0
    (vsize (.vObj false (stripReserved c))) hwf (by omega)
    (by simp only [vsize]; omega)
  simp only [Nat.zero_add] at hmc
  show (match mcEntriesAux (fsizeV c + 1) c 0
      (c.length -
        (match findVal c configScopeKey with
          | some (.vStr _) => 1 | _ => 0) -
        (match findVal c configParentKey with
          | some (.vObj true _) => 1 | _ => 0)) with
    | .error e => Except.error e
    | .ok es => Except.ok (String.mk [obrace] ++ es ++ String.mk [cbrace])) =
    Except.ok (encodeCompactR (stripReserved c))
  rw [hcl, hmc]
  cases hsp : stripReserved c with
  | nil =>
    show Except.ok _ = Except.ok _
    congr 1
  | cons kv t =>
    show Except.ok _ = Except.ok _
    congr 1
    apply String.ext
    show _ = ((String.mk [obrace] ++ nlPad false 1 ++
      encFieldsR (vsize (.vObj false (kv :: t))) false 1 (kv :: t) ++
      nlPad false 0 ++ String.mk [cbrace])).data
    simp [String.data_append, nlPad]

/-- Stripping never leaves a parent entry. -/
theorem findVal_strip_parent (c : Config) :
    findVal (stripReserved c) configParentKey = none := by
  induction c with
  | nil => rfl
  | cons kv r ih =>
    obtain ⟨k, v⟩ := kv
    show findVal (if k = configScopeKey ∨ k = configParentKey
      then stripReserved r else (k, v) :: stripReserved r)
      configParentKey = none
    by_cases hres : k = configScopeKey ∨ k = configParentKey
    · rw [if_pos hres]
      exact ih
    · rw [if_neg hres]
      show (if k = configParentKey then some v else _) = _
      rw [if_neg (fun hh => hres (Or.inr hh)), ih]

/-- Looking a non-reserved token up ignores the stripped entries. -/
theorem findFoldIdx_strip (c : Config) (tok : String)
    (hs : eqFold tok configScopeKey = false)
    (hp : eqFold tok configParentKey = false) :
    (findFoldIdx (stripReserved c) tok).map Prod.snd =
      (findFoldIdx c tok).map Prod.snd := by
  induction c with
  | nil => rfl
  | cons kv r ih =>
    obtain ⟨k, v⟩ := kv
    show (findFoldIdx (if k = configScopeKey ∨ k = configParentKey
      then stripReserved r else (k, v) :: stripReserved r) tok).map Prod.snd = _
    by_cases hres : k = configScopeKey ∨ k = configParentKey
    · rw [if_pos hres]
      have hkf : eqFold tok k = false := by
        rcases hres with h | h <;> rw [h] <;> assumption
      show _ = (findFoldIdx ((k, v) :: r) tok).map Prod.snd
      rw [show findFoldIdx ((k, v) :: r) tok =
        (if eqFold tok k then some (0, v) else
          match findFoldIdx r tok with
          | some (i, w) => some (i + 1, w)
          | none => none) from rfl]
      rw [if_neg (by simp [hkf])]
      rw [ih]
      cases findFoldIdx r tok with
      | none => rfl
      | some iw => cases iw; rfl
    · rw [if_neg hres]
      show (if eqFold tok k then some ((0 : Nat), v) else
        match findFoldIdx (stripReserved r) tok with
        | some (i, w) => some (i + 1, w)
        | none => none).map Prod.snd =
        (if eqFold tok k then some ((0 : Nat), v) else
          match findFoldIdx r tok with
          | some (i, w) => some (i + 1, w)
          | none => none).map Prod.snd
      by_cases hkf : eqFold tok k = true
      · rw [if_pos hkf, if_pos hkf]
      · rw [if_neg (by simp [Bool.not_eq_true] at hkf; simp [hkf]),
          if_neg (by simp [Bool.not_eq_true] at hkf; simp [hkf])]
        have := ih
        cases h1 : findFoldIdx (stripReserved r) tok with
        | none =>
          rw [h1] at this
          cases h2 : findFoldIdx r tok with
          | none => rfl
          | some iw =>
            rw [h2] at this
            simp at this
        | some iw =>
          obtain ⟨i, w⟩ := iw
          rw [h1] at this
          cases h2 : findFoldIdx r tok with
          | none =>
            rw [h2] at this
            simp at this
          | some iw2 =>
            obtain ⟨i2, w2⟩ := iw2
            rw [h2] at this
            simp at this
            rw [this]
            rfl

/-- The pure traversal result only depends on the values the fold-lookup
returns, not on positions. -/
theorem traverse_fst_congr (tok : String) (rest : List String)
    (c c' : Config)
    (h : (findFoldIdx c' tok).map Prod.snd =
      (findFoldIdx c tok).map Prod.snd) :
    (traverseV (.vObj true c') (tok :: rest)).1 =
      (traverseV (.vObj true c) (tok :: rest)).1 := by
  cases h1 : findFoldIdx c' tok with
  | none =>
    rw [h1] at h
    cases h2 : findFoldIdx c tok with
    | some iw =>
      rw [h2] at h
      simp at h
    | none =>
      show (if (stepV (.vObj true c') tok).1.isNull then _ else _ : Value × _).1 =
        (if (stepV (.vObj true c) tok).1.isNull then _ else _ : Value × _).1
      rw [show stepV (.vObj true c') tok =
        (match findFoldIdx c' tok with
          | some (i, v) => (v, fun x => Value.vObj true (setValAt c' i x))
          | none => (.vNull, fun x => x)) from rfl]
      rw [show stepV (.vObj true c) tok =
        (match findFoldIdx c tok with
          | some (i, v) => (v, fun x => Value.vObj true (setValAt c i x))
          | none => (.vNull, fun x => x)) from rfl]
      rw [h1, h2]
  | some iw =>
    obtain ⟨i, w⟩ := iw
    rw [h1] at h
    cases h2 : findFoldIdx c tok with
    | none =>
      rw [h2] at h
      simp at h
    | some iw2 =>
      obtain ⟨i2, w2⟩ := iw2
      rw [h2] at h
      simp at h
      subst h
      show (if (stepV (.vObj true c') tok).1.isNull then _ else _ : Value × _).1 =
        (if (stepV (.vObj true c) tok).1.isNull then _ else _ : Value × _).1
      rw [show stepV (.vObj true c') tok =
        (match findFoldIdx c' tok with
          | some (i, v) => (v, fun x => Value.vObj true (setValAt c' i x))
          | none => (.vNull, fun x => x)) from rfl]
      rw [show stepV (.vObj true c) tok =
        (match findFoldIdx c tok with
          | some (i, v) => (v, fun x => Value.vObj true (setValAt c i x))
          | none => (.vNull, fun x => x)) from rfl]
      rw [h1, h2]
      by_cases hn : w.isNull = true
      · simp only [hn]
        rfl
      · simp only [Bool.not_eq_true] at hn
        simp only [hn]
        rfl



/-- Dropping the reserved entries preserves `get` for parentless trees
on every path whose first token is not a reserved key (fold-wise). -/
theorem get_strip (env : Env) (c : Config) (path : String) (b : Bool)
    (hparent : findVal c configParentKey = none)
    (tok : String) (toks : List String)
    (htok : pathTokens path = tok :: toks)
    (hs : eqFold tok configScopeKey = false)
    (hp : eqFold tok configParentKey = false) :
    Config.get env (stripReserved c) path b = Config.get env c path b := by
  have hres : resolvePath (stripReserved c) path = resolvePath c path := by
    unfold resolvePath
    rw [htok]
    exact traverse_fst_congr tok toks c (stripReserved c)
      (findFoldIdx_strip c tok hs hp)
  show getAux (fsizeV (stripReserved c) + 1) env (stripReserved c) path b =
    getAux (fsizeV c + 1) env c path b
  simp only [getAux]
  rw [hres]
  have h1 : Config.Parent (stripReserved c) = none := by
    unfold Config.Parent
    rw [findVal_strip_parent]
  have h2 : Config.Parent c = none := by
    unfold Config.Parent
    rw [hparent]
  rw [h1, h2]

def c6cfgW : Config :=
  [("name", .vStr "svc one"),
   ("html", .vStr "<a>\n\x22quoted\x22</a>"),
   ("half", .vNum ⟨5, 2, by decide, by decide⟩),
   ("negfrac", .vNum ⟨-3, 8, by decide, by decide⟩),
   ("port", .vNum (intToRat 8080)),
   ("list", .vArr [.vNum (intToRat 1), .vBool true, .vNull,
      .vObj false [("k", .vStr "v")]]),
   ("@scope@", .vStr "x")]

def c6cfgP : Config :=
  [("a", .vStr "1"), ("@parent@", .vObj true [("b", .vStr "2")])]

def c6cfgF : Config := [("f", .vFunc "func()")]

def c6cfgQ : Config := [("a\x22b", .vStr "1")]

def c6cfgS : Config := [("a", .vStr "1"), ("@scope@", .vBool true)]

def c6cfgN : Config :=
  [("a", .vObj true [("b", .vStr "1"), ("@scope@", .vStr "s")])]

def c6cfgR : Config := [("r", .vRec [("F", .vStr "1")])]

/-- C6: for a tree whose entries are JSON data — no function values, no
struct records, no `Config`-typed nested containers, keys JSON strings
can hold verbatim (the marshaler writes keys unescaped), and reserved
entries of their expected dynamic types — the marshaled text is exactly
the compact text of the tree without its reserved entries; decoding
that text, and its indented rendering, reproduces the stripped tree
exactly; and when the tree has no parent entry, `Get` on the decoded
tree agrees with `Get` on the original at every path whose first token
is not a reserved key.  (The `Nodup` hypothesis models Go map key
uniqueness; `wfV`'s denominator bound holds for every `float64` value
the `ℚ` embedding can stand for.  Each remaining restriction is forced
by a conjunct of the counterexample.) -/
theorem c6_roundtrip (c : Config)
    (hnd : (c.map Prod.fst).Nodup)
    (hwf : wfF (stripReserved c) = true)
    (hkeys : keysOk (stripReserved c) = true)
    (hscope : findVal c configScopeKey = none ∨
      ∃ t, findVal c configScopeKey = some (Value.vStr t))
    (hpar : findVal c configParentKey = none ∨
      ∃ g, findVal c configParentKey = some (Value.vObj true g)) :
    marshalConfig c = .ok (encodeCompactR (stripReserved c)) ∧
    decodeConfig (encodeCompactR (stripReserved c)) = some (stripReserved c) ∧
    decodeConfig (encodeIndentedR (stripReserved c)) = some (stripReserved c) ∧
    (findVal c configParentKey = none →
      ∀ (env : Env) (path : String) (tok : String) (toks : List String),
        pathTokens path = tok :: toks →
        eqFold tok configScopeKey = false →
        eqFold tok configParentKey = false →
        Config.Get env (stripReserved c) path = Config.Get env c path) :=
  ⟨marshalConfig_enc c hnd hwf hscope hpar,
   decodeConfig_encObjR (stripReserved c) hwf hkeys false,
   decodeConfig_encObjR (stripReserved c) hwf hkeys true,
   fun hpn env path tok toks htok hs hp =>
     get_strip env c path true hpn tok toks htok hs hp⟩

/-- C6 witness: a concrete scoped tree holding multi-word text, text
that needs escaping, the fractional numbers 2.5 and -0.375, an integer,
and an array with a nested plain container round-trips through the
marshaler and decoder at both layouts, and its decoded form agrees with
the original under `Get`. -/
theorem c6_roundtrip_witness :
    ((c6cfgW.map Prod.fst).Nodup ∧ wfF (stripReserved c6cfgW) = true ∧
      keysOk (stripReserved c6cfgW) = true ∧
      findVal c6cfgW configParentKey = none ∧
      pathTokens "half" = ["half"] ∧
      eqFold "half" configScopeKey = false ∧
      eqFold "half" configParentKey = false) ∧
    marshalConfig c6cfgW = .ok (encodeCompactR (stripReserved c6cfgW)) ∧
    decodeConfig (encodeCompactR (stripReserved c6cfgW)) =
      some (stripReserved c6cfgW) ∧
    decodeConfig (encodeIndentedR (stripReserved c6cfgW)) =
      some (stripReserved c6cfgW) ∧
    Config.Get env0 (stripReserved c6cfgW) "half" =
      Config.Get env0 c6cfgW "half" := by
  have h := c6_roundtrip c6cfgW (by decide)
    (by set_option maxRecDepth 10000 in decide) (by decide)
    (Or.inr ⟨"x", rfl⟩) (Or.inl rfl)
  exact ⟨⟨by decide, by set_option maxRecDepth 10000 in decide, by decide,
      rfl, rfl, by decide, by decide⟩,
    h.1, h.2.1, h.2.2.1, h.2.2.2 rfl env0 "half" "half" [] rfl
      (by decide) (by decide)⟩

/-- C6 counterexample, one conjunct per restriction the amended claim
carries: (1) a tree with a parent entry marshals and decodes to its
stripped form, but `Get` at the non-reserved path `b` sees `"2"`
through the parent before the round trip and nil after; (2) a function
value makes the marshaler error, so no encoding exists; (3) a key
holding a quote is written verbatim and the text no longer decodes;
(4) a scope entry that is not a string derails the marshaler's comma
count and the text no longer decodes; (5) a `Config`-typed nested
container decodes as a plain container (its own reserved entries
dropped), so `Get` differs; (6) a struct record decodes as a plain
container, so `Get` differs. -/
theorem c6_roundtrip_cx :
    (marshalConfig c6cfgP = .ok (encodeCompactR (stripReserved c6cfgP)) ∧
      decodeConfig (encodeCompactR (stripReserved c6cfgP)) =
        some (stripReserved c6cfgP) ∧
      Config.Get env0 c6cfgP "b" = .vStr "2" ∧
      Config.Get env0 (stripReserved c6cfgP) "b" = .vNull) ∧
    marshalConfig c6cfgF = .error ("json: unsupported type: " ++ "func()") ∧
    (marshalConfig c6cfgQ =
        .ok "\x7b\x22a\x22b\x22:\x221\x22\x7d" ∧
      decodeConfig "\x7b\x22a\x22b\x22:\x221\x22\x7d" = none) ∧
    (marshalConfig c6cfgS = .ok "\x7b\x22a\x22:\x221\x22,\x7d" ∧
      decodeConfig "\x7b\x22a\x22:\x221\x22,\x7d" = none) ∧
    (marshalConfig c6cfgN = .ok "\x7b\x22a\x22:\x7b\x22b\x22:\x221\x22\x7d\x7d" ∧
      decodeConfig "\x7b\x22a\x22:\x7b\x22b\x22:\x221\x22\x7d\x7d" =
        some [("a", .vObj false [("b", .vStr "1")])] ∧
      Config.Get env0 c6cfgN "a" ≠
        Config.Get env0 [("a", .vObj false [("b", .vStr "1")])] "a") ∧
    (marshalConfig c6cfgR = .ok "\x7b\x22r\x22:\x7b\x22F\x22:\x221\x22\x7d\x7d" ∧
      decodeConfig "\x7b\x22r\x22:\x7b\x22F\x22:\x221\x22\x7d\x7d" =
        some [("r", .vObj false [("F", .vStr "1")])] ∧
      Config.Get env0 c6cfgR "r" ≠
        Config.Get env0 [("r", .vObj false [("F", .vStr "1")])] "r") :=
  ⟨⟨rfl, rfl, rfl, rfl⟩, rfl, ⟨rfl, rfl⟩, ⟨rfl, rfl⟩,
   ⟨rfl, rfl, fun h => Value.noConfusion
     (show Value.vObj true [("b", Value.vStr "1"), ("@scope@", Value.vStr "s")] =
       Value.vObj false [("b", Value.vStr "1")] from h)
     (fun hb _ => Bool.noConfusion hb)⟩,
   ⟨rfl, rfl, fun h => Value.noConfusion
     (show Value.vRec [("F", Value.vStr "1")] =
       Value.vObj false [("F", Value.vStr "1")] from h)⟩⟩

end Lsx
